import Mathlib

/-!
# Work-share iteration of libgomp (`libgomp/iter.c`)

A shallow embedding of the loop schedulers of `libgomp/iter.c`: the static,
dynamic, guided and adaptive ("AID") policies that hand out sub-ranges of one
iteration space to the threads of a team.

Conventions of the embedding.

* A C `long` is an `Int`, a C `unsigned long` or `unsigned` is a `Nat`.
  Unsigned arithmetic wraps, so it is written with an explicit remainder modulo
  `2^64` (or `2^32`), and conversions between the two kinds are the functions
  `toULong` and `toLong`.
* Arithmetic on the iteration space (the cursor `next`, the distance to `end`,
  the bounds `pstart` and `pend` of a granted range) is the two's-complement
  arithmetic of the 64-bit code: the result of such an addition, subtraction or
  multiplication goes through `wrapLong`.  Where several operations follow one
  another the result is wrapped once, which gives the same value
  (`wrapLong_add_wrapLong`, `wrapLong_mul_wrapLong`).
* The bookkeeping of the adaptive policy (the cells of `aid_allocated_iter` and
  `aid_consumed_time`, the quota remainder) is written with the exact
  operations of `Int`; it is meaningful while these values are representable.
* `/` on `long` is C division, which truncates toward zero: `Int.tdiv`.
* The two output parameters `*pstart`, `*pend` are a pair that is present
  exactly when the function writes them.
* An atomic read-modify-write is one step on the shared cursor, so a sequence
  of calls is a sequence of state transformers.
-/

namespace Gomp

/-! ## Machine integers -/

/-- Number of values of a 64-bit `unsigned long`. -/
abbrev ULONG_MOD : Nat := 18446744073709551616

/-- Number of values of a 32-bit `unsigned`. -/
abbrev UINT_MOD : Nat := 4294967296

/-- One more than `LONG_MAX`. -/
abbrev LONG_LIM : Int := 9223372036854775808

/-- Conversion of a `long` to `unsigned long`. -/
def toULong (x : Int) : Nat := (x % (ULONG_MOD : Int)).toNat

/-- Conversion of an `unsigned long` to `long` (two's complement). -/
def toLong (u : Nat) : Int :=
  if u % ULONG_MOD < 9223372036854775808 then ((u % ULONG_MOD : Nat) : Int)
  else ((u % ULONG_MOD : Nat) : Int) - (ULONG_MOD : Int)

/-- Conversion to a 32-bit `unsigned`. -/
def toUInt (x : Int) : Nat := (x % (UINT_MOD : Int)).toNat

/-- Representable as a `long`. -/
def InLong (x : Int) : Prop := -LONG_LIM ≤ x ∧ x < LONG_LIM

instance (x : Int) : Decidable (InLong x) := by
  unfold InLong; infer_instance

/-! ## Data model -/

/-- Per-thread state tag of the adaptive policy; `other` stands for any value
of the field that is none of the four named tags. -/
inductive AidState where
  | AID_INIT
  | AID_SAMPLING
  | AID_WAITING
  | AID_RUNNING
  | other (tag : Nat)
  deriving DecidableEq, Repr

/-- Modelled from the spec: `libgomp.h` is not part of the sources, so the
fields of `struct gomp_work_share` that `iter.c` touches are declared here with
the types the spec's data model and the uses in `iter.c` give them (`next`,
`end`, `incr`, `chunk_size`, `aid_ni` and the cells of `aid_allocated_iter` and
`aid_consumed_time` are `long`; `aid_sf`, `aid_k` and
`aid_thread_sampling_completed` are `unsigned`). -/
structure gomp_work_share where
  mode : Bool := true
  chunk_size : Int
  end_ : Int
  incr : Int
  next : Int
  aid_states : List AidState := []
  aid_allocated_iter : List Int := []
  aid_consumed_time : List Int := []
  aid_thread_sampling_completed : Nat := 0
  aid_ni : Int := 0
  aid_sf : Nat := 0
  aid_k : Nat := 0
  deriving DecidableEq, Repr

/-- Modelled from the spec: the part of `struct gomp_team_state` that `iter.c`
uses (`libgomp.h` is not part of the sources): the rank `team_id` and the
signed trip counter `static_trip` with its sentinel `-1`. -/
structure gomp_team_state where
  team_id : Nat
  static_trip : Int := 0
  deriving DecidableEq, Repr

/-- A granted range `[pstart, pend)`. -/
abbrev Range := Int × Int

/-- The `long` that a 64-bit computation with the exact result `x` produces:
`x` reduced modulo `2^64` into the range of `long` (two's complement). -/
def wrapLong (x : Int) : Int := toLong (toULong x)

/-- The builtin `__sync_fetch_and_add` on a `long` cell: the old value and the
new content of the cell. -/
def sync_fetch_and_add (cell v : Int) : Int × Int := (cell, wrapLong (cell + v))

/-- The builtin `__sync_val_compare_and_swap` on a `long` cell: the old value
and the new content of the cell. -/
def sync_val_compare_and_swap (cell expected desired : Int) : Int × Int :=
  (cell, if cell = expected then desired else cell)

/-! ## Sequences of calls -/

/-- State after the first `k` calls of `f`. -/
def stateAfter {σ ρ : Type} (f : σ → σ × ρ) (s : σ) : Nat → σ
  | 0 => s
  | k + 1 => (f (stateAfter f s k)).1

/-- Result of call number `k` (counted from `0`) in a sequence of calls of `f`
that starts in state `s`. -/
def resultOf {σ ρ : Type} (f : σ → σ × ρ) (s : σ) (k : Nat) : ρ :=
  (f (stateAfter f s k)).2

/-! ## Dynamic scheduling -/

/-- The function `gomp_iter_dynamic_next_locked` (iter.c, lines 160-189).  The
result `none` is the return value `false`; `some (pstart, pend)` is `true`. -/
def gomp_iter_dynamic_next_locked (ws : gomp_work_share) :
    gomp_work_share × Option Range :=
  let start := ws.next
  if start = ws.end_ then (ws, none)
  else
    let chunk := ws.chunk_size
    let left := wrapLong (ws.end_ - start)
    let chunk :=
      if ws.incr < 0 then (if chunk < left then left else chunk)
      else (if chunk > left then left else chunk)
    let nend := wrapLong (start + chunk)
    ({ ws with next := nend }, some (start, nend))

/-- The retry loop of `gomp_iter_dynamic_next` (iter.c, lines 235-260), run for
at most `fuel` rounds on the cursor cell `cell`; `start` is the value last
observed and `chunk` the (possibly already clipped) local of that name.  The
result is the new cell content with the values of `start` and `nend` at the
`break`, or with `none` for `return false`; no result when the fuel is used
up. -/
def dynamic_next_loop (end_ incr : Int) :
    Nat → Int → Int → Int → Option (Int × Option Range)
  | 0, _, _, _ => none
  | fuel + 1, cell, start, chunk =>
    let left := wrapLong (end_ - start)
    if start = end_ then some (cell, none)
    else
      let chunk :=
        if incr < 0 then (if chunk < left then left else chunk)
        else (if chunk > left then left else chunk)
      let nend := wrapLong (start + chunk)
      let r := sync_val_compare_and_swap cell start nend
      if r.1 = start then some (r.2, some (start, nend))
      else dynamic_next_loop end_ incr fuel r.2 r.1 chunk

/-- The function `gomp_iter_dynamic_next` (iter.c, lines 196-265), called with
no other thread running; `fuel` bounds the rounds of the retry loop. -/
def gomp_iter_dynamic_next (fuel : Nat) (ws : gomp_work_share) :
    Option (gomp_work_share × Option Range) :=
  let end_ := ws.end_
  let incr := ws.incr
  let chunk := ws.chunk_size
  if ws.mode then
    let r := sync_fetch_and_add ws.next chunk
    let tmp := r.1
    let ws1 := { ws with next := r.2 }
    if incr > 0 then
      if tmp ≥ end_ then some (ws1, none)
      else
        let nend := wrapLong (tmp + chunk)
        let nend := if nend > end_ then end_ else nend
        some (ws1, some (tmp, nend))
    else
      if tmp ≤ end_ then some (ws1, none)
      else
        let nend := wrapLong (tmp + chunk)
        let nend := if nend < end_ then end_ else nend
        some (ws1, some (tmp, nend))
  else
    let start := ws.next
    (dynamic_next_loop end_ incr fuel ws.next start chunk).map
      (fun r => ({ ws with next := r.1 }, r.2))

/-- State after the first `k` calls of a function that may fail to return. -/
def stateAfter? {σ ρ : Type} (f : σ → Option (σ × ρ)) (s : σ) : Nat → Option σ
  | 0 => some s
  | k + 1 => (stateAfter? f s k).bind (fun s1 => (f s1).map Prod.fst)

/-- Result of call number `k` (counted from `0`) of a function that may fail to
return; `none` when that call or an earlier one did not return. -/
def resultOf? {σ ρ : Type} (f : σ → Option (σ × ρ)) (s : σ) (k : Nat) : Option ρ :=
  (stateAfter? f s k).bind (fun s1 => (f s1).map Prod.snd)

/-! ## Static scheduling -/

/-- The function `gomp_iter_static_next` (iter.c, lines 51-153).  The argument
`team` is `none` for an orphaned construct (`thr->ts.team == NULL`) and
`some nthreads` otherwise.  The result is the thread state after the call, the
returned `int`, and the range when one is written. -/
def gomp_iter_static_next (team : Option Nat) (ws : gomp_work_share)
    (ts : gomp_team_state) : gomp_team_state × (Int × Option Range) :=
  let nthreads : Nat := match team with
    | some n => n
    | none => 1
  if ts.static_trip = -1 then (ts, (-1, none))
  else if nthreads = 1 then
    ({ ts with static_trip := -1 },
      ((if ws.next = ws.end_ then 1 else 0), some (ws.next, ws.end_)))
  else if ws.chunk_size = 0 then
    if ts.static_trip > 0 then (ts, (1, none))
    else
      let s := ws.incr + (if ws.incr > 0 then -1 else 1)
      let n := toULong (Int.tdiv (wrapLong (ws.end_ - ws.next + s)) ws.incr)
      let i := ts.team_id
      let q := n / nthreads
      let t := n % nthreads
      let tq : Nat × Nat := if i < t then (0, (q + 1) % ULONG_MOD) else (t, q)
      let t := tq.1
      let q := tq.2
      let s0 := (q * i + t) % ULONG_MOD
      let e0 := (s0 + q) % ULONG_MOD
      if s0 ≥ e0 then ({ ts with static_trip := 1 }, (1, none))
      else
        let s := wrapLong (toLong s0 * ws.incr + ws.next)
        let e := wrapLong (toLong e0 * ws.incr + ws.next)
        ({ ts with static_trip := if e0 = n then -1 else 1 }, (0, some (s, e)))
  else
    let s := ws.incr + (if ws.incr > 0 then -1 else 1)
    let n := toULong (Int.tdiv (wrapLong (ws.end_ - ws.next + s)) ws.incr)
    let i := ts.team_id
    let c := toULong ws.chunk_size
    let s0 := ((toULong ts.static_trip * nthreads + i) * c) % ULONG_MOD
    let e0 := (s0 + c) % ULONG_MOD
    if s0 ≥ n then (ts, (1, none))
    else
      let e0 := if e0 > n then n else e0
      let s := wrapLong (toLong s0 * ws.incr + ws.next)
      let e := wrapLong (toLong e0 * ws.incr + ws.next)
      ({ ts with static_trip := if e0 = n then -1 else ts.static_trip + 1 },
        (0, some (s, e)))

/-- The total number of iterations as `gomp_iter_static_next` computes it
(iter.c, lines 83-85 and 124-125): the number of `x = next + j * incr`,
`j = 0, 1, ...`, that lie before `end`. -/
def iterCount (next end_ incr : Int) : Nat :=
  toULong (Int.tdiv (wrapLong (end_ - next + (incr + (if incr > 0 then -1 else 1)))) incr)

/-! ## Guided scheduling -/

/-- The function `gomp_iter_guided_next_locked` (iter.c, lines 518-546). -/
def gomp_iter_guided_next_locked (team : Option Nat) (ws : gomp_work_share) :
    gomp_work_share × Option Range :=
  let nthreads : Nat := match team with
    | some n => n
    | none => 1
  if ws.next = ws.end_ then (ws, none)
  else
    let start := ws.next
    let n := toULong (Int.tdiv (wrapLong (ws.end_ - start)) ws.incr)
    let q := ((n + nthreads + (ULONG_MOD - 1)) % ULONG_MOD) / nthreads
    let q := if q < toULong ws.chunk_size then toULong ws.chunk_size else q
    let nend :=
      if q ≤ n then toLong ((toULong start + q * toULong ws.incr) % ULONG_MOD)
      else ws.end_
    ({ ws with next := nend }, some (start, nend))

/-- The retry loop of `gomp_iter_guided_next` (iter.c, lines 567-590), run for
at most `fuel` rounds on the cursor cell `cell`; `start` is the value last
observed. -/
def guided_next_loop (nthreads : Nat) (end_ incr : Int) (chunk_size : Nat) :
    Nat → Int → Int → Option (Int × Option Range)
  | 0, _, _ => none
  | fuel + 1, cell, start =>
    if start = end_ then some (cell, none)
    else
      let n := toULong (Int.tdiv (wrapLong (end_ - start)) incr)
      let q := ((n + nthreads + (ULONG_MOD - 1)) % ULONG_MOD) / nthreads
      let q := if q < chunk_size then chunk_size else q
      let nend :=
        if q ≤ n then toLong ((toULong start + q * toULong incr) % ULONG_MOD)
        else end_
      let r := sync_val_compare_and_swap cell start nend
      if r.1 = start then some (r.2, some (start, nend))
      else guided_next_loop nthreads end_ incr chunk_size fuel r.2 r.1

/-- The function `gomp_iter_guided_next` (iter.c, lines 552-595), called with
no other thread running; `fuel` bounds the rounds of the retry loop. -/
def gomp_iter_guided_next (fuel : Nat) (team : Option Nat) (ws : gomp_work_share) :
    Option (gomp_work_share × Option Range) :=
  let nthreads : Nat := match team with
    | some n => n
    | none => 1
  let start := ws.next
  let end_ := ws.end_
  let incr := ws.incr
  let chunk_size := toULong ws.chunk_size
  (guided_next_loop nthreads end_ incr chunk_size fuel ws.next start).map
    (fun r => ({ ws with next := r.1 }, r.2))

/-! ## Adaptive ("AID") scheduling -/

/-- How a call of `gomp_iter_aid_static_next` ends: it returns a boolean (with
the range when `true`), or the process ends in `gomp_fatal`, in `exit (0)`, or
in an integer division by zero. -/
inductive AidOutcome where
  | ret (r : Option Range)
  | fatal
  | exit_
  | div_by_zero
  deriving DecidableEq, Repr

/-- The statement `ws->aid_allocated_iter[thread_id] += v`. -/
def add_allocated (ws : gomp_work_share) (thread_id : Nat) (v : Int) :
    gomp_work_share :=
  { ws with aid_allocated_iter :=
      ws.aid_allocated_iter.set thread_id (ws.aid_allocated_iter.getD thread_id 0 + v) }

/-- The macro `STEAL_NEXT_BY` (iter.c, lines 287-307). -/
def STEAL_NEXT_BY (ws : gomp_work_share) (thread_id : Nat) (chunk : Int) :
    gomp_work_share × Option Range :=
  let end_ := ws.end_
  let incr := ws.incr
  let r := sync_fetch_and_add ws.next chunk
  let tmp := r.1
  let ws1 := { ws with next := r.2 }
  if incr > 0 then
    if tmp ≥ end_ then (ws1, none)
    else
      let nend := wrapLong (tmp + chunk)
      let ws2 := add_allocated ws1 thread_id chunk
      let nend := if nend > end_ then end_ else nend
      (ws2, some (tmp, nend))
  else
    if tmp ≤ end_ then (ws1, none)
    else
      let nend := wrapLong (tmp + chunk)
      let ws2 := add_allocated ws1 thread_id chunk
      let nend := if nend < end_ then end_ else nend
      (ws2, some (tmp, nend))

/-- The macro `AID_STATIC_NEXT_WITH` (iter.c, lines 309-336); `k` and `sf` are
`unsigned`, so their product wraps modulo `2^32` before it becomes a `long`. -/
def AID_STATIC_NEXT_WITH (ws : gomp_work_share) (thread_id : Nat) (k sf : Nat)
    (on_big_core : Bool) : gomp_work_share × Option Range :=
  let end_ := ws.end_
  let incr := ws.incr
  let chunk : Int := if on_big_core then (((k * sf) % UINT_MOD : Nat) : Int) else (k : Int)
  let chunk := chunk - ws.aid_allocated_iter.getD thread_id 0
  if incr > 0 then
    if chunk ≤ 0 then (ws, none)
    else
      let r := sync_fetch_and_add ws.next chunk
      let tmp := r.1
      let ws1 := { ws with next := r.2 }
      if tmp ≥ end_ then (ws1, none)
      else
        let ws2 := add_allocated ws1 thread_id chunk
        let nend := wrapLong (tmp + chunk)
        let nend := if nend > end_ then end_ else nend
        (ws2, some (tmp, nend))
  else
    if chunk ≥ 0 then (ws, none)
    else
      let r := sync_fetch_and_add ws.next chunk
      let tmp := r.1
      let ws1 := { ws with next := r.2 }
      if tmp ≤ end_ then (ws1, none)
      else
        let ws2 := add_allocated ws1 thread_id chunk
        let nend := wrapLong (tmp + chunk)
        let nend := if nend < end_ then end_ else nend
        (ws2, some (tmp, nend))

/-- The local `chunk` of the macro `AID_STATIC_NEXT_WITH` (iter.c, lines
310-311): the quota `k * sf` (an `unsigned` product) or `k` of the thread, less
what `aid_allocated_iter` records for it. -/
def aid_quota_chunk (ws : gomp_work_share) (thread_id : Nat) (k sf : Nat)
    (on_big_core : Bool) : Int :=
  (if on_big_core then (((k * sf) % UINT_MOD : Nat) : Int) else (k : Int))
    - ws.aid_allocated_iter.getD thread_id 0

/-- The two summation loops of the calibration (iter.c, lines 393-398): the
`unsigned long` sum of `aid_consumed_time[i]` for `lo <= i < hi`. -/
def sum_consumed_time (ws : gomp_work_share) (lo hi : Nat) : Nat :=
  ((List.range hi).filter (fun i => lo ≤ i)).foldl
    (fun acc i => (acc + toULong (ws.aid_consumed_time.getD i 0)) % ULONG_MOD) 0

/-- The function `gomp_iter_aid_static_next` (iter.c, lines 268-446), as one
atomic step of the thread of rank `thread_id` in a team of `nthreads` threads;
`now` is the reading `tv.tv_sec * 1000000 + tv.tv_usec` of the clock in this
call.  A thread whose slot of `aid_states` does not exist reads an unnamed
tag. -/
def gomp_iter_aid_static_next (nthreads thread_id : Nat) (now : Int)
    (ws : gomp_work_share) : gomp_work_share × AidOutcome :=
  let on_big_core : Bool := decide (thread_id ≥ nthreads / 2)
  let end_ := ws.end_
  let incr := ws.incr
  let chunk := ws.chunk_size
  if ws.mode then
    match ws.aid_states.getD thread_id (AidState.other 0) with
    | AidState.AID_INIT =>
      let ws1 := { ws with aid_states := ws.aid_states.set thread_id AidState.AID_SAMPLING }
      let r := sync_fetch_and_add ws1.next chunk
      let tmp := r.1
      let ws2 := { ws1 with next := r.2 }
      let ws3 := { ws2 with aid_consumed_time := ws2.aid_consumed_time.set thread_id now }
      if incr > 0 then
        if tmp ≥ end_ then (ws3, AidOutcome.ret none)
        else
          let nend := wrapLong (tmp + chunk)
          let ws4 := add_allocated ws3 thread_id chunk
          let nend := if nend > end_ then end_ else nend
          (ws4, AidOutcome.ret (some (tmp, nend)))
      else
        if tmp ≤ end_ then (ws3, AidOutcome.ret none)
        else
          let nend := wrapLong (tmp + chunk)
          let ws4 := add_allocated ws3 thread_id chunk
          let nend := if nend < end_ then end_ else nend
          (ws4, AidOutcome.ret (some (tmp, nend)))
    | AidState.AID_SAMPLING =>
      let ws1 := { ws with aid_consumed_time :=
        ws.aid_consumed_time.set thread_id (now - ws.aid_consumed_time.getD thread_id 0) }
      let cnt := (ws1.aid_thread_sampling_completed + 1) % UINT_MOD
      let ws2 := { ws1 with aid_thread_sampling_completed := cnt }
      if cnt ≥ nthreads then
        let ws3 := { ws2 with aid_states := ws2.aid_states.set thread_id AidState.AID_RUNNING }
        let smallcore_time := sum_consumed_time ws3 0 (nthreads / 2)
        let bigcore_time := sum_consumed_time ws3 (nthreads / 2) nthreads
        if smallcore_time = 0 then (ws3, AidOutcome.div_by_zero)
        else
          let sf :=
            (((bigcore_time + smallcore_time + (ULONG_MOD - 1)) % ULONG_MOD) / smallcore_time)
              % UINT_MOD
          let sf := if sf = 0 then 1 else sf
          let d := ((((sf + 1) % UINT_MOD) * nthreads) % UINT_MOD) / 2
          if d = 0 then (ws3, AidOutcome.div_by_zero)
          else
            let k := toUInt (Int.tdiv ws3.aid_ni (d : Int))
            let ws4 := { ws3 with aid_sf := sf, aid_k := k }
            let r := AID_STATIC_NEXT_WITH ws4 thread_id k sf on_big_core
            (r.1, AidOutcome.ret r.2)
      else
        let ws3 := { ws2 with aid_states := ws2.aid_states.set thread_id AidState.AID_WAITING }
        let r := STEAL_NEXT_BY ws3 thread_id chunk
        (r.1, AidOutcome.ret r.2)
    | AidState.AID_WAITING =>
      let k := ws.aid_k
      let sf := ws.aid_sf
      if sf > 0 ∧ k > 0 then
        let ws1 := { ws with aid_states := ws.aid_states.set thread_id AidState.AID_RUNNING }
        let r := AID_STATIC_NEXT_WITH ws1 thread_id k sf on_big_core
        (r.1, AidOutcome.ret r.2)
      else
        let r := STEAL_NEXT_BY ws thread_id chunk
        (r.1, AidOutcome.ret r.2)
    | AidState.AID_RUNNING =>
      let r := STEAL_NEXT_BY ws thread_id chunk
      (r.1, AidOutcome.ret r.2)
    | AidState.other _ => (ws, AidOutcome.fatal)
  else (ws, AidOutcome.exit_)

/-- One entry of a sequential schedule of the adaptive policy: the rank of the
thread that makes the next call and the clock reading in that call. -/
structure AidCall where
  thread_id : Nat
  now : Int
  deriving DecidableEq, Repr

/-- Runs a schedule of calls of `gomp_iter_aid_static_next` in order and
collects, for every call, the calling rank and the outcome. -/
def aidRun (nthreads : Nat) :
    List AidCall → gomp_work_share → gomp_work_share × List (Nat × AidOutcome)
  | [], ws => (ws, [])
  | c :: cs, ws =>
    let r := gomp_iter_aid_static_next nthreads c.thread_id c.now ws
    let rest := aidRun nthreads cs r.1
    (rest.1, (c.thread_id, r.2) :: rest.2)

/-! ## The shares of the spec -/

/-- Start of the zero-based share of rank `i` in the spec's words:
`i*q + min(i, t)` with `q = n / nthreads` and `t = n % nthreads`. -/
def autoShareStart (n nthreads i : Nat) : Nat :=
  i * (n / nthreads) + min i (n % nthreads)

/-- Length of the zero-based share of rank `i` in the spec's words: `q + 1` for
the ranks below `t`, `q` for the others. -/
def autoShareLen (n nthreads i : Nat) : Nat :=
  if i < n % nthreads then n / nthreads + 1 else n / nthreads

/-- Start of the zero-based block that the spec gives to rank `i` on its trip
number `j` under fixed chunking: `(j*nthreads + i) * c`. -/
def chunkBlockStart (nthreads c i j : Nat) : Nat := (j * nthreads + i) * c

/-- The conditions under which the guided functions are called: the cursor lies
on the side of `end` that the sign of `incr` gives, the values are
representable and their difference does not overflow, the team has between
one and `UINT_MAX` threads, and `chunk_size` is the non-negative value of the
spec's unsigned configuration field. -/
def GuidedWF (nthreads : Nat) (ws : gomp_work_share) : Prop :=
  ((0 < ws.incr ∧ ws.next ≤ ws.end_) ∨ (ws.incr < 0 ∧ ws.end_ ≤ ws.next)) ∧
  InLong ws.next ∧ InLong ws.end_ ∧ InLong (ws.end_ - ws.next) ∧
  1 ≤ nthreads ∧ nthreads < UINT_MOD ∧ 0 ≤ ws.chunk_size ∧ ws.chunk_size < LONG_LIM

instance (nthreads : Nat) (ws : gomp_work_share) : Decidable (GuidedWF nthreads ws) := by
  unfold GuidedWF; infer_instance

/-- The chunk size of the guided functions in the spec's words, for `n`
remaining iterations: `max(ceil(n / nthreads), chunk_size)`. -/
def guidedChunk (nthreads n c : Nat) : Nat := max ((n + nthreads - 1) / nthreads) c

/-- The range that the spec's rule for the guided functions grants when
`remaining` iterations are left: `q` iterations from `next`, or the whole
remainder `[next, end)` when `q` exceeds `remaining`. -/
def guidedSpecRange (nthreads remaining : Nat) (ws : gomp_work_share) : Range :=
  if guidedChunk nthreads remaining ws.chunk_size.toNat ≤ remaining then
    (ws.next, ws.next + (guidedChunk nthreads remaining ws.chunk_size.toNat : Nat) * ws.incr)
  else (ws.next, ws.end_)

/-- Size in iterations of a range `[a, b)` walked with stride `incr`: the number
of points `a + j * incr`, `j = 0, 1, ...`, that lie before `b`, which is
`ceil(|b - a| / |incr|)`. -/
def chunkIters (incr a b : Int) : Nat :=
  ((b - a).natAbs + incr.natAbs - 1) / incr.natAbs

/-- Size in iterations of what a call granted; `0` when it returned false. -/
def grantedIters (incr : Int) : Option Range → Nat
  | some r => chunkIters incr r.1 r.2
  | none => 0

/-- The zero-based block `[s0, e0)` that the spec gives to rank `i` on call
number `k` of the static policy, for `n` iterations and chunk size `c`: with
`c = 0` the share of the rank on its first call only, with `c > 0` the block of
trip `k`; `none` when the rank gets nothing on that call. -/
def staticBlock (nthreads n c i k : Nat) : Option (Nat × Nat) :=
  if c = 0 then
    if k = 0 ∧ 0 < autoShareLen n nthreads i then
      some (autoShareStart n nthreads i,
        autoShareStart n nthreads i + autoShareLen n nthreads i)
    else none
  else if chunkBlockStart nthreads c i k < n then
    some (chunkBlockStart nthreads c i k, min (chunkBlockStart nthreads c i k + c) n)
  else none

/-- The conditions under which the static function is called in a team of at
least two threads: the cursor lies on the side of `end` that the sign of `incr`
gives, the computation of the iteration count does not overflow and the count
is representable as a `long`, `chunk_size` is the non-negative value of the
spec's unsigned configuration field, the block starts of fixed chunking do
not wrap, and the cursor `next` and the end `next + n * incr` of the last
range are representable as `long`. -/
def StaticWF (nthreads : Nat) (ws : gomp_work_share) : Prop :=
  2 ≤ nthreads ∧
  ((0 < ws.incr ∧ ws.next ≤ ws.end_) ∨ (ws.incr < 0 ∧ ws.end_ ≤ ws.next)) ∧
  InLong (ws.end_ - ws.next + (ws.incr + (if ws.incr > 0 then -1 else 1))) ∧
  iterCount ws.next ws.end_ ws.incr < 9223372036854775808 ∧
  0 ≤ ws.chunk_size ∧ ws.chunk_size < LONG_LIM ∧
  iterCount ws.next ws.end_ ws.incr + nthreads * toULong ws.chunk_size ≤ ULONG_MOD ∧
  InLong ws.next ∧
  InLong (ws.next + (iterCount ws.next ws.end_ ws.incr : Int) * ws.incr)

instance (nthreads : Nat) (ws : gomp_work_share) : Decidable (StaticWF nthreads ws) := by
  unfold StaticWF; infer_instance

/-! ## The calibration of the adaptive policy, step by step -/

/-- The state tag `ws->aid_states[thread_id]` as `gomp_iter_aid_static_next`
reads it. -/
def aidStateOf (ws : gomp_work_share) (thread_id : Nat) : AidState :=
  ws.aid_states.getD thread_id (AidState.other 0)

/-- The work share in the `AID_SAMPLING` case after the clock was stopped and
the completion counter incremented (iter.c, lines 373-376). -/
def aid_sampled (thread_id : Nat) (now : Int) (ws : gomp_work_share) : gomp_work_share :=
  { ws with
    aid_consumed_time :=
      ws.aid_consumed_time.set thread_id (now - ws.aid_consumed_time.getD thread_id 0),
    aid_thread_sampling_completed := (ws.aid_thread_sampling_completed + 1) % UINT_MOD }

/-- The work share of the last sampler when it sums the sampled times: as
`aid_sampled`, with the caller already tagged `AID_RUNNING` (iter.c, line
380). -/
def aid_calibrating (thread_id : Nat) (now : Int) (ws : gomp_work_share) :
    gomp_work_share :=
  { aid_sampled thread_id now ws with
    aid_states := ws.aid_states.set thread_id AidState.AID_RUNNING }

/-- The value of `sf` after iter.c, lines 400-401, from the two sums: the
`unsigned long` quotient `(bigcore_time + smallcore_time - 1) / smallcore_time`
narrowed to `unsigned`, and `1` in place of `0`. -/
def calib_sf (bigcore_time smallcore_time : Nat) : Nat :=
  if (((bigcore_time + smallcore_time + (ULONG_MOD - 1)) % ULONG_MOD) / smallcore_time)
      % UINT_MOD = 0 then 1
  else (((bigcore_time + smallcore_time + (ULONG_MOD - 1)) % ULONG_MOD) / smallcore_time)
      % UINT_MOD

/-- The divisor `(sf + 1) * nthreads / 2` of iter.c, line 403, in `unsigned`
arithmetic. -/
def calib_div (sf nthreads : Nat) : Nat :=
  ((((sf + 1) % UINT_MOD) * nthreads) % UINT_MOD) / 2

/-- The value of `k` after iter.c, line 403: the `long` quotient narrowed to
`unsigned`. -/
def calib_k (aid_ni : Int) (d : Nat) : Nat := toUInt (Int.tdiv aid_ni (d : Int))

/-- The sum `smallcore_time` of the last sampler: the sampled times of the ranks
below `nthreads / 2` (iter.c, lines 393-395). -/
def smallcore_time (nthreads thread_id : Nat) (now : Int) (ws : gomp_work_share) : Nat :=
  sum_consumed_time (aid_calibrating thread_id now ws) 0 (nthreads / 2)

/-- The sum `bigcore_time` of the last sampler: the sampled times of the ranks
from `nthreads / 2` on (iter.c, lines 396-398). -/
def bigcore_time (nthreads thread_id : Nat) (now : Int) (ws : gomp_work_share) : Nat :=
  sum_consumed_time (aid_calibrating thread_id now ws) (nthreads / 2) nthreads

/-- The speedup factor that the last sampler computes. -/
def sf_of (nthreads thread_id : Nat) (now : Int) (ws : gomp_work_share) : Nat :=
  calib_sf (bigcore_time nthreads thread_id now ws) (smallcore_time nthreads thread_id now ws)

/-- The quota unit that the last sampler computes. -/
def k_of (nthreads thread_id : Nat) (now : Int) (ws : gomp_work_share) : Nat :=
  calib_k ws.aid_ni (calib_div (sf_of nthreads thread_id now ws) nthreads)

/-- The work share of the last sampler after it stored `aid_sf` and `aid_k`
(iter.c, lines 405-406), before its own quota claim. -/
def aid_published (nthreads thread_id : Nat) (now : Int) (ws : gomp_work_share) :
    gomp_work_share :=
  { aid_calibrating thread_id now ws with
    aid_sf := sf_of nthreads thread_id now ws,
    aid_k := k_of nthreads thread_id now ws }

/-- The state machine of the spec: the tag of a thread after its call, from its
tag `s` before the call and the shared fields of the work share.  `Init` goes
to `Sampling`; `Sampling` goes to `Running` when the incremented completion
counter reaches `nthreads` and to `Waiting` otherwise; `Waiting` goes to
`Running` when `aid_sf` and `aid_k` are both nonzero and stays otherwise;
`Running` stays. -/
def aidNextState (nthreads : Nat) (ws : gomp_work_share) (s : AidState) : AidState :=
  match s with
  | AidState.AID_INIT => AidState.AID_SAMPLING
  | AidState.AID_SAMPLING =>
    if nthreads ≤ (ws.aid_thread_sampling_completed + 1) % UINT_MOD
    then AidState.AID_RUNNING else AidState.AID_WAITING
  | AidState.AID_WAITING =>
    if 0 < ws.aid_sf ∧ 0 < ws.aid_k then AidState.AID_RUNNING else AidState.AID_WAITING
  | AidState.AID_RUNNING => AidState.AID_RUNNING
  | AidState.other tag => AidState.other tag

/-- The completion counter after a call by a thread whose tag was `s`: one more
(as an `unsigned`) after a `Sampling` call, unchanged otherwise. -/
def aidNextCount (ws : gomp_work_share) (s : AidState) : Nat :=
  if s = AidState.AID_SAMPLING then (ws.aid_thread_sampling_completed + 1) % UINT_MOD
  else ws.aid_thread_sampling_completed

/-- Number of calls in a schedule that rank `r` makes while its tag is
`AID_SAMPLING`, that is, the number of times `r` increments the completion
counter. -/
def samplingCalls (nthreads r : Nat) : List AidCall → gomp_work_share → Nat
  | [], _ => 0
  | c :: cs, ws =>
    (if c.thread_id = r ∧ aidStateOf ws r = AidState.AID_SAMPLING then 1 else 0)
      + samplingCalls nthreads r cs (gomp_iter_aid_static_next nthreads c.thread_id c.now ws).1

/-- The quotient `a / b` rounded up, `ceil(a / b)`, for `b > 0`. -/
def ceilDiv (a b : Nat) : Nat := (a + b - 1) / b

/-- The speedup factor in the spec's words:
`max(1, ceil((faster_time + slower_time) / slower_time))`. -/
def specSf (faster_time slower_time : Nat) : Nat :=
  max 1 (ceilDiv (faster_time + slower_time) slower_time)

/-- The static quota of the spec for rank `thread_id`: `k * sf` in the faster
half (`thread_id >= nthreads / 2`), `k` in the slower half. -/
def quotaSpec (nthreads thread_id k sf : Nat) : Int :=
  if thread_id ≥ nthreads / 2 then (k : Int) * (sf : Int) else (k : Int)

/-- The static quota claim in the spec's words, for a quota `Q`, a positive
stride and a cursor before `end`: with `a` the iterations already allocated to
the thread, nothing happens and the call returns false when `Q - a <= 0`;
otherwise the range of `Q - a` from the cursor, clipped to `end`, is granted,
the cursor advances by `Q - a` and the thread's allocation becomes `Q`. -/
def quotaClaimSpec (ws : gomp_work_share) (thread_id : Nat) (Q : Int) :
    gomp_work_share × Option Range :=
  if Q - ws.aid_allocated_iter.getD thread_id 0 ≤ 0 then (ws, none)
  else
    ({ ws with
        next := ws.next + (Q - ws.aid_allocated_iter.getD thread_id 0),
        aid_allocated_iter := ws.aid_allocated_iter.set thread_id Q },
      some (ws.next, min (ws.next + (Q - ws.aid_allocated_iter.getD thread_id 0)) ws.end_))

/-- The exact (unbounded) sum of the sampled times `aid_consumed_time[i]`, read
as `unsigned long`, over the ranks `lo <= i < hi`. -/
def sampleSum (ws : gomp_work_share) (lo hi : Nat) : Nat :=
  (((List.range hi).filter (fun i => lo ≤ i)).map
    (fun i => toULong (ws.aid_consumed_time.getD i 0))).sum

/-! ## Concurrent calls of the lock-free dynamic function -/

/-- Where a thread stands in `gomp_iter_dynamic_next` between two of its atomic
steps: outside a call (`idle`), inside the retry loop with its locals `start`
and `chunk` (`loaded`: after the relaxed load of line 234 or a failed
compare-and-swap), or out of the loop for good after a call returned false
(`stopped`). -/
inductive DynPc where
  | idle
  | loaded (start chunk : Int)
  | stopped
  deriving DecidableEq, Repr

/-- A team running `gomp_iter_dynamic_next` concurrently on one work share: the
shared work share, where each thread stands, and the ranges granted so far in
the order of their grant. -/
structure DynConc where
  ws : gomp_work_share
  pc : Nat → DynPc
  granted : List Range

/-- The thread positions with that of thread `t` replaced. -/
def setPc (pc : Nat → DynPc) (t : Nat) (v : DynPc) : Nat → DynPc :=
  fun j => if j = t then v else pc j

/-- One atomic step of thread `t` in `gomp_iter_dynamic_next` (iter.c, lines
196-265).  With `mode` true a call is the single fetch-and-add of line 209 with
the local computation after it.  With `mode` false a call starts with the
relaxed load of line 234; every later step is one round of the loop, lines
237-259, around the compare-and-swap of line 255.  A thread that has received
false makes no further call. -/
def dynamic_next_step (s : DynConc) (t : Nat) : DynConc :=
  let end_ := s.ws.end_
  let incr := s.ws.incr
  match s.pc t with
  | DynPc.stopped => s
  | DynPc.idle =>
    if s.ws.mode then
      let chunk := s.ws.chunk_size
      let r := sync_fetch_and_add s.ws.next chunk
      let tmp := r.1
      let ws1 := { s.ws with next := r.2 }
      if incr > 0 then
        if tmp ≥ end_ then
          { ws := ws1, pc := setPc s.pc t DynPc.stopped, granted := s.granted }
        else
          let nend := wrapLong (tmp + chunk)
          let nend := if nend > end_ then end_ else nend
          { ws := ws1, pc := s.pc, granted := s.granted ++ [(tmp, nend)] }
      else
        if tmp ≤ end_ then
          { ws := ws1, pc := setPc s.pc t DynPc.stopped, granted := s.granted }
        else
          let nend := wrapLong (tmp + chunk)
          let nend := if nend < end_ then end_ else nend
          { ws := ws1, pc := s.pc, granted := s.granted ++ [(tmp, nend)] }
    else
      { s with pc := setPc s.pc t (DynPc.loaded s.ws.next s.ws.chunk_size) }
  | DynPc.loaded start chunk =>
    let left := wrapLong (end_ - start)
    if start = end_ then { s with pc := setPc s.pc t DynPc.stopped }
    else
      let chunk :=
        if incr < 0 then (if chunk < left then left else chunk)
        else (if chunk > left then left else chunk)
      let nend := wrapLong (start + chunk)
      let r := sync_val_compare_and_swap s.ws.next start nend
      if r.1 = start then
        { ws := { s.ws with next := r.2 }, pc := setPc s.pc t DynPc.idle,
          granted := s.granted ++ [(start, nend)] }
      else
        { ws := { s.ws with next := r.2 }, pc := setPc s.pc t (DynPc.loaded r.1 chunk),
          granted := s.granted }

/-- Runs the atomic steps of a schedule, given as the list of the threads that
step, in order. -/
def dynamic_next_run (s : DynConc) : List Nat → DynConc
  | [] => s
  | t :: ts => dynamic_next_run (dynamic_next_step s t) ts

/-- The team before any call: every thread outside a call, nothing granted. -/
def dynInit (ws : gomp_work_share) : DynConc :=
  { ws := ws, pc := fun _ => DynPc.idle, granted := [] }

/-- The ranges of the list abut in order and lead from `s` to `e`, each
non-empty and ascending. -/
def RangeChain : Int → List Range → Int → Prop
  | s, [], e => s = e
  | s, r :: rest, e => r.1 = s ∧ r.1 < r.2 ∧ RangeChain r.2 rest e

/-- The mirror image of a list of ranges. -/
def negRanges (l : List Range) : List Range := l.map (fun r => (-r.1, -r.2))

/-- The iteration values of a range for a stride of the sign of `incr`:
`[pstart, pend)` read upwards for a positive stride, downwards otherwise. -/
def inRange (incr : Int) (r : Range) (x : Int) : Prop :=
  if 0 < incr then r.1 ≤ x ∧ x < r.2 else r.2 < x ∧ x ≤ r.1

instance (incr : Int) (r : Range) (x : Int) : Decidable (inRange incr r x) := by
  unfold inRange; infer_instance

/-- What holds of a team started on `ws0` after at most `n` atomic steps, for a
positive stride: only the cursor has changed; the granted ranges abut from the
initial cursor up to the cursor (or to `end` once the cursor is past it); with
`mode` true the cursor has advanced by at most `n` chunks; with `mode` false it
is not past `end`; the locals of a thread in the retry loop are an earlier
cursor, not before the initial one, and a positive chunk; a thread got false
only with the cursor at or past `end`. -/
def DynInvUp (ws0 : gomp_work_share) (n : Nat) (s : DynConc) : Prop :=
  (s.ws.mode = ws0.mode ∧ s.ws.end_ = ws0.end_ ∧ s.ws.incr = ws0.incr ∧
    s.ws.chunk_size = ws0.chunk_size) ∧
  RangeChain ws0.next s.granted (min s.ws.next ws0.end_) ∧
  (ws0.mode = true → ∃ m : Nat, m ≤ n ∧ s.ws.next = ws0.next + m * ws0.chunk_size) ∧
  (ws0.mode = false → s.ws.next ≤ ws0.end_) ∧
  (∀ t a c, s.pc t = DynPc.loaded a c →
    ws0.mode = false ∧ ws0.next ≤ a ∧ a ≤ s.ws.next ∧ 0 < c) ∧
  (∀ t, s.pc t = DynPc.stopped → ws0.end_ ≤ s.ws.next)

/-- The mirror image of `DynInvUp` for a negative stride. -/
def DynInvDown (ws0 : gomp_work_share) (n : Nat) (s : DynConc) : Prop :=
  (s.ws.mode = ws0.mode ∧ s.ws.end_ = ws0.end_ ∧ s.ws.incr = ws0.incr ∧
    s.ws.chunk_size = ws0.chunk_size) ∧
  RangeChain (-ws0.next) (negRanges s.granted) (-(max s.ws.next ws0.end_)) ∧
  (ws0.mode = true → ∃ m : Nat, m ≤ n ∧ s.ws.next = ws0.next + m * ws0.chunk_size) ∧
  (ws0.mode = false → ws0.end_ ≤ s.ws.next) ∧
  (∀ t a c, s.pc t = DynPc.loaded a c →
    ws0.mode = false ∧ a ≤ ws0.next ∧ s.ws.next ≤ a ∧ c < 0) ∧
  (∀ t, s.pc t = DynPc.stopped → s.ws.next ≤ ws0.end_)

/-! ## Theorems -/

theorem wrapLong_of_inLong (x : Int) (h : InLong x) : wrapLong x = x := by
  unfold InLong at h
  unfold wrapLong toLong toULong
  simp only [ULONG_MOD, LONG_LIM] at *
  have h0 : 0 ≤ x % (18446744073709551616 : Int) := Int.emod_nonneg _ (by decide)
  have h1 : x % (18446744073709551616 : Int) < 18446744073709551616 :=
    Int.emod_lt_of_pos _ (by decide)
  have hm : ((x % (18446744073709551616 : Int)).toNat % 18446744073709551616 : Nat)
      = (x % (18446744073709551616 : Int)).toNat := Nat.mod_eq_of_lt (by omega)
  simp only [Nat.cast_ofNat, hm]
  split_ifs <;> omega

/-- Wrapping keeps the residue modulo `2^64`. -/
theorem wrapLong_emod (a : Int) :
    wrapLong a % 18446744073709551616 = a % 18446744073709551616 := by
  unfold wrapLong toLong toULong
  simp only [ULONG_MOD]
  have ha0 : 0 ≤ a % (18446744073709551616 : Int) := Int.emod_nonneg _ (by decide)
  have ha1 : a % (18446744073709551616 : Int) < 18446744073709551616 :=
    Int.emod_lt_of_pos _ (by decide)
  split_ifs <;> omega

/-- Values with the same residue modulo `2^64` wrap to the same `long`. -/
theorem wrapLong_congr (a b : Int)
    (h : a % 18446744073709551616 = b % 18446744073709551616) : wrapLong a = wrapLong b := by
  unfold wrapLong toULong
  simp only [ULONG_MOD, Nat.cast_ofNat]
  rw [h]

/-- Wrapping after an addition gives what wrapping after each step gives, so a
sum of `long` values is wrapped once. -/
theorem wrapLong_add_wrapLong (a b : Int) : wrapLong (wrapLong a + b) = wrapLong (a + b) := by
  apply wrapLong_congr
  rw [Int.add_emod, wrapLong_emod, ← Int.add_emod]

/-- Wrapping after a multiplication gives what wrapping after each step
gives. -/
theorem wrapLong_mul_wrapLong (a b : Int) : wrapLong (wrapLong a * b) = wrapLong (a * b) := by
  apply wrapLong_congr
  rw [Int.mul_emod, wrapLong_emod, ← Int.mul_emod]

/-- On a work share whose cursor, `end` and distance `end - next` are
representable, with the cursor on the side of `end` that the stride gives and a
displacement of the sign of the stride, no operation of
`gomp_iter_dynamic_next_locked` overflows: the call is the exact clipped
advance. -/
theorem dynamic_locked_exact (ws : gomp_work_share)
    (hdir : (0 < ws.incr ∧ 0 < ws.chunk_size ∧ ws.next ≤ ws.end_) ∨
      (ws.incr < 0 ∧ ws.chunk_size < 0 ∧ ws.end_ ≤ ws.next))
    (hn : InLong ws.next) (he : InLong ws.end_) (hd : InLong (ws.end_ - ws.next)) :
    gomp_iter_dynamic_next_locked ws =
      if ws.next = ws.end_ then (ws, none)
      else
        ({ ws with next := ws.next +
            (if ws.incr < 0 then
              (if ws.chunk_size < ws.end_ - ws.next then ws.end_ - ws.next else ws.chunk_size)
            else
              (if ws.chunk_size > ws.end_ - ws.next then ws.end_ - ws.next
                else ws.chunk_size)) },
          some (ws.next, ws.next +
            (if ws.incr < 0 then
              (if ws.chunk_size < ws.end_ - ws.next then ws.end_ - ws.next else ws.chunk_size)
            else
              (if ws.chunk_size > ws.end_ - ws.next then ws.end_ - ws.next
                else ws.chunk_size)))) := by
  unfold gomp_iter_dynamic_next_locked
  simp only [wrapLong_of_inLong _ hd]
  have hw : wrapLong (ws.next +
      (if ws.incr < 0 then
        (if ws.chunk_size < ws.end_ - ws.next then ws.end_ - ws.next else ws.chunk_size)
      else
        (if ws.chunk_size > ws.end_ - ws.next then ws.end_ - ws.next else ws.chunk_size)))
      = ws.next +
      (if ws.incr < 0 then
        (if ws.chunk_size < ws.end_ - ws.next then ws.end_ - ws.next else ws.chunk_size)
      else
        (if ws.chunk_size > ws.end_ - ws.next then ws.end_ - ws.next else ws.chunk_size)) := by
    apply wrapLong_of_inLong
    unfold InLong at *
    rcases hdir with ⟨h1, h2, h3⟩ | ⟨h1, h2, h3⟩ <;> split_ifs <;> constructor <;> omega
  rw [hw]

theorem dynamic_locked_state_pos (ws : gomp_work_share) (hi : 0 < ws.incr)
    (hc : 0 < ws.chunk_size) (hle : ws.next ≤ ws.end_)
    (hn : InLong ws.next) (he : InLong ws.end_) (hd : InLong (ws.end_ - ws.next)) (k : Nat) :
    stateAfter gomp_iter_dynamic_next_locked ws k =
      { ws with next := min (ws.next + k * ws.chunk_size) ws.end_ } := by
  induction k with
  | zero =>
    simp [stateAfter]
    cases ws; simp at hle ⊢; omega
  | succ k ih =>
    have hk : ((k + 1 : Nat) : Int) * ws.chunk_size = k * ws.chunk_size + ws.chunk_size := by
      push_cast; ring
    have hk0 : 0 ≤ (k : Int) * ws.chunk_size := by positivity
    rw [stateAfter, ih, hk]
    rw [dynamic_locked_exact { ws with next := min (ws.next + k * ws.chunk_size) ws.end_ }
      (Or.inl ⟨hi, hc, min_le_right _ _⟩)
      (by unfold InLong at *; simp only; constructor <;> omega) he
      (by unfold InLong at *; simp only; constructor <;> omega)]
    simp only
    split_ifs <;> simp at * <;> omega

theorem dynamic_locked_state_neg (ws : gomp_work_share) (hi : ws.incr < 0)
    (hc : ws.chunk_size < 0) (hle : ws.end_ ≤ ws.next)
    (hn : InLong ws.next) (he : InLong ws.end_) (hd : InLong (ws.end_ - ws.next)) (k : Nat) :
    stateAfter gomp_iter_dynamic_next_locked ws k =
      { ws with next := max (ws.next + k * ws.chunk_size) ws.end_ } := by
  induction k with
  | zero =>
    simp [stateAfter]
    cases ws; simp at hle ⊢; omega
  | succ k ih =>
    have hk : ((k + 1 : Nat) : Int) * ws.chunk_size = k * ws.chunk_size + ws.chunk_size := by
      push_cast; ring
    have hk0 : (k : Int) * ws.chunk_size ≤ 0 :=
      mul_nonpos_of_nonneg_of_nonpos (Int.ofNat_nonneg k) hc.le
    rw [stateAfter, ih, hk]
    rw [dynamic_locked_exact { ws with next := max (ws.next + k * ws.chunk_size) ws.end_ }
      (Or.inr ⟨hi, hc, le_max_right _ _⟩)
      (by unfold InLong at *; simp only; constructor <;> omega) he
      (by unfold InLong at *; simp only; constructor <;> omega)]
    simp only
    split_ifs <;> simp at * <;> omega

theorem dynamic_locked_result_pos (ws : gomp_work_share) (hi : 0 < ws.incr)
    (hc : 0 < ws.chunk_size) (hle : ws.next ≤ ws.end_)
    (hn : InLong ws.next) (he : InLong ws.end_) (hd : InLong (ws.end_ - ws.next)) (k : Nat) :
    resultOf gomp_iter_dynamic_next_locked ws k =
      if ws.next + k * ws.chunk_size < ws.end_ then
        some (ws.next + k * ws.chunk_size, min (ws.next + (k + 1) * ws.chunk_size) ws.end_)
      else none := by
  have hk : ((k : Int) + 1) * ws.chunk_size = k * ws.chunk_size + ws.chunk_size := by ring
  have hk0 : 0 ≤ (k : Int) * ws.chunk_size := by positivity
  rw [resultOf, dynamic_locked_state_pos ws hi hc hle hn he hd, hk]
  rw [dynamic_locked_exact { ws with next := min (ws.next + k * ws.chunk_size) ws.end_ }
      (Or.inl ⟨hi, hc, min_le_right _ _⟩)
    (by unfold InLong at *; simp only; constructor <;> omega) he
    (by unfold InLong at *; simp only; constructor <;> omega)]
  simp only
  split_ifs <;> simp at * <;> omega

theorem dynamic_locked_result_neg (ws : gomp_work_share) (hi : ws.incr < 0)
    (hc : ws.chunk_size < 0) (hle : ws.end_ ≤ ws.next)
    (hn : InLong ws.next) (he : InLong ws.end_) (hd : InLong (ws.end_ - ws.next)) (k : Nat) :
    resultOf gomp_iter_dynamic_next_locked ws k =
      if ws.end_ < ws.next + k * ws.chunk_size then
        some (ws.next + k * ws.chunk_size, max (ws.next + (k + 1) * ws.chunk_size) ws.end_)
      else none := by
  have hk : ((k : Int) + 1) * ws.chunk_size = k * ws.chunk_size + ws.chunk_size := by ring
  have hk0 : (k : Int) * ws.chunk_size ≤ 0 :=
    mul_nonpos_of_nonneg_of_nonpos (Int.ofNat_nonneg k) hc.le
  rw [resultOf, dynamic_locked_state_neg ws hi hc hle hn he hd, hk]
  rw [dynamic_locked_exact { ws with next := max (ws.next + k * ws.chunk_size) ws.end_ }
      (Or.inr ⟨hi, hc, le_max_right _ _⟩)
    (by unfold InLong at *; simp only; constructor <;> omega) he
    (by unfold InLong at *; simp only; constructor <;> omega)]
  simp only
  split_ifs <;> simp at * <;> omega

/-- Every point at or after `s` lies in exactly one of the blocks
`[s + k * c, s + (k + 1) * c)`, `k = 0, 1, ...`, of a positive width `c`. -/
theorem block_index_unique (s c x : Int) (hc : 0 < c) (hx : s ≤ x) :
    ∃! k : Nat, s + k * c ≤ x ∧ x < s + (k + 1) * c := by
  have h1 : (x - s) / c * c ≤ x - s := Int.ediv_mul_le _ hc.ne.symm
  have h2 : x - s < ((x - s) / c + 1) * c := Int.lt_ediv_add_one_mul_self _ hc
  have h0 : 0 ≤ (x - s) / c := Int.ediv_nonneg (by omega) hc.le
  refine ⟨((x - s) / c).toNat, ?_, ?_⟩
  · simp only [Int.toNat_of_nonneg h0]
    constructor <;> linarith
  · rintro j ⟨hj1, hj2⟩
    have e : (j : Int) = (x - s) / c := by
      by_contra hne
      rcases lt_or_gt_of_ne hne with hlt | hgt
      · have : (j : Int) + 1 ≤ (x - s) / c := hlt
        have := mul_le_mul_of_nonneg_right this hc.le
        linarith
      · have : (x - s) / c + 1 ≤ (j : Int) := hgt
        have := mul_le_mul_of_nonneg_right this hc.le
        linarith
    omega

/-- C1 (as stated, refuted).  With `incr = 1`, `chunk_size = 3`, `next =
LONG_MIN` and `end = LONG_MAX` the claim's conditions hold, but the distance
`end - next` is not a `long`: `left` wraps to `-1`, the chunk is clipped to it,
and the first call of `gomp_iter_dynamic_next_locked` grants the whole span
`[LONG_MIN, LONG_MAX)` instead of `[start, start + 3)`. -/
theorem dynamic_locked_span_wraps :
    resultOf gomp_iter_dynamic_next_locked
        { chunk_size := 3, end_ := 9223372036854775807, incr := 1,
          next := -9223372036854775808 } 0
      = some (-9223372036854775808, 9223372036854775807) ∧
    resultOf gomp_iter_dynamic_next_locked
        { chunk_size := 3, end_ := 9223372036854775807, incr := 1,
          next := -9223372036854775808 } 0
      ≠ some (-9223372036854775808, -9223372036854775808 + 3) ∧
    resultOf gomp_iter_dynamic_next_locked
        { chunk_size := 3, end_ := 9223372036854775807, incr := 1,
          next := -9223372036854775808 } 1 = none := by
  refine ⟨by decide, by decide, by decide⟩

/-- C1 (amended).  Dynamic partition, locked form: on a work share whose
`next`, `end` and distance `end - next` are representable as `long`, with
`incr > 0`, displacement
`chunk_size = c > 0` and `next = start <= end`, call number `k` of
`gomp_iter_dynamic_next_locked` returns `[start + k*c, start + (k+1)*c)` clipped
to `end` as long as `start + k*c` has not reached `end`, and `false` after that;
every granted range is non-empty and begins where the previous one ended, and
every point of `[start, end)` lies in the range of exactly one call.  The same
holds mirrored for `incr < 0`, `c < 0`, `start >= end`. -/
theorem dynamic_next_locked_partition (ws : gomp_work_share)
    (hn : InLong ws.next) (he : InLong ws.end_) (hd : InLong (ws.end_ - ws.next)) :
    (0 < ws.incr → 0 < ws.chunk_size → ws.next ≤ ws.end_ →
      (∀ k : Nat, resultOf gomp_iter_dynamic_next_locked ws k =
        if ws.next + k * ws.chunk_size < ws.end_ then
          some (ws.next + k * ws.chunk_size,
            min (ws.next + (k + 1) * ws.chunk_size) ws.end_)
        else none) ∧
      (∀ (k : Nat) (a b : Int), resultOf gomp_iter_dynamic_next_locked ws k = some (a, b) →
        a < b ∧ (stateAfter gomp_iter_dynamic_next_locked ws k).next = a ∧
        (stateAfter gomp_iter_dynamic_next_locked ws (k + 1)).next = b) ∧
      (∀ x : Int, ws.next ≤ x → x < ws.end_ →
        ∃! k : Nat, ∃ a b : Int,
          resultOf gomp_iter_dynamic_next_locked ws k = some (a, b) ∧ a ≤ x ∧ x < b)) ∧
    (ws.incr < 0 → ws.chunk_size < 0 → ws.end_ ≤ ws.next →
      (∀ k : Nat, resultOf gomp_iter_dynamic_next_locked ws k =
        if ws.end_ < ws.next + k * ws.chunk_size then
          some (ws.next + k * ws.chunk_size,
            max (ws.next + (k + 1) * ws.chunk_size) ws.end_)
        else none) ∧
      (∀ (k : Nat) (a b : Int), resultOf gomp_iter_dynamic_next_locked ws k = some (a, b) →
        b < a ∧ (stateAfter gomp_iter_dynamic_next_locked ws k).next = a ∧
        (stateAfter gomp_iter_dynamic_next_locked ws (k + 1)).next = b) ∧
      (∀ x : Int, ws.end_ < x → x ≤ ws.next →
        ∃! k : Nat, ∃ a b : Int,
          resultOf gomp_iter_dynamic_next_locked ws k = some (a, b) ∧ b < x ∧ x ≤ a)) := by
  constructor
  · intro hi hc hle
    have hres := dynamic_locked_result_pos ws hi hc hle hn he hd
    refine ⟨hres, ?_, ?_⟩
    · intro k a b h
      have hk : ((k : Int) + 1) * ws.chunk_size = k * ws.chunk_size + ws.chunk_size := by ring
      rw [hres k] at h
      rw [dynamic_locked_state_pos ws hi hc hle hn he hd, dynamic_locked_state_pos ws hi hc hle hn he hd]
      push_cast
      rw [hk] at h ⊢
      split_ifs at h with h1
      · simp only [Option.some.injEq, Prod.mk.injEq] at h
        omega
    · intro x hx1 hx2
      obtain ⟨k, ⟨hk1, hk2⟩, huniq⟩ := block_index_unique ws.next ws.chunk_size x hc hx1
      refine ⟨k, ⟨ws.next + k * ws.chunk_size,
        min (ws.next + (k + 1) * ws.chunk_size) ws.end_, ?_, hk1, ?_⟩, ?_⟩
      · rw [hres k, if_pos (by omega)]
      · exact lt_min hk2 hx2
      · rintro j ⟨a, b, hj, ha, hb⟩
        rw [hres j] at hj
        split_ifs at hj with h1
        · simp only [Option.some.injEq, Prod.mk.injEq] at hj
          apply huniq
          constructor
          · omega
          · have := min_le_left (ws.next + ((j : Int) + 1) * ws.chunk_size) ws.end_
            omega
  · intro hi hc hle
    have hres := dynamic_locked_result_neg ws hi hc hle hn he hd
    refine ⟨hres, ?_, ?_⟩
    · intro k a b h
      have hk : ((k : Int) + 1) * ws.chunk_size = k * ws.chunk_size + ws.chunk_size := by ring
      rw [hres k] at h
      rw [dynamic_locked_state_neg ws hi hc hle hn he hd, dynamic_locked_state_neg ws hi hc hle hn he hd]
      push_cast
      rw [hk] at h ⊢
      split_ifs at h with h1
      · simp only [Option.some.injEq, Prod.mk.injEq] at h
        omega
    · intro x hx1 hx2
      obtain ⟨k, ⟨hk1, hk2⟩, huniq⟩ :=
        block_index_unique (-ws.next) (-ws.chunk_size) (-x) (by omega) (by omega)
      have e1 : ∀ j : Nat, -ws.next + (j : Int) * -ws.chunk_size = -(ws.next + j * ws.chunk_size) := by
        intro j; ring
      have e2 : ∀ j : Nat, -ws.next + ((j : Int) + 1) * -ws.chunk_size
          = -(ws.next + (j + 1) * ws.chunk_size) := by
        intro j; ring
      rw [e1] at hk1
      rw [e2] at hk2
      refine ⟨k, ⟨ws.next + k * ws.chunk_size,
        max (ws.next + (k + 1) * ws.chunk_size) ws.end_, ?_, ?_, by omega⟩, ?_⟩
      · rw [hres k, if_pos (by omega)]
      · exact max_lt (by omega) hx1
      · rintro j ⟨a, b, hj, hb, ha⟩
        rw [hres j] at hj
        split_ifs at hj with h1
        · simp only [Option.some.injEq, Prod.mk.injEq] at hj
          apply huniq
          rw [e1, e2]
          constructor
          · omega
          · have := le_max_left (ws.next + ((j : Int) + 1) * ws.chunk_size) ws.end_
            omega

/-- Witness of C1: `start = 0`, `end = 10`, `incr = 1`, `chunk_size = 3`. -/
theorem dynamic_next_locked_partition_witness :
    (List.range 6).map (resultOf gomp_iter_dynamic_next_locked
        { chunk_size := 3, end_ := 10, incr := 1, next := 0 })
      = [some (0, 3), some (3, 6), some (6, 9), some (9, 10), none, none] ∧
    ∀ k : Nat, resultOf gomp_iter_dynamic_next_locked
        { chunk_size := 3, end_ := 10, incr := 1, next := 0 } k =
      if (0 : Int) + k * 3 < 10 then some ((0 : Int) + k * 3, min ((0 : Int) + (k + 1) * 3) 10)
      else none :=
  ⟨by decide,
   ((dynamic_next_locked_partition
      { chunk_size := 3, end_ := 10, incr := 1, next := 0 }
      (by decide) (by decide) (by decide)).1
      (by decide) (by decide) (by decide)).1⟩


/-- With `mode` false and no other thread running, the compare-and-swap of
`gomp_iter_dynamic_next` succeeds in the first round, and the call does what
`gomp_iter_dynamic_next_locked` does. -/
theorem dynamic_next_cas_eq_locked (ws : gomp_work_share) (fuel : Nat)
    (hm : ws.mode = false) :
    gomp_iter_dynamic_next (fuel + 1) ws = some (gomp_iter_dynamic_next_locked ws) := by
  unfold gomp_iter_dynamic_next gomp_iter_dynamic_next_locked dynamic_next_loop
    sync_val_compare_and_swap
  cases ws
  simp only at hm
  subst hm
  simp only
  split_ifs <;> simp_all

theorem dynamic_locked_mode (ws : gomp_work_share) :
    (gomp_iter_dynamic_next_locked ws).1.mode = ws.mode := by
  unfold gomp_iter_dynamic_next_locked
  simp only
  split_ifs <;> rfl

theorem dynamic_next_cas_state (ws : gomp_work_share) (fuel : Nat)
    (hm : ws.mode = false) (k : Nat) :
    stateAfter? (gomp_iter_dynamic_next (fuel + 1)) ws k
      = some (stateAfter gomp_iter_dynamic_next_locked ws k) ∧
    (stateAfter gomp_iter_dynamic_next_locked ws k).mode = false := by
  induction k with
  | zero => exact ⟨rfl, hm⟩
  | succ k ih =>
    obtain ⟨ih1, ih2⟩ := ih
    constructor
    · rw [stateAfter?, ih1, stateAfter]
      simp [dynamic_next_cas_eq_locked _ fuel ih2]
    · rw [stateAfter, dynamic_locked_mode, ih2]

theorem dynamic_next_faa_state (ws : gomp_work_share) (fuel : Nat)
    (hm : ws.mode = true) (k : Nat)
    (hov : ∀ j : Nat, j < k → InLong (ws.next + (j + 1) * ws.chunk_size)) :
    stateAfter? (gomp_iter_dynamic_next fuel) ws k
      = some { ws with next := ws.next + k * ws.chunk_size } := by
  induction k with
  | zero => simp [stateAfter?]
  | succ k ih =>
    have hw := wrapLong_of_inLong _ (hov k (Nat.lt_succ_self k))
    have e : ws.next + (k : Int) * ws.chunk_size + ws.chunk_size
        = ws.next + ((k : Int) + 1) * ws.chunk_size := by ring
    rw [stateAfter?, ih (fun j hj => hov j (Nat.lt_succ_of_lt hj))]
    unfold gomp_iter_dynamic_next sync_fetch_and_add
    simp only [hm, Option.some_bind, e, hw]
    push_cast
    split_ifs <;> simp

/-- C5.  Locked/lock-free equivalence for dynamic scheduling: from the same
work share (`incr > 0`, `chunk_size > 0`, `next <= end`, or mirrored) and with
no arithmetic overflow (the advanced cursor is representable as `long`, and so
are, where the fetch-and-add path is compared with the locked function,
`next`, `end` and the distance `end - next`), call number `k` of
`gomp_iter_dynamic_next` in a sequence of calls returns, and returns the same
answer and range as call number `k` of `gomp_iter_dynamic_next_locked`, for
both values of `mode`; with
`mode` false the work share after every call equals the locked one, with `mode`
true the cursor has advanced by `chunk_size` in every call. -/
theorem dynamic_next_matches_locked (ws : gomp_work_share) (fuel k : Nat)
    (hdir : (0 < ws.incr ∧ 0 < ws.chunk_size ∧ ws.next ≤ ws.end_) ∨
      (ws.incr < 0 ∧ ws.chunk_size < 0 ∧ ws.end_ ≤ ws.next))
    (hrep : ws.mode = true →
      InLong ws.next ∧ InLong ws.end_ ∧ InLong (ws.end_ - ws.next))
    (hov : ∀ j : Nat, j ≤ k → InLong (ws.next + (j + 1) * ws.chunk_size)) :
    resultOf? (gomp_iter_dynamic_next (fuel + 1)) ws k
      = some (resultOf gomp_iter_dynamic_next_locked ws k) ∧
    (ws.mode = false →
      stateAfter? (gomp_iter_dynamic_next (fuel + 1)) ws (k + 1)
        = some (stateAfter gomp_iter_dynamic_next_locked ws (k + 1))) ∧
    (ws.mode = true →
      stateAfter? (gomp_iter_dynamic_next (fuel + 1)) ws (k + 1)
        = some { ws with next := ws.next + ((k + 1 : Nat) : Int) * ws.chunk_size }) := by
  refine ⟨?_, ?_, ?_⟩
  · cases hm : ws.mode with
    | false =>
      obtain ⟨h1, h2⟩ := dynamic_next_cas_state ws fuel hm k
      rw [resultOf?, h1, resultOf]
      simp [dynamic_next_cas_eq_locked _ fuel h2]
    | true =>
      have hst := dynamic_next_faa_state ws (fuel + 1) hm k
        (fun j hj => hov j (Nat.le_of_lt hj))
      have hk : ((k : Int) + 1) * ws.chunk_size = k * ws.chunk_size + ws.chunk_size := by ring
      obtain ⟨hn, he, hd⟩ := hrep hm
      have hw : wrapLong (ws.next + (k : Int) * ws.chunk_size + ws.chunk_size)
          = ws.next + (k : Int) * ws.chunk_size + ws.chunk_size := by
        apply wrapLong_of_inLong
        have := hov k (le_refl k)
        rw [hk] at this
        rw [add_assoc]
        exact this
      rw [resultOf?, hst]
      rcases hdir with ⟨hi, hc, hle⟩ | ⟨hi, hc, hle⟩
      · rw [dynamic_locked_result_pos ws hi hc hle hn he hd, hk]
        unfold gomp_iter_dynamic_next sync_fetch_and_add
        simp only [hm, Option.some_bind, hw]
        split_ifs <;> simp at * <;> omega
      · rw [dynamic_locked_result_neg ws hi hc hle hn he hd, hk]
        unfold gomp_iter_dynamic_next sync_fetch_and_add
        simp only [hm, Option.some_bind, hw]
        split_ifs <;> simp at * <;> omega
  · intro hm
    exact (dynamic_next_cas_state ws fuel hm (k + 1)).1
  · intro hm
    exact dynamic_next_faa_state ws (fuel + 1) hm (k + 1)
      (fun j hj => hov j (Nat.le_of_lt_succ hj))

/-- Witness of C5: the fifth call on `start = 0`, `end = 10`, `chunk_size = 3`
with `mode` true is refused like the locked one, and the cursor is at `15`. -/
theorem dynamic_next_matches_locked_witness :
    resultOf? (gomp_iter_dynamic_next 1)
        { chunk_size := 3, end_ := 10, incr := 1, next := 0 } 4
      = some (resultOf gomp_iter_dynamic_next_locked
        { chunk_size := 3, end_ := 10, incr := 1, next := 0 } 4) ∧
    stateAfter? (gomp_iter_dynamic_next 1)
        { chunk_size := 3, end_ := 10, incr := 1, next := 0 } 5
      = some { chunk_size := 3, end_ := 10, incr := 1, next := 15 } :=
  have h := dynamic_next_matches_locked
    { chunk_size := 3, end_ := 10, incr := 1, next := 0 } 0 4
    (Or.inl ⟨by decide, by decide, by decide⟩)
    (fun _ => ⟨by decide, by decide, by decide⟩)
    (fun j hj => by
      simp only [InLong, LONG_LIM]
      have : (j : Int) ≤ 4 := by exact_mod_cast hj
      constructor <;> omega)
  ⟨h.1, h.2.2 rfl⟩


/-- C9 (as stated, refuted).  With `next = 0`, `end = 100`, `incr = 1`,
`chunk_size = 0` and four threads, it is not the case that every rank leaves
its first call of `gomp_iter_static_next` with `static_trip` equal to the
sentinel `-1`: rank `0` leaves it with `static_trip = 1`. -/
theorem static_tie_break_not_all_last :
    ¬ (∀ i : Nat, i < 4 →
      (gomp_iter_static_next (some 4)
        { chunk_size := 0, end_ := 100, incr := 1, next := 0 }
        { team_id := i }).1.static_trip = -1) := by
  intro h
  exact absurd (h 0 (by decide)) (by decide)

/-- C9 (amended).  With `next = 0`, `end = 100`, `incr = 1`, `chunk_size = 0`
and four threads, the first calls of ranks `0, 1, 2, 3` return `0` with the
ranges `[0,25)`, `[25,50)`, `[50,75)`, `[75,100)`; only rank `3` is marked as
having received the last range (`static_trip = -1`, next call returns `-1`),
ranks `0, 1, 2` are left with `static_trip = 1` and their next call returns `1`,
in both cases without a range. -/
theorem static_tie_break_ranges :
    (List.range 4).map (fun i => gomp_iter_static_next (some 4)
        { chunk_size := 0, end_ := 100, incr := 1, next := 0 } { team_id := i })
      = [({ team_id := 0, static_trip := 1 }, (0, some (0, 25))),
         ({ team_id := 1, static_trip := 1 }, (0, some (25, 50))),
         ({ team_id := 2, static_trip := 1 }, (0, some (50, 75))),
         ({ team_id := 3, static_trip := -1 }, (0, some (75, 100)))] ∧
    (List.range 4).map (fun i => resultOf (gomp_iter_static_next (some 4)
        { chunk_size := 0, end_ := 100, incr := 1, next := 0 }) { team_id := i } 1)
      = [(1, none), (1, none), (1, none), (-1, none)] := by
  constructor <;> decide

/-- C10.  Degenerate team: with one thread (or no team) and
`static_trip != -1`, a call of `gomp_iter_static_next` writes the whole
remaining span `(next, end)` whatever `chunk_size` and `incr` are, sets
`static_trip` to `-1`, and returns `0` when the span is non-empty (`1` when it
is empty); every later call returns `-1` and writes no range. -/
theorem static_next_degenerate_team (team : Option Nat) (ws : gomp_work_share)
    (ts : gomp_team_state) (hteam : team = none ∨ team = some 1)
    (htrip : ts.static_trip ≠ -1) :
    (gomp_iter_static_next team ws ts).2.2 = some (ws.next, ws.end_) ∧
    (gomp_iter_static_next team ws ts).1.static_trip = -1 ∧
    (ws.next ≠ ws.end_ → (gomp_iter_static_next team ws ts).2.1 = 0) ∧
    (ws.next = ws.end_ → (gomp_iter_static_next team ws ts).2.1 = 1) ∧
    ∀ k : Nat, 1 ≤ k →
      resultOf (gomp_iter_static_next team ws) ts k = (-1, none) ∧
      (stateAfter (gomp_iter_static_next team ws) ts k).static_trip = -1 := by
  have hfirst : gomp_iter_static_next team ws ts =
      ({ ts with static_trip := -1 },
        ((if ws.next = ws.end_ then 1 else 0), some (ws.next, ws.end_))) := by
    rcases hteam with rfl | rfl <;> simp [gomp_iter_static_next, htrip]
  have hlater : ∀ ts1 : gomp_team_state, ts1.static_trip = -1 →
      gomp_iter_static_next team ws ts1 = (ts1, (-1, none)) := by
    intro ts1 h1
    simp [gomp_iter_static_next, h1]
  have hstate : ∀ k : Nat, 1 ≤ k →
      (stateAfter (gomp_iter_static_next team ws) ts k).static_trip = -1 := by
    intro k hk
    induction k with
    | zero => omega
    | succ k ih =>
      rw [stateAfter]
      rcases Nat.eq_zero_or_pos k with h0 | hpos
      · subst h0
        simp [stateAfter, hfirst]
      · rw [hlater _ (ih hpos)]
        exact ih hpos
  refine ⟨by rw [hfirst], by rw [hfirst], ?_, ?_, ?_⟩
  · intro h; rw [hfirst]; simp [h]
  · intro h; rw [hfirst]; simp [h]
  · intro k hk
    exact ⟨by rw [resultOf, hlater _ (hstate k hk)], hstate k hk⟩

/-- Witness of C10: a team of one thread on `[5, 50)` with stride `7` and
`chunk_size = 4`. -/
theorem static_next_degenerate_team_witness :
    (gomp_iter_static_next (some 1)
        { chunk_size := 4, end_ := 50, incr := 7, next := 5 } { team_id := 0 }).2.2
      = some (5, 50) ∧
    resultOf (gomp_iter_static_next (some 1)
        { chunk_size := 4, end_ := 50, incr := 7, next := 5 }) { team_id := 0 } 1
      = (-1, none) :=
  have h := static_next_degenerate_team (some 1)
    { chunk_size := 4, end_ := 50, incr := 7, next := 5 } { team_id := 0 }
    (Or.inr rfl) (by decide)
  ⟨h.1, (h.2.2.2.2 1 (le_refl 1)).1⟩


theorem toULong_lt (x : Int) : toULong x < ULONG_MOD := by
  unfold toULong
  have h0 : 0 ≤ x % ((ULONG_MOD : Nat) : Int) := Int.emod_nonneg _ (by decide)
  have h1 : x % ((ULONG_MOD : Nat) : Int) < ((ULONG_MOD : Nat) : Int) :=
    Int.emod_lt_of_pos _ (by decide)
  omega

/-- The auto-chunking branch of `gomp_iter_static_next` on a thread with
`static_trip = 0`, in closed form. -/
theorem static_auto_first_call (nthreads : Nat) (ws : gomp_work_share)
    (ts : gomp_team_state) (hn : 2 ≤ nthreads) (hc : ws.chunk_size = 0)
    (htrip : ts.static_trip = 0) (hi : ts.team_id < nthreads) :
    gomp_iter_static_next (some nthreads) ws ts =
      if ts.team_id < iterCount ws.next ws.end_ ws.incr % nthreads then
        ({ ts with static_trip :=
            if (iterCount ws.next ws.end_ ws.incr / nthreads + 1) * (ts.team_id + 1)
              = iterCount ws.next ws.end_ ws.incr then -1 else 1 },
          (0, some
            (wrapLong (toLong ((iterCount ws.next ws.end_ ws.incr / nthreads + 1) * ts.team_id)
                * ws.incr + ws.next),
             wrapLong (toLong ((iterCount ws.next ws.end_ ws.incr / nthreads + 1) * (ts.team_id + 1))
                * ws.incr + ws.next))))
      else if iterCount ws.next ws.end_ ws.incr / nthreads = 0 then
        ({ ts with static_trip := 1 }, (1, none))
      else
        ({ ts with static_trip :=
            if iterCount ws.next ws.end_ ws.incr / nthreads * (ts.team_id + 1)
                + iterCount ws.next ws.end_ ws.incr % nthreads
              = iterCount ws.next ws.end_ ws.incr then -1 else 1 },
          (0, some
            (wrapLong (toLong (iterCount ws.next ws.end_ ws.incr / nthreads * ts.team_id
                + iterCount ws.next ws.end_ ws.incr % nthreads) * ws.incr + ws.next),
             wrapLong (toLong (iterCount ws.next ws.end_ ws.incr / nthreads * (ts.team_id + 1)
                + iterCount ws.next ws.end_ ws.incr % nthreads) * ws.incr + ws.next)))) := by
  have hlt : iterCount ws.next ws.end_ ws.incr < ULONG_MOD := toULong_lt _
  have hnn : gomp_iter_static_next (some nthreads) ws ts =
      (let n := iterCount ws.next ws.end_ ws.incr
       let i := ts.team_id
       let q := n / nthreads
       let t := n % nthreads
       let tq : Nat × Nat := if i < t then (0, (q + 1) % ULONG_MOD) else (t, q)
       let t := tq.1
       let q := tq.2
       let s0 := (q * i + t) % ULONG_MOD
       let e0 := (s0 + q) % ULONG_MOD
       if s0 ≥ e0 then ({ ts with static_trip := 1 }, (1, none))
       else
         let s := wrapLong (toLong s0 * ws.incr + ws.next)
         let e := wrapLong (toLong e0 * ws.incr + ws.next)
         ({ ts with static_trip := if e0 = n then -1 else 1 }, (0, some (s, e)))) := by
    have h1 : nthreads ≠ 1 := by omega
    simp [gomp_iter_static_next, iterCount, hc, htrip, h1]
  rw [hnn]
  dsimp only
  generalize iterCount ws.next ws.end_ ws.incr = n at hlt ⊢
  generalize ts.team_id = i at hi ⊢
  have hdm : nthreads * (n / nthreads) + n % nthreads = n := Nat.div_add_mod n nthreads
  have htlt : n % nthreads < nthreads := Nat.mod_lt _ (by omega)
  generalize n / nthreads = q at hdm ⊢
  generalize n % nthreads = t at hdm htlt ⊢
  by_cases hit : i < t
  · have b1 : (q + 1) * (i + 1) ≤ n := by
      have : (q + 1) * (i + 1) ≤ (q + 1) * t := Nat.mul_le_mul_left _ hit
      have : q * t ≤ q * nthreads := Nat.mul_le_mul_left _ htlt.le
      have e1 : (q + 1) * t = q * t + t := by ring
      have e2 : nthreads * q = q * nthreads := by ring
      omega
    have e3 : (q + 1) * (i + 1) = (q + 1) * i + (q + 1) := by ring
    have m1 : (q + 1) % ULONG_MOD = q + 1 := Nat.mod_eq_of_lt (by omega)
    have m2 : ((q + 1) * i + 0) % ULONG_MOD = (q + 1) * i := Nat.mod_eq_of_lt (by omega)
    have m3 : ((q + 1) * i + (q + 1)) % ULONG_MOD = (q + 1) * i + (q + 1) :=
      Nat.mod_eq_of_lt (by omega)
    simp only [hit, if_true, m1, m2, m3, e3]
    rw [if_neg (by omega)]
  · have b1 : q * (i + 1) + t ≤ n := by
      have : q * (i + 1) ≤ q * nthreads := Nat.mul_le_mul_left _ hi
      have e2 : nthreads * q = q * nthreads := by ring
      omega
    have e3 : q * (i + 1) + t = q * i + t + q := by ring
    have m2 : (q * i + t) % ULONG_MOD = q * i + t := Nat.mod_eq_of_lt (by omega)
    have m3 : (q * i + t + q) % ULONG_MOD = q * i + t + q := Nat.mod_eq_of_lt (by omega)
    simp only [hit, if_false, m2, m3, e3]
    by_cases hq : q = 0
    · simp [hq]
    · rw [if_neg (by omega), if_neg hq]

/-- A point between `f 0` and `f m` lies in exactly one of the steps
`[f i, f (i + 1))`, `i < m`, of a non-decreasing sequence. -/
theorem step_index_unique (f : Nat → Nat) (hf : ∀ i, f i ≤ f (i + 1)) (m x : Nat)
    (h0 : f 0 ≤ x) (hm : x < f m) :
    ∃! i : Nat, i < m ∧ f i ≤ x ∧ x < f (i + 1) := by
  have hmono : Monotone f := monotone_nat_of_le_succ hf
  have hex : ∃ i : Nat, i < m ∧ f i ≤ x ∧ x < f (i + 1) := by
    induction m with
    | zero => omega
    | succ m ih =>
      by_cases hx : x < f m
      · obtain ⟨i, hi, h1, h2⟩ := ih hx
        exact ⟨i, Nat.lt_succ_of_lt hi, h1, h2⟩
      · exact ⟨m, Nat.lt_succ_self m, by omega, hm⟩
  obtain ⟨i, hi, h1, h2⟩ := hex
  refine ⟨i, ⟨hi, h1, h2⟩, ?_⟩
  rintro j ⟨_, hj1, hj2⟩
  by_contra hne
  rcases Nat.lt_or_gt_of_ne hne with hlt | hgt
  · have := hmono (show j + 1 ≤ i from hlt)
    omega
  · have := hmono (show i + 1 ≤ j from hgt)
    omega

theorem autoShareStart_succ (n nthreads i : Nat) :
    autoShareStart n nthreads (i + 1)
      = autoShareStart n nthreads i + autoShareLen n nthreads i := by
  unfold autoShareStart autoShareLen
  have e : (i + 1) * (n / nthreads) = i * (n / nthreads) + n / nthreads := by ring
  rw [e]
  split_ifs with h
  · rw [min_eq_left (by omega), min_eq_left (by omega)]; omega
  · rw [min_eq_right (by omega), min_eq_right (by omega)]; omega

/-- The result of the first call under auto chunking, in the spec's terms. -/
theorem static_auto_result (nthreads : Nat) (ws : gomp_work_share)
    (hn : 2 ≤ nthreads) (hc : ws.chunk_size = 0) (ts : gomp_team_state)
    (htrip : ts.static_trip = 0) (hi : ts.team_id < nthreads) :
    (gomp_iter_static_next (some nthreads) ws ts).2 =
      if autoShareLen (iterCount ws.next ws.end_ ws.incr) nthreads ts.team_id = 0 then
        (1, none)
      else
        (0, some
          (wrapLong (toLong (autoShareStart (iterCount ws.next ws.end_ ws.incr) nthreads ts.team_id)
              * ws.incr + ws.next),
           wrapLong (toLong (autoShareStart (iterCount ws.next ws.end_ ws.incr) nthreads ts.team_id
              + autoShareLen (iterCount ws.next ws.end_ ws.incr) nthreads ts.team_id)
              * ws.incr + ws.next))) := by
  rw [static_auto_first_call nthreads ws ts hn hc htrip hi]
  generalize iterCount ws.next ws.end_ ws.incr = n
  unfold autoShareStart autoShareLen
  by_cases hit : ts.team_id < n % nthreads
  · have e1 : (n / nthreads + 1) * ts.team_id
        = ts.team_id * (n / nthreads) + ts.team_id := by ring
    have e2 : (n / nthreads + 1) * (ts.team_id + 1)
        = ts.team_id * (n / nthreads) + ts.team_id + (n / nthreads + 1) := by ring
    have hq : ¬ (n / nthreads + 1 = 0) := Nat.succ_ne_zero _
    simp only [hit, if_true, min_eq_left hit.le, e1, e2, hq, if_false]
  · have hge : n % nthreads ≤ ts.team_id := by omega
    have e1 : n / nthreads * ts.team_id + n % nthreads
        = ts.team_id * (n / nthreads) + n % nthreads := by ring
    have e2 : n / nthreads * (ts.team_id + 1) + n % nthreads
        = ts.team_id * (n / nthreads) + n % nthreads + n / nthreads := by ring
    simp only [hit, if_false, min_eq_right hge, e1, e2]
    split_ifs <;> rfl

/-- C2.  Static auto chunking: in a team of `nthreads >= 2` with
`chunk_size = 0`, the first call of `gomp_iter_static_next` by rank `i` yields
the zero-based share that starts at `s0 = i*q + min(i, t)` and has `q + 1`
iterations if `i < t` and `q` otherwise (`q = n / nthreads`,
`t = n % nthreads`, `n` the iteration count), written in real coordinates as
`(long)s0 * incr + next` (in `long` arithmetic); a rank with an empty share
gets the return value `1` and no range.  The shares abut in rank order, start
at `0`, end at `n`, and every `x < n` lies in the share of exactly one rank. -/
theorem static_auto_shares (nthreads : Nat) (ws : gomp_work_share)
    (hn : 2 ≤ nthreads) (hc : ws.chunk_size = 0) :
    (∀ ts : gomp_team_state, ts.static_trip = 0 → ts.team_id < nthreads →
      (gomp_iter_static_next (some nthreads) ws ts).2 =
        if autoShareLen (iterCount ws.next ws.end_ ws.incr) nthreads ts.team_id = 0 then
          (1, none)
        else
          (0, some
            (wrapLong (toLong (autoShareStart (iterCount ws.next ws.end_ ws.incr) nthreads ts.team_id)
                * ws.incr + ws.next),
             wrapLong (toLong (autoShareStart (iterCount ws.next ws.end_ ws.incr) nthreads ts.team_id
                + autoShareLen (iterCount ws.next ws.end_ ws.incr) nthreads ts.team_id)
                * ws.incr + ws.next)))) ∧
    autoShareStart (iterCount ws.next ws.end_ ws.incr) nthreads 0 = 0 ∧
    (∀ i : Nat, autoShareStart (iterCount ws.next ws.end_ ws.incr) nthreads (i + 1)
      = autoShareStart (iterCount ws.next ws.end_ ws.incr) nthreads i
        + autoShareLen (iterCount ws.next ws.end_ ws.incr) nthreads i) ∧
    autoShareStart (iterCount ws.next ws.end_ ws.incr) nthreads nthreads
      = iterCount ws.next ws.end_ ws.incr ∧
    (∀ x : Nat, x < iterCount ws.next ws.end_ ws.incr →
      ∃! i : Nat, i < nthreads ∧
        autoShareStart (iterCount ws.next ws.end_ ws.incr) nthreads i ≤ x ∧
        x < autoShareStart (iterCount ws.next ws.end_ ws.incr) nthreads i
          + autoShareLen (iterCount ws.next ws.end_ ws.incr) nthreads i) := by
  generalize hnv : iterCount ws.next ws.end_ ws.incr = n
  have hdm : nthreads * (n / nthreads) + n % nthreads = n := Nat.div_add_mod n nthreads
  have htlt : n % nthreads < nthreads := Nat.mod_lt _ (by omega)
  have hend : autoShareStart n nthreads nthreads = n := by
    unfold autoShareStart
    rw [min_eq_right htlt.le]
    exact hdm
  refine ⟨?_, by simp [autoShareStart], autoShareStart_succ n nthreads, hend, ?_⟩
  · intro ts htrip hi
    rw [← hnv]
    exact static_auto_result nthreads ws hn hc ts htrip hi
  · intro x hx
    have h := step_index_unique (autoShareStart n nthreads)
      (fun i => by rw [autoShareStart_succ]; omega) nthreads x
      (by simp [autoShareStart]) (by rw [hend]; exact hx)
    simpa only [autoShareStart_succ] using h

/-- Witness of C2: ten iterations on three threads give the shares `[0,4)`,
`[4,7)`, `[7,10)` of `4`, `3` and `3` iterations. -/
theorem static_auto_shares_witness :
    (List.range 3).map (fun i => (gomp_iter_static_next (some 3)
        { chunk_size := 0, end_ := 10, incr := 1, next := 0 } { team_id := i }).2)
      = [(0, some (0, 4)), (0, some (4, 7)), (0, some (7, 10))] ∧
    autoShareStart (iterCount 0 10 1) 3 3 = iterCount 0 10 1 :=
  ⟨by decide,
   (static_auto_shares 3 { chunk_size := 0, end_ := 10, incr := 1, next := 0 }
      (by decide) rfl).2.2.2.1⟩


theorem toULong_natCast (k : Nat) (hk : k < ULONG_MOD) : toULong (k : Int) = k := by
  unfold toULong
  have h : ((k : Int)) % ((ULONG_MOD : Nat) : Int) = (k : Int) :=
    Int.emod_eq_of_lt (Int.ofNat_nonneg k) (by exact_mod_cast hk)
  rw [h]
  exact Int.toNat_natCast k

/-- One call of the fixed-chunking branch of `gomp_iter_static_next` on trip
`k`, when the block start does not wrap. -/
theorem static_chunk_call (nthreads : Nat) (ws : gomp_work_share)
    (ts : gomp_team_state) (k : Nat) (hn : 2 ≤ nthreads)
    (hc0 : ws.chunk_size ≠ 0) (hc : 0 < toULong ws.chunk_size)
    (htrip : ts.static_trip = (k : Int))
    (hS : chunkBlockStart nthreads (toULong ws.chunk_size) ts.team_id k < ULONG_MOD)
    (hnc : iterCount ws.next ws.end_ ws.incr + toULong ws.chunk_size ≤ ULONG_MOD) :
    gomp_iter_static_next (some nthreads) ws ts =
      if iterCount ws.next ws.end_ ws.incr
          ≤ chunkBlockStart nthreads (toULong ws.chunk_size) ts.team_id k then
        (ts, (1, none))
      else
        ({ ts with static_trip :=
            if iterCount ws.next ws.end_ ws.incr
                ≤ chunkBlockStart nthreads (toULong ws.chunk_size) ts.team_id k
                  + toULong ws.chunk_size
            then -1 else (k : Int) + 1 },
          (0, some
            (wrapLong (toLong (chunkBlockStart nthreads (toULong ws.chunk_size) ts.team_id k)
                * ws.incr + ws.next),
             wrapLong (toLong (min (chunkBlockStart nthreads (toULong ws.chunk_size) ts.team_id k
                + toULong ws.chunk_size) (iterCount ws.next ws.end_ ws.incr))
                * ws.incr + ws.next)))) := by
  have hnn : gomp_iter_static_next (some nthreads) ws ts =
      (let n := iterCount ws.next ws.end_ ws.incr
       let i := ts.team_id
       let c := toULong ws.chunk_size
       let s0 := ((toULong ts.static_trip * nthreads + i) * c) % ULONG_MOD
       let e0 := (s0 + c) % ULONG_MOD
       if s0 ≥ n then (ts, (1, none))
       else
         let e0 := if e0 > n then n else e0
         let s := wrapLong (toLong s0 * ws.incr + ws.next)
         let e := wrapLong (toLong e0 * ws.incr + ws.next)
         ({ ts with static_trip := if e0 = n then -1 else ts.static_trip + 1 },
           (0, some (s, e)))) := by
    have h1 : nthreads ≠ 1 := by omega
    have h2 : ts.static_trip ≠ -1 := by rw [htrip]; omega
    simp [gomp_iter_static_next, iterCount, hc0, h1, h2]
  rw [hnn]
  dsimp only
  have hlt : iterCount ws.next ws.end_ ws.incr < ULONG_MOD := toULong_lt _
  generalize iterCount ws.next ws.end_ ws.incr = n at hlt hnc ⊢
  generalize toULong ws.chunk_size = c at hc hS hnc ⊢
  generalize ts.team_id = i at hS ⊢
  unfold chunkBlockStart at hS ⊢
  have hkS : k ≤ (k * nthreads + i) * c := by
    calc k ≤ k * nthreads := Nat.le_mul_of_pos_right k (by omega)
      _ ≤ k * nthreads + i := Nat.le_add_right _ _
      _ ≤ (k * nthreads + i) * c := Nat.le_mul_of_pos_right _ hc
  have hk : toULong (k : Int) = k := toULong_natCast k (by omega)
  rw [htrip, hk]
  generalize (k * nthreads + i) * c = S at hS hkS ⊢
  have m1 : S % ULONG_MOD = S := Nat.mod_eq_of_lt (by omega)
  rw [m1]
  by_cases h1 : n ≤ S
  · simp [h1]
  · have h1b : ¬ (S ≥ n) := h1
    simp only [h1, h1b, if_false]
    · have m2 : (S + c) % ULONG_MOD = S + c := Nat.mod_eq_of_lt (by omega)
      rw [m2]
      by_cases h3 : n < S + c
      · have h3b : S + c > n := h3
        simp [h3b, h3.le, min_eq_right h3.le]
      · have h3b : ¬ (S + c > n) := h3
        have h4 : min (S + c) n = S + c := min_eq_left (by omega)
        simp only [h3b, if_false, h4]
        by_cases h5 : S + c = n
        · simp [h5]
        · have h6 : ¬ (n ≤ S + c) := by omega
          simp [h5, h6]

theorem chunkBlockStart_succ (nthreads c i j : Nat) :
    chunkBlockStart nthreads c i (j + 1) = chunkBlockStart nthreads c i j + nthreads * c := by
  unfold chunkBlockStart; ring

/-- State of a thread during repeated calls of the fixed-chunking branch: either
it is on trip `k` and all its earlier blocks ended before `n`, or it has come
to rest in a state in which every call returns nonzero without a range. -/
theorem static_chunk_state (nthreads : Nat) (ws : gomp_work_share)
    (ts : gomp_team_state) (hn : 2 ≤ nthreads)
    (hc0 : ws.chunk_size ≠ 0) (hc : 0 < toULong ws.chunk_size)
    (htrip : ts.static_trip = 0) (hi : ts.team_id < nthreads)
    (hw : iterCount ws.next ws.end_ ws.incr + nthreads * toULong ws.chunk_size ≤ ULONG_MOD)
    (k : Nat) :
    ((stateAfter (gomp_iter_static_next (some nthreads) ws) ts k).static_trip = (k : Int) ∧
      (stateAfter (gomp_iter_static_next (some nthreads) ws) ts k).team_id = ts.team_id ∧
      chunkBlockStart nthreads (toULong ws.chunk_size) ts.team_id k
        < iterCount ws.next ws.end_ ws.incr + nthreads * toULong ws.chunk_size) ∨
    ((∃ r : Int, r ≠ 0 ∧
        gomp_iter_static_next (some nthreads) ws
            (stateAfter (gomp_iter_static_next (some nthreads) ws) ts k)
          = (stateAfter (gomp_iter_static_next (some nthreads) ws) ts k, (r, none))) ∧
      iterCount ws.next ws.end_ ws.incr
        ≤ chunkBlockStart nthreads (toULong ws.chunk_size) ts.team_id k) := by
  have hcc : toULong ws.chunk_size ≤ nthreads * toULong ws.chunk_size :=
    Nat.le_mul_of_pos_left _ (by omega)
  induction k with
  | zero =>
    left
    refine ⟨by simpa [stateAfter] using htrip, rfl, ?_⟩
    have : ts.team_id * toULong ws.chunk_size < nthreads * toULong ws.chunk_size :=
      Nat.mul_lt_mul_of_pos_right hi hc
    simp only [chunkBlockStart, Nat.zero_mul, Nat.zero_add]
    omega
  | succ k ih =>
    have hs := chunkBlockStart_succ nthreads (toULong ws.chunk_size) ts.team_id k
    rcases ih with ⟨h1, h2, h3⟩ | ⟨⟨r, hr, hfix⟩, hge⟩
    · have hcall := static_chunk_call nthreads ws
        (stateAfter (gomp_iter_static_next (some nthreads) ws) ts k) k hn hc0 hc h1
        (by rw [h2]; omega) (by omega)
      rw [h2] at hcall
      rw [stateAfter]
      by_cases c1 : iterCount ws.next ws.end_ ws.incr
          ≤ chunkBlockStart nthreads (toULong ws.chunk_size) ts.team_id k
      · right
        rw [if_pos c1] at hcall
        refine ⟨⟨1, by decide, ?_⟩, by omega⟩
        rw [hcall]
        exact hcall
      · rw [if_neg c1] at hcall
        by_cases c2 : iterCount ws.next ws.end_ ws.incr
            ≤ chunkBlockStart nthreads (toULong ws.chunk_size) ts.team_id k
              + toULong ws.chunk_size
        · right
          rw [if_pos c2] at hcall
          refine ⟨⟨-1, by decide, ?_⟩, by omega⟩
          rw [hcall]
          simp [gomp_iter_static_next]
        · left
          rw [if_neg c2] at hcall
          rw [hcall]
          refine ⟨by push_cast; rfl, rfl, by omega⟩
    · right
      rw [stateAfter, hfix]
      exact ⟨⟨r, hr, hfix⟩, by omega⟩

/-- Every `x < n` lies in exactly one of the blocks
`[(j*nthreads + i)*c, (j*nthreads + i)*c + c)` clipped to `n`, `i < nthreads`. -/
theorem chunk_block_unique (nthreads c n x : Nat) (hn : 0 < nthreads) (hc : 0 < c)
    (hx : x < n) :
    ∃! p : Nat × Nat, p.1 < nthreads ∧ chunkBlockStart nthreads c p.1 p.2 ≤ x ∧
      x < min (chunkBlockStart nthreads c p.1 p.2 + c) n := by
  have hb1 : x / c * c ≤ x := Nat.div_mul_le_self x c
  have hb2 : x < (x / c + 1) * c := by
    exact Nat.lt_mul_of_div_lt (Nat.lt_succ_self _) hc
  have hdm : nthreads * (x / c / nthreads) + x / c % nthreads = x / c :=
    Nat.div_add_mod (x / c) nthreads
  have hb : x / c / nthreads * nthreads + x / c % nthreads = x / c := by
    rw [Nat.mul_comm]; exact hdm
  refine ⟨(x / c % nthreads, x / c / nthreads), ⟨Nat.mod_lt _ hn, ?_, ?_⟩, ?_⟩
  · simp only [chunkBlockStart, hb]; exact hb1
  · simp only [chunkBlockStart, hb]
    have e : (x / c + 1) * c = x / c * c + c := by ring
    exact lt_min (by omega) hx
  · rintro ⟨i, j⟩ ⟨hi, h1, h2⟩
    simp only [chunkBlockStart] at h1 h2
    have h3 : x < (j * nthreads + i) * c + c := lt_of_lt_of_le h2 (min_le_left _ _)
    have e : (j * nthreads + i + 1) * c = (j * nthreads + i) * c + c := by ring
    have hq : x / c = j * nthreads + i := by
      apply Nat.div_eq_of_lt_le
      · exact h1
      · rw [e]; exact h3
    have hi2 : (j * nthreads + i) % nthreads = i := by
      rw [Nat.add_comm, Nat.add_mul_mod_self_right]
      exact Nat.mod_eq_of_lt hi
    have hj2 : (j * nthreads + i) / nthreads = j := by
      rw [Nat.add_comm, Nat.add_mul_div_right _ _ hn, Nat.div_eq_of_lt hi, Nat.zero_add]
    rw [hq, hi2, hj2]

/-- C3 (as stated, refuted).  With `nthreads = 4`, `chunk_size = 2^62` and
`n = 2^62 + 2` iterations, the second successful call of rank `0` does not
return the block that starts at `(1*4 + 0) * 2^62` (which lies beyond `n`, so
that the call should return nonzero): the `unsigned long` product wraps and the
call returns `[0, 2^62)` again, the block of the first call. -/
theorem static_chunk_wraps :
    resultOf (gomp_iter_static_next (some 4)
        { chunk_size := 4611686018427387904, end_ := 4611686018427387906,
          incr := 1, next := 0 }) { team_id := 0 } 1
      = (0, some (0, 4611686018427387904)) ∧
    resultOf (gomp_iter_static_next (some 4)
        { chunk_size := 4611686018427387904, end_ := 4611686018427387906,
          incr := 1, next := 0 }) { team_id := 0 } 0
      = (0, some (0, 4611686018427387904)) ∧
    iterCount 0 4611686018427387906 1 ≤ chunkBlockStart 4 4611686018427387904 0 1 := by
  refine ⟨by decide, by decide, by decide⟩

theorem toULong_chunk_size (ws : gomp_work_share) (hc : 0 < ws.chunk_size)
    (hcl : ws.chunk_size < LONG_LIM) :
    ((toULong ws.chunk_size : Nat) : Int) = ws.chunk_size := by
  unfold toULong
  have h : ws.chunk_size % ((ULONG_MOD : Nat) : Int) = ws.chunk_size :=
    Int.emod_eq_of_lt hc.le (by simp only [LONG_LIM, ULONG_MOD] at *; omega)
  rw [h]
  exact Int.toNat_of_nonneg hc.le

/-- The result of call number `j` under fixed chunking when block starts do not
wrap. -/
theorem static_chunk_result (nthreads : Nat) (ws : gomp_work_share)
    (hn : 2 ≤ nthreads) (hc : 0 < ws.chunk_size) (hcl : ws.chunk_size < LONG_LIM)
    (hw : iterCount ws.next ws.end_ ws.incr + nthreads * toULong ws.chunk_size
      ≤ ULONG_MOD)
    (ts : gomp_team_state) (j : Nat) (htrip : ts.static_trip = 0)
    (hi : ts.team_id < nthreads) :
    (chunkBlockStart nthreads (toULong ws.chunk_size) ts.team_id j
        < iterCount ws.next ws.end_ ws.incr →
      resultOf (gomp_iter_static_next (some nthreads) ws) ts j =
        (0, some
          (wrapLong (toLong (chunkBlockStart nthreads (toULong ws.chunk_size) ts.team_id j)
              * ws.incr + ws.next),
           wrapLong (toLong (min (chunkBlockStart nthreads (toULong ws.chunk_size) ts.team_id j
              + toULong ws.chunk_size) (iterCount ws.next ws.end_ ws.incr))
              * ws.incr + ws.next)))) ∧
    (iterCount ws.next ws.end_ ws.incr
        ≤ chunkBlockStart nthreads (toULong ws.chunk_size) ts.team_id j →
      ∃ r : Int, r ≠ 0 ∧
        resultOf (gomp_iter_static_next (some nthreads) ws) ts j = (r, none)) := by
  have hcN := toULong_chunk_size ws hc hcl
  have hc0 : ws.chunk_size ≠ 0 := hc.ne.symm
  have hcpos : 0 < toULong ws.chunk_size := by omega
  have hcc : toULong ws.chunk_size ≤ nthreads * toULong ws.chunk_size :=
    Nat.le_mul_of_pos_left _ (by omega)
  rcases static_chunk_state nthreads ws ts hn hc0 hcpos htrip hi hw j with
    ⟨h1, h2, h3⟩ | ⟨⟨r, hr, hfix⟩, hge⟩
  · have hcall := static_chunk_call nthreads ws
      (stateAfter (gomp_iter_static_next (some nthreads) ws) ts j) j hn hc0 hcpos h1
      (by rw [h2]; omega) (by omega)
    rw [h2] at hcall
    constructor
    · intro hlt
      rw [resultOf, hcall, if_neg (by omega)]
    · intro hge
      exact ⟨1, by decide, by rw [resultOf, hcall, if_pos hge]⟩
  · constructor
    · intro hlt
      omega
    · intro _
      exact ⟨r, hr, by rw [resultOf, hfix]⟩

/-- C3 (amended).  Static fixed chunking: in a team of `nthreads >= 2` with
`chunk_size = c > 0` and `n` iterations, provided `n + nthreads * c` does not
exceed `2^64`, call number `j` of `gomp_iter_static_next` by rank `i` returns `0`
with the zero-based block `[(j*nthreads + i)*c, min((j*nthreads + i)*c + c, n))`
written in real coordinates as `(long)s0 * incr + next` (in `long`
arithmetic), as long as `(j*nthreads + i)*c < n`, and returns nonzero without a range once
`(j*nthreads + i)*c >= n`; every `x < n` lies in the block of exactly one rank
and call. -/
theorem static_chunk_blocks (nthreads : Nat) (ws : gomp_work_share)
    (hn : 2 ≤ nthreads) (hc : 0 < ws.chunk_size) (hcl : ws.chunk_size < LONG_LIM)
    (hw : iterCount ws.next ws.end_ ws.incr + nthreads * toULong ws.chunk_size
      ≤ ULONG_MOD) :
    ((toULong ws.chunk_size : Nat) : Int) = ws.chunk_size ∧
    (∀ (ts : gomp_team_state) (j : Nat), ts.static_trip = 0 → ts.team_id < nthreads →
      (chunkBlockStart nthreads (toULong ws.chunk_size) ts.team_id j
          < iterCount ws.next ws.end_ ws.incr →
        resultOf (gomp_iter_static_next (some nthreads) ws) ts j =
          (0, some
            (wrapLong (toLong (chunkBlockStart nthreads (toULong ws.chunk_size) ts.team_id j)
                * ws.incr + ws.next),
             wrapLong (toLong (min (chunkBlockStart nthreads (toULong ws.chunk_size) ts.team_id j
                + toULong ws.chunk_size) (iterCount ws.next ws.end_ ws.incr))
                * ws.incr + ws.next)))) ∧
      (iterCount ws.next ws.end_ ws.incr
          ≤ chunkBlockStart nthreads (toULong ws.chunk_size) ts.team_id j →
        ∃ r : Int, r ≠ 0 ∧
          resultOf (gomp_iter_static_next (some nthreads) ws) ts j = (r, none))) ∧
    (∀ x : Nat, x < iterCount ws.next ws.end_ ws.incr →
      ∃! p : Nat × Nat, p.1 < nthreads ∧
        chunkBlockStart nthreads (toULong ws.chunk_size) p.1 p.2 ≤ x ∧
        x < min (chunkBlockStart nthreads (toULong ws.chunk_size) p.1 p.2
          + toULong ws.chunk_size) (iterCount ws.next ws.end_ ws.incr)) := by
  have hcN := toULong_chunk_size ws hc hcl
  have hcpos : 0 < toULong ws.chunk_size := by omega
  refine ⟨hcN, ?_, ?_⟩
  · intro ts j htrip hi
    exact static_chunk_result nthreads ws hn hc hcl hw ts j htrip hi
  · intro x hx
    exact chunk_block_unique nthreads (toULong ws.chunk_size) _ x (by omega) hcpos hx

/-- Witness of C3 (amended): two threads, `chunk_size = 3`, stride `2` on
`[0, 20)`: the second call of rank `1` returns the clipped block `[18, 20)`. -/
theorem static_chunk_blocks_witness :
    resultOf (gomp_iter_static_next (some 2)
        { chunk_size := 3, end_ := 20, incr := 2, next := 0 }) { team_id := 1 } 1
      = (0, some (18, 20)) :=
  ((static_chunk_blocks 2 { chunk_size := 3, end_ := 20, incr := 2, next := 0 }
      (by decide) (by decide) (by decide) (by decide)).2.1
    { team_id := 1 } 1 rfl (by decide)).1 (by decide)


theorem toULong_cast (x : Int) : ((toULong x : Nat) : Int) = x % 18446744073709551616 := by
  unfold toULong
  exact Int.toNat_of_nonneg (Int.emod_nonneg _ (by decide))

/-- The `unsigned long` computation `start + q * incr` of the guided functions,
converted back to `long`, is the exact sum when that is representable. -/
theorem toLong_add_mul (a b : Int) (q : Nat) (h : InLong (a + q * b)) :
    toLong ((toULong a + q * toULong b) % ULONG_MOD) = a + q * b := by
  have e : (toULong a + q * toULong b) % ULONG_MOD = toULong (a + q * b) := by
    apply Int.ofNat_inj.mp
    push_cast
    rw [toULong_cast, toULong_cast, toULong_cast]
    have h1 : a % 18446744073709551616 ≡ a [ZMOD 18446744073709551616] := Int.mod_modEq _ _
    have h2 : b % 18446744073709551616 ≡ b [ZMOD 18446744073709551616] := Int.mod_modEq _ _
    exact h1.add (h2.mul_left _)
  rw [e]
  exact wrapLong_of_inLong _ h

/-- For operands of the same sign C division computes the quotient of the
magnitudes. -/
theorem toULong_tdiv_same_sign (d i : Int)
    (hs : (0 < i ∧ 0 ≤ d) ∨ (i < 0 ∧ d ≤ 0)) (hd : InLong d) :
    toULong (Int.tdiv d i) = d.natAbs / i.natAbs := by
  have hnn : 0 ≤ Int.tdiv d i := by
    rcases hs with ⟨h1, h2⟩ | ⟨h1, h2⟩
    · exact Int.tdiv_nonneg h2 h1.le
    · have := Int.tdiv_nonneg (a := -d) (b := -i) (by omega) (by omega)
      rwa [Int.neg_tdiv, Int.tdiv_neg, neg_neg] at this
  have habs : (Int.tdiv d i).natAbs = d.natAbs / i.natAbs := Int.natAbs_tdiv d i
  have hle : d.natAbs / i.natAbs ≤ d.natAbs := Nat.div_le_self _ _
  have hdl : d.natAbs ≤ 9223372036854775808 := by
    unfold InLong at hd
    simp only [LONG_LIM] at hd
    omega
  have hcast : Int.tdiv d i = ((d.natAbs / i.natAbs : Nat) : Int) := by
    rw [← habs]; exact (Int.natAbs_of_nonneg hnn).symm
  rw [hcast]
  exact toULong_natCast _ (by simp only [ULONG_MOD]; omega)

/-- Under `GuidedWF` the product `q * incr` for `q` not above the truncated
quotient stays between the cursor and `end`. -/
theorem guided_advance_bounds (nthreads : Nat) (ws : gomp_work_share)
    (hwf : GuidedWF nthreads ws) (q : Nat)
    (hq : q ≤ (ws.end_ - ws.next).natAbs / ws.incr.natAbs) :
    (0 < ws.incr → 0 ≤ (q : Int) * ws.incr ∧ (q : Int) * ws.incr ≤ ws.end_ - ws.next) ∧
    (ws.incr < 0 → (q : Int) * ws.incr ≤ 0 ∧ ws.end_ - ws.next ≤ (q : Int) * ws.incr) := by
  obtain ⟨hdir, -, -, -, -, -, -, -⟩ := hwf
  have h1 : q * ws.incr.natAbs ≤ (ws.end_ - ws.next).natAbs :=
    le_trans (Nat.mul_le_mul_right _ hq) (Nat.div_mul_le_self _ _)
  have h2 : (q : Int) * (ws.incr.natAbs : Int) ≤ ((ws.end_ - ws.next).natAbs : Int) := by
    exact_mod_cast h1
  have h3 : 0 ≤ (q : Int) * (ws.incr.natAbs : Int) := by positivity
  constructor
  · intro hi
    rcases hdir with ⟨_, hle⟩ | ⟨hneg, _⟩
    · rw [Int.natAbs_of_nonneg hi.le, Int.natAbs_of_nonneg (by omega)] at h2
      rw [Int.natAbs_of_nonneg hi.le] at h3
      exact ⟨h3, h2⟩
    · omega
  · intro hi
    rcases hdir with ⟨hpos, _⟩ | ⟨_, hle⟩
    · omega
    · rw [Int.ofNat_natAbs_of_nonpos hi.le, Int.ofNat_natAbs_of_nonpos (by omega)] at h2
      rw [Int.ofNat_natAbs_of_nonpos hi.le] at h3
      have e : (q : Int) * -ws.incr = -((q : Int) * ws.incr) := by ring
      rw [e] at h2 h3
      constructor <;> omega

/-- One call of `gomp_iter_guided_next_locked` on a non-exhausted work share, in
closed form: the spec's rule applied to the truncated quotient
`|end - next| / |incr|`. -/
theorem guided_locked_step (nthreads : Nat) (ws : gomp_work_share)
    (hwf : GuidedWF nthreads ws) (hne : ws.next ≠ ws.end_) :
    gomp_iter_guided_next_locked (some nthreads) ws =
      ({ ws with next := (guidedSpecRange nthreads
            ((ws.end_ - ws.next).natAbs / ws.incr.natAbs) ws).2 },
        some (guidedSpecRange nthreads
            ((ws.end_ - ws.next).natAbs / ws.incr.natAbs) ws)) := by
  have hwf0 := hwf
  obtain ⟨hdir, hn1, hn2, hd, ht1, ht2, hc1, hc2⟩ := hwf
  have hn : toULong (Int.tdiv (ws.end_ - ws.next) ws.incr)
      = (ws.end_ - ws.next).natAbs / ws.incr.natAbs :=
    toULong_tdiv_same_sign _ _ (by omega) hd
  have hcs : toULong ws.chunk_size = ws.chunk_size.toNat := by
    have h := toULong_natCast ws.chunk_size.toNat
      (by simp only [LONG_LIM, ULONG_MOD] at *; omega)
    rwa [Int.toNat_of_nonneg hc1] at h
  have hnle : (ws.end_ - ws.next).natAbs / ws.incr.natAbs ≤ 9223372036854775808 := by
    have := Nat.div_le_self (ws.end_ - ws.next).natAbs ws.incr.natAbs
    unfold InLong at hd
    simp only [LONG_LIM] at hd
    omega
  have hb := guided_advance_bounds nthreads ws hwf0
  unfold gomp_iter_guided_next_locked guidedSpecRange guidedChunk
  simp only [hne, if_false, wrapLong_of_inLong _ hd, hn, hcs]
  generalize (ws.end_ - ws.next).natAbs / ws.incr.natAbs = n at hnle hb ⊢
  have hq : (n + nthreads + (ULONG_MOD - 1)) % ULONG_MOD = n + nthreads - 1 := by
    simp only [ULONG_MOD, UINT_MOD] at *
    omega
  rw [hq]
  generalize (n + nthreads - 1) / nthreads = q0
  have hmax : (if q0 < ws.chunk_size.toNat then ws.chunk_size.toNat else q0)
      = max q0 ws.chunk_size.toNat := by
    split_ifs with h
    · exact (max_eq_right h.le).symm
    · exact (max_eq_left (by omega)).symm
  rw [hmax]
  generalize max q0 ws.chunk_size.toNat = q
  by_cases hqn : q ≤ n
  · simp only [hqn, if_true]
    have hin : InLong (ws.next + (q : Int) * ws.incr) := by
      obtain ⟨hb1, hb2⟩ := hb q hqn
      unfold InLong at *
      rcases hdir with ⟨hi, _⟩ | ⟨hi, _⟩
      · have := hb1 hi
        omega
      · have := hb2 hi
        omega
    rw [toLong_add_mul _ _ _ hin]
  · simp only [hqn, if_false]

/-- With no other thread running, the compare-and-swap of
`gomp_iter_guided_next` succeeds in the first round, and the call does what
`gomp_iter_guided_next_locked` does. -/
theorem guided_next_cas_eq_locked (team : Option Nat) (ws : gomp_work_share)
    (fuel : Nat) :
    gomp_iter_guided_next (fuel + 1) team ws
      = some (gomp_iter_guided_next_locked team ws) := by
  unfold gomp_iter_guided_next gomp_iter_guided_next_locked guided_next_loop
    sync_val_compare_and_swap
  cases ws
  simp only
  split_ifs <;> simp_all

theorem tdiv_toNat_same_sign (d i : Int)
    (hs : (0 < i ∧ 0 ≤ d) ∨ (i < 0 ∧ d ≤ 0)) :
    (Int.tdiv d i).toNat = d.natAbs / i.natAbs := by
  have hnn : 0 ≤ Int.tdiv d i := by
    rcases hs with ⟨h1, h2⟩ | ⟨h1, h2⟩
    · exact Int.tdiv_nonneg h2 h1.le
    · have := Int.tdiv_nonneg (a := -d) (b := -i) (by omega) (by omega)
      rwa [Int.neg_tdiv, Int.tdiv_neg, neg_neg] at this
  have habs : (Int.tdiv d i).natAbs = d.natAbs / i.natAbs := Int.natAbs_tdiv d i
  rw [← habs]
  omega

/-- C4 (as stated, refuted).  On `next = 0`, `end = 10`, `incr = 3` with one
thread and `chunk_size = 1` four iterations are left (`0, 3, 6, 9`), so the
rule of the claim gives `q = 4` and the range `[0, 12)`; both guided functions
grant `[0, 9)`, three iterations, and set `next` to `9`. -/
theorem guided_remaining_is_truncated :
    iterCount 0 10 3 = 4 ∧
    guidedSpecRange 1 (iterCount 0 10 3)
      { chunk_size := 1, end_ := 10, incr := 3, next := 0 } = (0, 12) ∧
    gomp_iter_guided_next_locked (some 1)
        { chunk_size := 1, end_ := 10, incr := 3, next := 0 }
      = ({ chunk_size := 1, end_ := 10, incr := 3, next := 9 }, some (0, 9)) ∧
    gomp_iter_guided_next 1 (some 1)
        { chunk_size := 1, end_ := 10, incr := 3, next := 0 }
      = some ({ chunk_size := 1, end_ := 10, incr := 3, next := 9 }, some (0, 9)) ∧
    iterCount 0 9 3 = 3 := by
  refine ⟨by decide, by decide, by decide, by decide, by decide⟩

/-- C4 (amended).  Guided chunk size: on a well-formed work share with
`next != end`, both `gomp_iter_guided_next_locked` and `gomp_iter_guided_next`
(uncontended) grant the range that starts at `next` and has `q` iterations,
`q = max(ceil(remaining / nthreads), chunk_size)`, where `remaining` is the
quotient `(end - next) / incr` truncated toward zero; if `q` exceeds
`remaining` the whole remainder `[next, end)` is granted instead; `next` is set
to the end of the granted range.  Both return false without changing the work
share when `next == end`. -/
theorem guided_chunk_rule (nthreads fuel : Nat) (ws : gomp_work_share)
    (hwf : GuidedWF nthreads ws) :
    (ws.next ≠ ws.end_ →
      gomp_iter_guided_next_locked (some nthreads) ws =
        ({ ws with next := (guidedSpecRange nthreads
              (Int.tdiv (ws.end_ - ws.next) ws.incr).toNat ws).2 },
          some (guidedSpecRange nthreads
              (Int.tdiv (ws.end_ - ws.next) ws.incr).toNat ws)) ∧
      gomp_iter_guided_next (fuel + 1) (some nthreads) ws =
        some ({ ws with next := (guidedSpecRange nthreads
              (Int.tdiv (ws.end_ - ws.next) ws.incr).toNat ws).2 },
          some (guidedSpecRange nthreads
              (Int.tdiv (ws.end_ - ws.next) ws.incr).toNat ws))) ∧
    (ws.next = ws.end_ →
      gomp_iter_guided_next_locked (some nthreads) ws = (ws, none) ∧
      gomp_iter_guided_next (fuel + 1) (some nthreads) ws = some (ws, none)) := by
  have hs : (0 < ws.incr ∧ 0 ≤ ws.end_ - ws.next) ∨ (ws.incr < 0 ∧ ws.end_ - ws.next ≤ 0) := by
    rcases hwf.1 with ⟨h1, h2⟩ | ⟨h1, h2⟩
    · exact Or.inl ⟨h1, by omega⟩
    · exact Or.inr ⟨h1, by omega⟩
  constructor
  · intro hne
    have h := guided_locked_step nthreads ws hwf hne
    rw [tdiv_toNat_same_sign _ _ hs]
    exact ⟨h, by rw [guided_next_cas_eq_locked, h]⟩
  · intro heq
    have h : gomp_iter_guided_next_locked (some nthreads) ws = (ws, none) := by
      simp [gomp_iter_guided_next_locked, heq]
    exact ⟨h, by rw [guided_next_cas_eq_locked, h]⟩

/-- Witness of C4 (amended): three threads on `[100, 10)` with stride `-3` and
`chunk_size = 1` grant `[100, 70)`, ten iterations. -/
theorem guided_chunk_rule_witness :
    gomp_iter_guided_next_locked (some 3)
        { chunk_size := 1, end_ := 10, incr := -3, next := 100 }
      = ({ chunk_size := 1, end_ := 10, incr := -3, next := 70 }, some (100, 70)) :=
  ((guided_chunk_rule 3 0 { chunk_size := 1, end_ := 10, incr := -3, next := 100 }
      (by decide)).1 (by decide)).1


theorem chunkIters_mul (incr a : Int) (q : Nat) (hi : incr ≠ 0) :
    chunkIters incr a (a + q * incr) = q := by
  unfold chunkIters
  have hI : 0 < incr.natAbs := Int.natAbs_pos.mpr hi
  have e : (a + (q : Int) * incr - a).natAbs = q * incr.natAbs := by
    rw [add_sub_cancel_left, Int.natAbs_mul, Int.natAbs_ofNat]
  rw [e]
  generalize incr.natAbs = I at hI
  have h1 : q * I + I - 1 = I - 1 + q * I := by omega
  rw [h1, Nat.add_mul_div_right _ _ hI, Nat.div_eq_of_lt (by omega)]
  omega

/-- What one call of `gomp_iter_guided_next_locked` does to a well-formed,
non-exhausted work share, in terms of the distance to `end`. -/
theorem guided_step_analysis (nthreads : Nat) (ws : gomp_work_share)
    (hwf : GuidedWF nthreads ws) (hne : ws.next ≠ ws.end_) :
    ∃ ws1 : gomp_work_share,
      gomp_iter_guided_next_locked (some nthreads) ws = (ws1, some (ws.next, ws1.next)) ∧
      ws1.incr = ws.incr ∧ ws1.end_ = ws.end_ ∧ ws1.chunk_size = ws.chunk_size ∧
      GuidedWF nthreads ws1 ∧
      (guidedChunk nthreads ((ws.end_ - ws.next).natAbs / ws.incr.natAbs)
          ws.chunk_size.toNat ≤ (ws.end_ - ws.next).natAbs / ws.incr.natAbs →
        (ws1.end_ - ws1.next).natAbs = (ws.end_ - ws.next).natAbs
          - guidedChunk nthreads ((ws.end_ - ws.next).natAbs / ws.incr.natAbs)
              ws.chunk_size.toNat * ws.incr.natAbs ∧
        chunkIters ws.incr ws.next ws1.next
          = guidedChunk nthreads ((ws.end_ - ws.next).natAbs / ws.incr.natAbs)
              ws.chunk_size.toNat) ∧
      ((ws.end_ - ws.next).natAbs / ws.incr.natAbs
          < guidedChunk nthreads ((ws.end_ - ws.next).natAbs / ws.incr.natAbs)
              ws.chunk_size.toNat →
        ws1.next = ws.end_) := by
  have hstep := guided_locked_step nthreads ws hwf hne
  have hb := guided_advance_bounds nthreads ws hwf
  have hi : ws.incr ≠ 0 := by
    rcases hwf.1 with ⟨h, _⟩ | ⟨h, _⟩ <;> omega
  unfold guidedSpecRange at hstep
  generalize guidedChunk nthreads ((ws.end_ - ws.next).natAbs / ws.incr.natAbs)
    ws.chunk_size.toNat = q at hstep ⊢
  obtain ⟨hdir, hn1, hn2, hd, ht1, ht2, hc1, hc2⟩ := hwf
  by_cases hq : q ≤ (ws.end_ - ws.next).natAbs / ws.incr.natAbs
  · rw [if_pos hq] at hstep
    obtain ⟨hb1, hb2⟩ := hb q hq
    have hmul : ((q * ws.incr.natAbs : Nat) : Int) = ((q : Int) * ws.incr).natAbs := by
      rw [Int.natAbs_mul, Int.natAbs_ofNat]
    refine ⟨_, hstep, rfl, rfl, rfl, ?_, ?_, ?_⟩
    · unfold GuidedWF InLong at *
      simp only
      rcases hdir with ⟨hpos, hle⟩ | ⟨hneg, hle⟩
      · have := hb1 hpos
        refine ⟨Or.inl ⟨hpos, by omega⟩, ?_, hn2, ?_, ht1, ht2, hc1, hc2⟩ <;> omega
      · have := hb2 hneg
        refine ⟨Or.inr ⟨hneg, by omega⟩, ?_, hn2, ?_, ht1, ht2, hc1, hc2⟩ <;> omega
    · intro _
      simp only
      refine ⟨?_, chunkIters_mul _ _ _ hi⟩
      apply Int.ofNat_inj.mp
      rcases hdir with ⟨hpos, hle⟩ | ⟨hneg, hle⟩
      · have := hb1 hpos
        have h5 : q * ws.incr.natAbs ≤ (ws.end_ - ws.next).natAbs := by
          apply Int.ofNat_le.mp; rw [hmul]; omega
        rw [Nat.cast_sub h5, hmul]
        omega
      · have := hb2 hneg
        have h5 : q * ws.incr.natAbs ≤ (ws.end_ - ws.next).natAbs := by
          apply Int.ofNat_le.mp; rw [hmul]; omega
        rw [Nat.cast_sub h5, hmul]
        omega
    · intro h; omega
  · rw [if_neg hq] at hstep
    refine ⟨_, hstep, rfl, rfl, rfl, ?_, ?_, ?_⟩
    · unfold GuidedWF InLong at *
      simp only [sub_self]
      refine ⟨?_, hn2, hn2, by simp [LONG_LIM], ht1, ht2, hc1, hc2⟩
      rcases hdir with ⟨hpos, hle⟩ | ⟨hneg, hle⟩
      · exact Or.inl ⟨hpos, le_refl _⟩
      · exact Or.inr ⟨hneg, le_refl _⟩
    · intro h; exact absurd h hq
    · intro _; rfl

theorem guidedChunk_mono (nthreads c : Nat) {n1 n2 : Nat} (h : n1 ≤ n2) :
    guidedChunk nthreads n1 c ≤ guidedChunk nthreads n2 c := by
  unfold guidedChunk
  exact max_le_max (Nat.div_le_div_right (by omega)) (le_refl c)

theorem guided_locked_exhausted (team : Option Nat) (ws : gomp_work_share)
    (h : ws.next = ws.end_) :
    gomp_iter_guided_next_locked team ws = (ws, none) := by
  simp [gomp_iter_guided_next_locked, h]

/-- Two consecutive calls of `gomp_iter_guided_next_locked`: the second grants
no more iterations than the first. -/
theorem guided_pair_sizes (nthreads : Nat) (ws : gomp_work_share)
    (hwf : GuidedWF nthreads ws) :
    grantedIters ws.incr (gomp_iter_guided_next_locked (some nthreads)
        (gomp_iter_guided_next_locked (some nthreads) ws).1).2
      ≤ grantedIters ws.incr (gomp_iter_guided_next_locked (some nthreads) ws).2 := by
  by_cases hne : ws.next = ws.end_
  · rw [guided_locked_exhausted _ _ hne]
    simp only
    rw [guided_locked_exhausted _ _ hne]
  · obtain ⟨ws1, h1, hincr, hend, hcs, hwf1, hA, hB⟩ :=
      guided_step_analysis nthreads ws hwf hne
    rw [h1]
    simp only
    by_cases hne1 : ws1.next = ws1.end_
    · rw [guided_locked_exhausted _ _ hne1]
      simp [grantedIters]
    · obtain ⟨ws2, h2, -, -, -, -, hA2, hB2⟩ :=
        guided_step_analysis nthreads ws1 hwf1 hne1
      rw [h2]
      simp only [grantedIters]
      have hI : 0 < ws.incr.natAbs := by
        rcases hwf.1 with ⟨h, _⟩ | ⟨h, _⟩ <;> omega
      rw [hincr, hend, hcs] at hA2 hB2
      by_cases hq : guidedChunk nthreads ((ws.end_ - ws.next).natAbs / ws.incr.natAbs)
          ws.chunk_size.toNat ≤ (ws.end_ - ws.next).natAbs / ws.incr.natAbs
      · obtain ⟨hD1, hsz⟩ := hA hq
        rw [hend] at hD1
        rw [hsz]
        have hqI : guidedChunk nthreads ((ws.end_ - ws.next).natAbs / ws.incr.natAbs)
            ws.chunk_size.toNat * ws.incr.natAbs ≤ (ws.end_ - ws.next).natAbs :=
          le_trans (Nat.mul_le_mul_right _ hq) (Nat.div_mul_le_self _ _)
        have hn1 : (ws.end_ - ws1.next).natAbs / ws.incr.natAbs
            ≤ (ws.end_ - ws.next).natAbs / ws.incr.natAbs := by
          rw [hD1]; exact Nat.div_le_div_right (Nat.sub_le _ _)
        have hq1 := guidedChunk_mono nthreads ws.chunk_size.toNat hn1
        by_cases hq2 : guidedChunk nthreads ((ws.end_ - ws1.next).natAbs / ws.incr.natAbs)
            ws.chunk_size.toNat ≤ (ws.end_ - ws1.next).natAbs / ws.incr.natAbs
        · rw [(hA2 hq2).2]
          exact hq1
        · have hlast := hB2 (by omega)
          rw [hlast]
          unfold chunkIters
          have h3 : ((ws.end_ - ws1.next).natAbs + ws.incr.natAbs - 1) / ws.incr.natAbs
              ≤ (ws.end_ - ws1.next).natAbs / ws.incr.natAbs + 1 := by
            rw [← Nat.add_div_right _ hI]
            exact Nat.div_le_div_right (by omega)
          omega
      · exact absurd ((hB (by omega)).trans hend.symm) hne1

/-- Invariant of a sequence of calls of `gomp_iter_guided_next_locked`. -/
theorem guided_state_wf (nthreads : Nat) (ws : gomp_work_share)
    (hwf : GuidedWF nthreads ws) (k : Nat) :
    GuidedWF nthreads (stateAfter (gomp_iter_guided_next_locked (some nthreads)) ws k) ∧
    (stateAfter (gomp_iter_guided_next_locked (some nthreads)) ws k).incr = ws.incr ∧
    (stateAfter (gomp_iter_guided_next_locked (some nthreads)) ws k).end_ = ws.end_ ∧
    (stateAfter (gomp_iter_guided_next_locked (some nthreads)) ws k).chunk_size
      = ws.chunk_size := by
  induction k with
  | zero => exact ⟨hwf, rfl, rfl, rfl⟩
  | succ k ih =>
    obtain ⟨ih1, ih2, ih3, ih4⟩ := ih
    rw [stateAfter]
    by_cases hne : (stateAfter (gomp_iter_guided_next_locked (some nthreads)) ws k).next
        = (stateAfter (gomp_iter_guided_next_locked (some nthreads)) ws k).end_
    · rw [guided_locked_exhausted _ _ hne]
      exact ⟨ih1, ih2, ih3, ih4⟩
    · obtain ⟨ws1, h1, hincr, hend, hcs, hwf1, -, -⟩ :=
        guided_step_analysis nthreads _ ih1 hne
      rw [h1]
      exact ⟨hwf1, hincr.trans ih2, hend.trans ih3, hcs.trans ih4⟩

/-- The stride divides the distance to `end` after a call if it did before. -/
theorem guided_step_dvd (nthreads : Nat) (ws : gomp_work_share)
    (hwf : GuidedWF nthreads ws) (hdvd : ws.incr ∣ ws.end_ - ws.next) :
    ws.incr ∣ ws.end_ - (gomp_iter_guided_next_locked (some nthreads) ws).1.next := by
  by_cases hne : ws.next = ws.end_
  · rw [guided_locked_exhausted _ _ hne]
    exact hdvd
  · obtain ⟨ws1, h1, hincr, hend, hcs, hwf1, hA, hB⟩ :=
      guided_step_analysis nthreads ws hwf hne
    rw [h1]
    simp only
    by_cases hq : guidedChunk nthreads ((ws.end_ - ws.next).natAbs / ws.incr.natAbs)
        ws.chunk_size.toNat ≤ (ws.end_ - ws.next).natAbs / ws.incr.natAbs
    · obtain ⟨hD1, -⟩ := hA hq
      rw [hend] at hD1
      apply Int.natAbs_dvd_natAbs.mp
      rw [hD1]
      exact (Nat.dvd_sub' (Int.natAbs_dvd_natAbs.mpr hdvd) (Nat.dvd_mul_left _ _))
    · rw [hB (by omega), sub_self]
      exact dvd_zero _

/-- With `chunk_size >= 1`, or with a stride that divides the distance to
`end`, every granting call brings the cursor strictly closer to `end`. -/
theorem guided_dist_decreases (nthreads : Nat) (ws : gomp_work_share)
    (hwf : GuidedWF nthreads ws)
    (hc : 1 ≤ ws.chunk_size ∨ ws.incr ∣ ws.end_ - ws.next) (hne : ws.next ≠ ws.end_) :
    (ws.end_ - (gomp_iter_guided_next_locked (some nthreads) ws).1.next).natAbs
      < (ws.end_ - ws.next).natAbs := by
  obtain ⟨ws1, h1, hincr, hend, hcs, hwf1, hA, hB⟩ :=
    guided_step_analysis nthreads ws hwf hne
  rw [h1]
  simp only
  have hI : 0 < ws.incr.natAbs := by
    rcases hwf.1 with ⟨h, _⟩ | ⟨h, _⟩ <;> omega
  have hqc : 1 ≤ guidedChunk nthreads ((ws.end_ - ws.next).natAbs / ws.incr.natAbs)
      ws.chunk_size.toNat := by
    rcases hc with hc | hdvd
    · exact le_trans (by omega) (le_max_right _ _)
    · have hd0 : 0 < (ws.end_ - ws.next).natAbs := by omega
      have hle : ws.incr.natAbs ≤ (ws.end_ - ws.next).natAbs :=
        Nat.le_of_dvd hd0 (Int.natAbs_dvd_natAbs.mpr hdvd)
      have hn1 : 1 ≤ (ws.end_ - ws.next).natAbs / ws.incr.natAbs :=
        (Nat.le_div_iff_mul_le hI).mpr (by omega)
      have ht1 : 1 ≤ nthreads := hwf.2.2.2.2.1
      have hq1 : 1 ≤ ((ws.end_ - ws.next).natAbs / ws.incr.natAbs + nthreads - 1) / nthreads :=
        (Nat.le_div_iff_mul_le (by omega)).mpr (by omega)
      exact le_trans hq1 (le_max_left _ _)
  by_cases hq : guidedChunk nthreads ((ws.end_ - ws.next).natAbs / ws.incr.natAbs)
      ws.chunk_size.toNat ≤ (ws.end_ - ws.next).natAbs / ws.incr.natAbs
  · obtain ⟨hD1, -⟩ := hA hq
    rw [hend] at hD1
    rw [hD1]
    have hqI : guidedChunk nthreads ((ws.end_ - ws.next).natAbs / ws.incr.natAbs)
        ws.chunk_size.toNat * ws.incr.natAbs ≤ (ws.end_ - ws.next).natAbs :=
      le_trans (Nat.mul_le_mul_right _ hq) (Nat.div_mul_le_self _ _)
    have hpos : 0 < guidedChunk nthreads ((ws.end_ - ws.next).natAbs / ws.incr.natAbs)
        ws.chunk_size.toNat * ws.incr.natAbs := Nat.mul_pos hqc hI
    omega
  · rw [hB (by omega)]
    omega

/-- A function that always returns gives the same sequence of calls whether or
not it is run as one that may fail to return. -/
theorem resultOf_opt_total {σ ρ : Type} (g : σ → Option (σ × ρ)) (f : σ → σ × ρ)
    (h : ∀ s, g s = some (f s)) (s : σ) (k : Nat) :
    stateAfter? g s k = some (stateAfter f s k) ∧
    resultOf? g s k = some (resultOf f s k) := by
  have hs : ∀ j : Nat, stateAfter? g s j = some (stateAfter f s j) := by
    intro j
    induction j with
    | zero => rfl
    | succ j ih => rw [stateAfter?, ih, stateAfter]; simp [h]
  exact ⟨hs k, by rw [resultOf?, hs k, resultOf]; simp [h]⟩

/-- The condition of progress holds in every state of a sequence of calls. -/
theorem guided_prog_state (nthreads : Nat) (ws : gomp_work_share)
    (hwf : GuidedWF nthreads ws)
    (hc : 1 ≤ ws.chunk_size ∨ ws.incr ∣ ws.end_ - ws.next) (k : Nat) :
    1 ≤ (stateAfter (gomp_iter_guided_next_locked (some nthreads)) ws k).chunk_size ∨
    (stateAfter (gomp_iter_guided_next_locked (some nthreads)) ws k).incr ∣
      (stateAfter (gomp_iter_guided_next_locked (some nthreads)) ws k).end_
        - (stateAfter (gomp_iter_guided_next_locked (some nthreads)) ws k).next := by
  rcases hc with hc | hdvd
  · left
    rw [(guided_state_wf nthreads ws hwf k).2.2.2]
    exact hc
  · right
    induction k with
    | zero => exact hdvd
    | succ k ih =>
      obtain ⟨hwfk, hincr, hend, -⟩ := guided_state_wf nthreads ws hwf k
      obtain ⟨-, hincr1, hend1, -⟩ := guided_state_wf nthreads ws hwf (k + 1)
      have h := guided_step_dvd nthreads _ hwfk ih
      rw [hincr, hend] at h
      rw [hincr1, hend1]
      exact h

theorem guided_dist_bound (nthreads : Nat) (ws : gomp_work_share)
    (hwf : GuidedWF nthreads ws)
    (hc : 1 ≤ ws.chunk_size ∨ ws.incr ∣ ws.end_ - ws.next) (k : Nat) :
    (ws.end_ - (stateAfter (gomp_iter_guided_next_locked (some nthreads)) ws k).next).natAbs
      ≤ (ws.end_ - ws.next).natAbs - k := by
  induction k with
  | zero => exact le_refl _
  | succ k ih =>
    obtain ⟨hwfk, -, hend, hcs⟩ := guided_state_wf nthreads ws hwf k
    rw [stateAfter]
    by_cases hne : (stateAfter (gomp_iter_guided_next_locked (some nthreads)) ws k).next
        = (stateAfter (gomp_iter_guided_next_locked (some nthreads)) ws k).end_
    · rw [guided_locked_exhausted _ _ hne, hne, hend]
      simp
    · have h := guided_dist_decreases nthreads _ hwfk
        (guided_prog_state nthreads ws hwf hc k) hne
      rw [hend] at h
      omega

/-- C8 (as stated, refuted).  Two threads, `incr = 1`, `chunk_size = 1`,
`next = LONG_MIN`, `end = LONG_MAX`: the conditions of the claim hold, but the
distance `end - next` is not a `long`.  The first call of
`gomp_iter_guided_next_locked` grants one iteration, `[LONG_MIN, LONG_MIN + 1)`,
the second grants `[LONG_MIN + 1, 0)`, which has `2^63 - 1` iterations: the
sizes grow. -/
theorem guided_sizes_grow :
    resultOf (gomp_iter_guided_next_locked (some 2))
        { chunk_size := 1, end_ := 9223372036854775807, incr := 1,
          next := -9223372036854775808 } 0
      = some (-9223372036854775808, -9223372036854775807) ∧
    resultOf (gomp_iter_guided_next_locked (some 2))
        { chunk_size := 1, end_ := 9223372036854775807, incr := 1,
          next := -9223372036854775808 } 1
      = some (-9223372036854775807, 0) ∧
    grantedIters 1 (some (-9223372036854775808, -9223372036854775807)) = 1 ∧
    grantedIters 1 (some (-9223372036854775807, 0)) = 9223372036854775807 ∧
    ¬ (grantedIters 1 (resultOf (gomp_iter_guided_next_locked (some 2))
        { chunk_size := 1, end_ := 9223372036854775807, incr := 1,
          next := -9223372036854775808 } 1)
      ≤ grantedIters 1 (resultOf (gomp_iter_guided_next_locked (some 2))
        { chunk_size := 1, end_ := 9223372036854775807, incr := 1,
          next := -9223372036854775808 } 0)) := by
  refine ⟨by decide, by decide, by decide, by decide, by decide⟩

/-- C8 (amended).  Guided monotonicity: on a well-formed work share (the cursor
on the side of `end` that the stride gives; `next`, `end` and `end - next`
representable as `long`; at most `UINT_MAX` threads) with
`chunk_size >= 1`, in a sequence of calls of `gomp_iter_guided_next_locked` by
one thread the sizes in iterations of the granted chunks are non-increasing,
every chunk that does not end at `end` has at least `chunk_size` iterations,
the sequence reaches exhaustion, and `gomp_iter_guided_next` (uncontended)
returns the same results call by call. -/
theorem guided_sizes_nonincreasing (nthreads : Nat) (ws : gomp_work_share)
    (hwf : GuidedWF nthreads ws) (hc : 1 ≤ ws.chunk_size) :
    (∀ k : Nat,
      grantedIters ws.incr
          (resultOf (gomp_iter_guided_next_locked (some nthreads)) ws (k + 1))
        ≤ grantedIters ws.incr
          (resultOf (gomp_iter_guided_next_locked (some nthreads)) ws k)) ∧
    (∀ (k : Nat) (a b : Int),
      resultOf (gomp_iter_guided_next_locked (some nthreads)) ws k = some (a, b) →
      b ≠ ws.end_ → ws.chunk_size.toNat ≤ chunkIters ws.incr a b) ∧
    (∃ K : Nat, ∀ k : Nat, K ≤ k →
      resultOf (gomp_iter_guided_next_locked (some nthreads)) ws k = none) ∧
    (∀ fuel k : Nat,
      resultOf? (gomp_iter_guided_next (fuel + 1) (some nthreads)) ws k
        = some (resultOf (gomp_iter_guided_next_locked (some nthreads)) ws k)) := by
  refine ⟨?_, ?_, ?_, ?_⟩
  · intro k
    obtain ⟨hwfk, hincr, -, -⟩ := guided_state_wf nthreads ws hwf k
    have h := guided_pair_sizes nthreads _ hwfk
    rw [hincr] at h
    exact h
  · intro k a b hres hb
    obtain ⟨hwfk, hincr, hend, hcs⟩ := guided_state_wf nthreads ws hwf k
    rw [resultOf] at hres
    by_cases hne : (stateAfter (gomp_iter_guided_next_locked (some nthreads)) ws k).next
        = (stateAfter (gomp_iter_guided_next_locked (some nthreads)) ws k).end_
    · rw [guided_locked_exhausted _ _ hne] at hres
      simp at hres
    · obtain ⟨ws1, h1, -, -, -, -, hA, hB⟩ := guided_step_analysis nthreads _ hwfk hne
      rw [h1] at hres
      simp only [Option.some.injEq, Prod.mk.injEq] at hres
      obtain ⟨ha, hb1⟩ := hres
      rw [hincr, hend, hcs] at hA hB
      by_cases hq : guidedChunk nthreads
          ((ws.end_ - (stateAfter (gomp_iter_guided_next_locked (some nthreads)) ws k).next).natAbs
            / ws.incr.natAbs) ws.chunk_size.toNat
          ≤ (ws.end_ - (stateAfter (gomp_iter_guided_next_locked (some nthreads)) ws k).next).natAbs
            / ws.incr.natAbs
      · rw [← ha, ← hb1, (hA hq).2]
        exact le_max_right _ _
      · exact absurd (hb1 ▸ hB (by omega)) hb
  · refine ⟨(ws.end_ - ws.next).natAbs, ?_⟩
    intro k hk
    obtain ⟨-, -, hend, -⟩ := guided_state_wf nthreads ws hwf k
    have h := guided_dist_bound nthreads ws hwf (Or.inl hc) k
    rw [resultOf]
    apply congrArg Prod.snd (guided_locked_exhausted _ _ _)
    rw [hend]
    omega
  · intro fuel k
    exact (resultOf_opt_total _ _
      (fun s => guided_next_cas_eq_locked (some nthreads) s fuel) ws k).2

/-- Witness of C8: one thread of a team of two on `[0, 20)` with stride `3` and
`chunk_size = 2`: the second chunk is no larger than the first. -/
theorem guided_sizes_nonincreasing_witness :
    grantedIters 3 (resultOf (gomp_iter_guided_next_locked (some 2))
        { chunk_size := 2, end_ := 20, incr := 3, next := 0 } 1)
      ≤ grantedIters 3 (resultOf (gomp_iter_guided_next_locked (some 2))
        { chunk_size := 2, end_ := 20, incr := 3, next := 0 } 0) :=
  (guided_sizes_nonincreasing 2 { chunk_size := 2, end_ := 20, incr := 3, next := 0 }
    (by decide) (by decide)).1 0


/-- The iteration count of a well-directed loop: `next + n * incr` is the first
point of the stride at or beyond `end`, and `n` is below `2^63`. -/
theorem iterCount_bounds (next end_ incr : Int)
    (hdir : (0 < incr ∧ next ≤ end_) ∨ (incr < 0 ∧ end_ ≤ next))
    (hov : InLong (end_ - next + (incr + (if incr > 0 then -1 else 1)))) :
    (iterCount next end_ incr : Int) ≤ 9223372036854775808 ∧
    (0 < incr → end_ ≤ next + iterCount next end_ incr * incr ∧
      next + iterCount next end_ incr * incr < end_ + incr) ∧
    (incr < 0 → end_ + incr < next + iterCount next end_ incr * incr ∧
      next + iterCount next end_ incr * incr ≤ end_) := by
  have hs : (0 < incr ∧ 0 ≤ end_ - next + (incr + (if incr > 0 then -1 else 1))) ∨
      (incr < 0 ∧ end_ - next + (incr + (if incr > 0 then -1 else 1)) ≤ 0) := by
    rcases hdir with ⟨h1, h2⟩ | ⟨h1, h2⟩
    · left; rw [if_pos h1]; exact ⟨h1, by omega⟩
    · right; rw [if_neg (by omega)]; exact ⟨h1, by omega⟩
  have hn : iterCount next end_ incr
      = (end_ - next + (incr + (if incr > 0 then -1 else 1))).natAbs / incr.natAbs := by
    unfold iterCount
    rw [wrapLong_of_inLong _ hov]
    exact toULong_tdiv_same_sign _ _ hs hov
  have hI : 0 < incr.natAbs := by
    rcases hdir with ⟨h, _⟩ | ⟨h, _⟩ <;> omega
  have h1 := Nat.div_mul_le_self
    (end_ - next + (incr + (if incr > 0 then -1 else 1))).natAbs incr.natAbs
  have h2 := Nat.lt_div_mul_add (a := (end_ - next + (incr + (if incr > 0 then -1 else 1))).natAbs) hI
  have h3 := Nat.div_le_self
    (end_ - next + (incr + (if incr > 0 then -1 else 1))).natAbs incr.natAbs
  rw [← hn] at h1 h2 h3
  have c1 : ((iterCount next end_ incr * incr.natAbs : Nat) : Int)
      = (iterCount next end_ incr : Int) * (incr.natAbs : Int) := by push_cast; rfl
  unfold InLong at hov
  simp only [LONG_LIM] at hov
  refine ⟨by omega, ?_, ?_⟩
  · intro hpos
    rw [if_pos hpos] at h1 h2 h3 hov
    have e : (incr.natAbs : Int) = incr := Int.natAbs_of_nonneg hpos.le
    rw [e] at c1
    rcases hdir with ⟨_, hle⟩ | ⟨hneg, _⟩
    · constructor <;> omega
    · omega
  · intro hneg
    rw [if_neg (by omega)] at h1 h2 h3 hov
    have e : (incr.natAbs : Int) = -incr := Int.ofNat_natAbs_of_nonpos hneg.le
    rw [e] at c1
    have e2 : (iterCount next end_ incr : Int) * -incr
        = -((iterCount next end_ incr : Int) * incr) := by ring
    rw [e2] at c1
    rcases hdir with ⟨hpos, _⟩ | ⟨_, hle⟩
    · omega
    · constructor <;> omega

theorem toLong_natCast (u : Nat) (h : u < 9223372036854775808) : toLong u = (u : Int) := by
  unfold toLong
  have hm : u % ULONG_MOD = u := Nat.mod_eq_of_lt (by simp only [ULONG_MOD]; omega)
  rw [hm, if_pos h]

/-- After its first call under auto chunking a thread is refused on every later
call. -/
theorem static_auto_later_calls (nthreads : Nat) (ws : gomp_work_share)
    (ts : gomp_team_state) (hn : 2 ≤ nthreads) (hc : ws.chunk_size = 0)
    (htrip : ts.static_trip = 0) (hi : ts.team_id < nthreads) (k : Nat) :
    ∃ r : Int, r ≠ 0 ∧
      resultOf (gomp_iter_static_next (some nthreads) ws) ts (k + 1) = (r, none) := by
  have hdone : ∀ t : gomp_team_state, (t.static_trip = 1 ∨ t.static_trip = -1) →
      ∃ r : Int, r ≠ 0 ∧ gomp_iter_static_next (some nthreads) ws t = (t, (r, none)) := by
    intro t ht
    have h1 : nthreads ≠ 1 := by omega
    rcases ht with ht | ht
    · exact ⟨1, by decide, by simp [gomp_iter_static_next, ht, hc, h1]⟩
    · exact ⟨-1, by decide, by simp [gomp_iter_static_next, ht]⟩
  have hstate : ∀ j : Nat,
      (stateAfter (gomp_iter_static_next (some nthreads) ws) ts (j + 1)).static_trip = 1 ∨
      (stateAfter (gomp_iter_static_next (some nthreads) ws) ts (j + 1)).static_trip = -1 := by
    intro j
    induction j with
    | zero =>
      rw [stateAfter, stateAfter, static_auto_first_call nthreads ws ts hn hc htrip hi]
      split_ifs <;> simp
    | succ j ih =>
      obtain ⟨r, -, hfix⟩ := hdone _ ih
      rw [stateAfter, hfix]
      exact ih
  obtain ⟨r, hr, hfix⟩ := hdone _ (hstate k)
  exact ⟨r, hr, by rw [resultOf, hfix]⟩

theorem autoShare_le (n nthreads i : Nat) (hi : i < nthreads) :
    autoShareStart n nthreads i + autoShareLen n nthreads i ≤ n := by
  have hdm : nthreads * (n / nthreads) + n % nthreads = n := Nat.div_add_mod n nthreads
  have htlt : n % nthreads < nthreads := Nat.mod_lt _ (by omega)
  have hend : autoShareStart n nthreads nthreads = n := by
    unfold autoShareStart
    rw [min_eq_right htlt.le]
    exact hdm
  have hmono : Monotone (autoShareStart n nthreads) :=
    monotone_nat_of_le_succ (fun j => by rw [autoShareStart_succ]; omega)
  rw [← autoShareStart_succ]
  calc autoShareStart n nthreads (i + 1) ≤ autoShareStart n nthreads nthreads := hmono hi
    _ = n := hend

/-- A block of the spec is non-empty and lies within `[0, n)`. -/
theorem staticBlock_bounds (nthreads n c i k s e : Nat) (hi : i < nthreads)
    (h : staticBlock nthreads n c i k = some (s, e)) : s < e ∧ e ≤ n := by
  unfold staticBlock at h
  split_ifs at h with h1 h2 h3
  · simp only [Option.some.injEq, Prod.mk.injEq] at h
    have := autoShare_le n nthreads i hi
    omega
  · simp only [Option.some.injEq, Prod.mk.injEq] at h
    obtain ⟨rfl, rfl⟩ := h
    have hcp : 0 < c := by omega
    exact ⟨lt_min (by omega) h3, min_le_right _ _⟩

/-- Every `z < n` lies in the block of exactly one rank and call. -/
theorem staticBlock_partition (nthreads n c z : Nat) (hn : 0 < nthreads) (hz : z < n) :
    ∃! p : Nat × Nat, p.1 < nthreads ∧
      ∃ s e : Nat, staticBlock nthreads n c p.1 p.2 = some (s, e) ∧ s ≤ z ∧ z < e := by
  by_cases hc : c = 0
  · have hdm : nthreads * (n / nthreads) + n % nthreads = n := Nat.div_add_mod n nthreads
    have htlt : n % nthreads < nthreads := Nat.mod_lt _ hn
    have hend : autoShareStart n nthreads nthreads = n := by
      unfold autoShareStart
      rw [min_eq_right htlt.le]
      exact hdm
    obtain ⟨i, ⟨hi, h1, h2⟩, huniq⟩ := step_index_unique (autoShareStart n nthreads)
      (fun i => by rw [autoShareStart_succ]; omega) nthreads z
      (by simp [autoShareStart]) (by rw [hend]; exact hz)
    rw [autoShareStart_succ] at h2
    refine ⟨(i, 0), ⟨hi, _, _, ?_, h1, h2⟩, ?_⟩
    · simp only [staticBlock, hc, if_true]
      rw [if_pos ⟨trivial, by omega⟩]
    · rintro ⟨j, k⟩ ⟨hj, s, e, hb, hs, he⟩
      simp only [staticBlock, hc, if_true] at hb
      split_ifs at hb with h3
      simp only [Option.some.injEq, Prod.mk.injEq] at hb
      obtain ⟨rfl, rfl⟩ := hb
      have := huniq j ⟨hj, hs, by rw [autoShareStart_succ]; exact he⟩
      simp only at h3
      rw [this, h3.1]
  · have hcp : 0 < c := Nat.pos_of_ne_zero hc
    obtain ⟨p, ⟨hp, h1, h2⟩, huniq⟩ := chunk_block_unique nthreads c n z hn hcp hz
    refine ⟨p, ⟨hp, _, _, ?_, h1, h2⟩, ?_⟩
    · simp only [staticBlock, hc, if_false]
      rw [if_pos (by omega)]
    · rintro ⟨j, k⟩ ⟨hj, s, e, hb, hs, he⟩
      simp only [staticBlock, hc, if_false] at hb
      split_ifs at hb with h3
      simp only [Option.some.injEq, Prod.mk.injEq] at hb
      obtain ⟨rfl, rfl⟩ := hb
      exact huniq (j, k) ⟨hj, hs, he⟩

/-- The static function returns, call by call, the blocks of the spec mapped
to real coordinates, and refuses every call that has no block. -/
theorem static_result_block (nthreads : Nat) (ws : gomp_work_share)
    (hwf : StaticWF nthreads ws) (ts : gomp_team_state) (htrip : ts.static_trip = 0)
    (hi : ts.team_id < nthreads) (k : Nat) :
    (∀ s e : Nat,
      staticBlock nthreads (iterCount ws.next ws.end_ ws.incr) ws.chunk_size.toNat
          ts.team_id k = some (s, e) →
      resultOf (gomp_iter_static_next (some nthreads) ws) ts k
        = (0, some ((s : Int) * ws.incr + ws.next, (e : Int) * ws.incr + ws.next))) ∧
    (staticBlock nthreads (iterCount ws.next ws.end_ ws.incr) ws.chunk_size.toNat
          ts.team_id k = none →
      ∃ r : Int, r ≠ 0 ∧
        resultOf (gomp_iter_static_next (some nthreads) ws) ts k = (r, none)) := by
  obtain ⟨hn, hdir, hov, hcount, hc1, hc2, hw, hrn, hre⟩ := hwf
  have hsmall : ∀ u : Nat, u ≤ iterCount ws.next ws.end_ ws.incr → toLong u = (u : Int) :=
    fun u hu => toLong_natCast u (by omega)
  have hwrap : ∀ u : Nat, u ≤ iterCount ws.next ws.end_ ws.incr →
      wrapLong ((u : Int) * ws.incr + ws.next) = (u : Int) * ws.incr + ws.next := by
    intro u hu
    apply wrapLong_of_inLong
    have hu0 : (0 : Int) ≤ (u : Int) := Int.ofNat_nonneg u
    have hun : (u : Int) ≤ (iterCount ws.next ws.end_ ws.incr : Int) := by exact_mod_cast hu
    unfold InLong at *
    rcases hdir with ⟨hp, _⟩ | ⟨hp, _⟩
    · have h1 : (u : Int) * ws.incr ≤ (iterCount ws.next ws.end_ ws.incr : Int) * ws.incr :=
        mul_le_mul_of_nonneg_right hun hp.le
      have h2 : 0 ≤ (u : Int) * ws.incr := mul_nonneg hu0 hp.le
      constructor <;> omega
    · have h1 : (iterCount ws.next ws.end_ ws.incr : Int) * ws.incr ≤ (u : Int) * ws.incr :=
        mul_le_mul_of_nonpos_right hun hp.le
      have h2 : (u : Int) * ws.incr ≤ 0 := mul_nonpos_of_nonneg_of_nonpos hu0 hp.le
      constructor <;> omega
  by_cases hc : ws.chunk_size = 0
  · have hcn : ws.chunk_size.toNat = 0 := by rw [hc]; rfl
    rw [hcn]
    rcases Nat.eq_zero_or_pos k with hk | hk
    · subst hk
      have hfirst := static_auto_result nthreads ws hn hc ts htrip hi
      have hle := autoShare_le (iterCount ws.next ws.end_ ws.incr) nthreads ts.team_id hi
      constructor
      · intro s e hb
        simp only [staticBlock, if_true, true_and] at hb
        split_ifs at hb with h1
        simp only [Option.some.injEq, Prod.mk.injEq] at hb
        obtain ⟨rfl, rfl⟩ := hb
        have hres : resultOf (gomp_iter_static_next (some nthreads) ws) ts 0
            = (gomp_iter_static_next (some nthreads) ws ts).2 := rfl
        rw [hres, hfirst, if_neg (by omega), hsmall _ (by omega), hsmall _ hle,
          hwrap _ (by omega), hwrap _ hle]
      · intro hb
        simp only [staticBlock, if_true, true_and] at hb
        split_ifs at hb with h1
        have hres : resultOf (gomp_iter_static_next (some nthreads) ws) ts 0
            = (gomp_iter_static_next (some nthreads) ws ts).2 := rfl
        exact ⟨1, by decide, by rw [hres, hfirst, if_pos (by omega)]⟩
    · obtain ⟨j, rfl⟩ : ∃ j, k = j + 1 := ⟨k - 1, by omega⟩
      constructor
      · intro s e hb
        simp [staticBlock] at hb
      · intro _
        exact static_auto_later_calls nthreads ws ts hn hc htrip hi j
  · have hcpos : 0 < ws.chunk_size := by omega
    have hcN := toULong_chunk_size ws hcpos hc2
    have hcn : ws.chunk_size.toNat = toULong ws.chunk_size := by omega
    have hne : toULong ws.chunk_size ≠ 0 := by omega
    rw [hcn]
    obtain ⟨hr1, hr2⟩ := static_chunk_result nthreads ws hn hcpos hc2 hw ts k htrip hi
    constructor
    · intro s e hb
      simp only [staticBlock, hne, if_false] at hb
      split_ifs at hb with h1
      simp only [Option.some.injEq, Prod.mk.injEq] at hb
      obtain ⟨rfl, rfl⟩ := hb
      rw [hr1 h1, hsmall _ h1.le, hsmall _ (min_le_right _ _), hwrap _ h1.le,
        hwrap _ (min_le_right _ _)]
    · intro hb
      simp only [staticBlock, hne, if_false] at hb
      split_ifs at hb with h1
      exact hr2 (by omega)

/-- A point `x` at or after `next` lies in the real image of the zero-based
block `[s, e)` exactly when its zero-based index lies in the block. -/
theorem real_block_iff (next incr x : Int) (s e : Nat) (hi : 0 < incr) (hx : next ≤ x) :
    (s ≤ ((x - next) / incr).toNat ∧ ((x - next) / incr).toNat < e) ↔
      ((s : Int) * incr + next ≤ x ∧ x < (e : Int) * incr + next) := by
  have h0 : 0 ≤ (x - next) / incr := Int.ediv_nonneg (by omega) hi.le
  have h1 : (x - next) / incr * incr ≤ x - next := Int.ediv_mul_le _ hi.ne.symm
  have h2 : x - next < ((x - next) / incr + 1) * incr := Int.lt_ediv_add_one_mul_self _ hi
  have hz : (((x - next) / incr).toNat : Int) = (x - next) / incr := Int.toNat_of_nonneg h0
  generalize ((x - next) / incr).toNat = z at hz
  rw [← hz] at h1 h2
  constructor
  · rintro ⟨hs, he⟩
    have a1 : (s : Int) * incr ≤ (z : Int) * incr :=
      mul_le_mul_of_nonneg_right (by exact_mod_cast hs) hi.le
    have a2 : ((z : Int) + 1) * incr ≤ (e : Int) * incr :=
      mul_le_mul_of_nonneg_right (by exact_mod_cast he) hi.le
    constructor <;> linarith
  · rintro ⟨hs, he⟩
    constructor
    · by_contra hcon
      have : (z : Int) + 1 ≤ (s : Int) := by exact_mod_cast Nat.lt_of_not_le hcon
      have := mul_le_mul_of_nonneg_right this hi.le
      linarith
    · by_contra hcon
      have : (e : Int) ≤ (z : Int) := by exact_mod_cast Nat.le_of_not_lt hcon
      have := mul_le_mul_of_nonneg_right this hi.le
      linarith

/-- Zero-based index of a point of `[next, next + n * incr)`. -/
theorem real_index_lt (next incr x : Int) (n : Nat) (hi : 0 < incr) (hx : next ≤ x)
    (hxn : x < next + (n : Int) * incr) : ((x - next) / incr).toNat < n := by
  have h := (real_block_iff next incr x 0 n hi hx).mpr
    ⟨by simpa using hx, by linarith⟩
  exact h.2

/-- The ranges returned by the static function are exactly the real images of
the blocks of the spec. -/
theorem static_result_exists (nthreads : Nat) (ws : gomp_work_share)
    (hwf : StaticWF nthreads ws) (i k : Nat) (hi : i < nthreads)
    (Q : Int → Int → Prop) :
    (∃ a b : Int,
      resultOf (gomp_iter_static_next (some nthreads) ws) { team_id := i } k
        = (0, some (a, b)) ∧ Q a b) ↔
    (∃ s e : Nat,
      staticBlock nthreads (iterCount ws.next ws.end_ ws.incr) ws.chunk_size.toNat i k
        = some (s, e) ∧ Q ((s : Int) * ws.incr + ws.next) ((e : Int) * ws.incr + ws.next)) := by
  obtain ⟨h1, h2⟩ := static_result_block nthreads ws hwf { team_id := i } rfl hi k
  simp only at h1 h2
  constructor
  · rintro ⟨a, b, hres, hq⟩
    cases hb : staticBlock nthreads (iterCount ws.next ws.end_ ws.incr)
        ws.chunk_size.toNat i k with
    | none =>
      obtain ⟨r, hr, hres2⟩ := h2 hb
      rw [hres2] at hres
      simp at hres
    | some se =>
      obtain ⟨s, e⟩ := se
      rw [h1 s e hb] at hres
      simp only [Prod.mk.injEq, Option.some.injEq, true_and] at hres
      obtain ⟨rfl, rfl⟩ := hres
      exact ⟨s, e, rfl, hq⟩
  · rintro ⟨s, e, hb, hq⟩
    exact ⟨_, _, h1 s e hb, hq⟩

/-- Coverage of the real interval by the returned ranges, for a positive
stride. -/
theorem static_cover_pos (nthreads : Nat) (ws : gomp_work_share)
    (hwf : StaticWF nthreads ws) (hpos : 0 < ws.incr) (x : Int) (hx : ws.next ≤ x)
    (hxn : x < ws.next + (iterCount ws.next ws.end_ ws.incr : Int) * ws.incr) :
    ∃! p : Nat × Nat, p.1 < nthreads ∧ ∃ a b : Int,
      resultOf (gomp_iter_static_next (some nthreads) ws) { team_id := p.1 } p.2
        = (0, some (a, b)) ∧ a ≤ x ∧ x < b := by
  have hz := real_index_lt ws.next ws.incr x _ hpos hx hxn
  have hpart := staticBlock_partition nthreads (iterCount ws.next ws.end_ ws.incr)
    ws.chunk_size.toNat _ (by have := hwf.1; omega) hz
  refine (existsUnique_congr (fun p => and_congr_right (fun hp => ?_))).mpr hpart
  rw [static_result_exists nthreads ws hwf p.1 p.2 hp (fun a b => a ≤ x ∧ x < b)]
  constructor
  · rintro ⟨s, e, hb, hq⟩
    exact ⟨s, e, hb, (real_block_iff ws.next ws.incr x s e hpos hx).mpr hq⟩
  · rintro ⟨s, e, hb, hq⟩
    exact ⟨s, e, hb, (real_block_iff ws.next ws.incr x s e hpos hx).mp hq⟩

/-- Coverage of the real interval by the returned ranges, for a negative
stride. -/
theorem static_cover_neg (nthreads : Nat) (ws : gomp_work_share)
    (hwf : StaticWF nthreads ws) (hneg : ws.incr < 0) (x : Int) (hx : x ≤ ws.next)
    (hxn : ws.next + (iterCount ws.next ws.end_ ws.incr : Int) * ws.incr < x) :
    ∃! p : Nat × Nat, p.1 < nthreads ∧ ∃ a b : Int,
      resultOf (gomp_iter_static_next (some nthreads) ws) { team_id := p.1 } p.2
        = (0, some (a, b)) ∧ b < x ∧ x ≤ a := by
  have hi : 0 < -ws.incr := by omega
  have hx1 : -ws.next ≤ -x := by omega
  have hz := real_index_lt (-ws.next) (-ws.incr) (-x) (iterCount ws.next ws.end_ ws.incr)
    hi hx1 (by linarith)
  have hpart := staticBlock_partition nthreads (iterCount ws.next ws.end_ ws.incr)
    ws.chunk_size.toNat _ (by have := hwf.1; omega) hz
  refine (existsUnique_congr (fun p => and_congr_right (fun hp => ?_))).mpr hpart
  rw [static_result_exists nthreads ws hwf p.1 p.2 hp (fun a b => b < x ∧ x ≤ a)]
  constructor
  · rintro ⟨s, e, hb, hq1, hq2⟩
    exact ⟨s, e, hb, (real_block_iff (-ws.next) (-ws.incr) (-x) s e hi hx1).mpr
      ⟨by linarith, by linarith⟩⟩
  · rintro ⟨s, e, hb, hq⟩
    obtain ⟨h1, h2⟩ := (real_block_iff (-ws.next) (-ws.incr) (-x) s e hi hx1).mp hq
    exact ⟨s, e, hb, by linarith, by linarith⟩

/-- Every range returned by the static function is non-empty and lies between
`next` and `next + n * incr`. -/
theorem static_range_within (nthreads : Nat) (ws : gomp_work_share)
    (hwf : StaticWF nthreads ws) (i k : Nat) (a b : Int) (hi : i < nthreads)
    (hres : resultOf (gomp_iter_static_next (some nthreads) ws) { team_id := i } k
      = (0, some (a, b))) :
    (0 < ws.incr → ws.next ≤ a ∧ a < b ∧
      b ≤ ws.next + (iterCount ws.next ws.end_ ws.incr : Int) * ws.incr) ∧
    (ws.incr < 0 → a ≤ ws.next ∧ b < a ∧
      ws.next + (iterCount ws.next ws.end_ ws.incr : Int) * ws.incr ≤ b) := by
  obtain ⟨s, e, hb, ha, hbe⟩ :=
    (static_result_exists nthreads ws hwf i k hi (fun a1 b1 => a1 = a ∧ b1 = b)).mp
      ⟨a, b, hres, rfl, rfl⟩
  obtain ⟨hse, hen⟩ := staticBlock_bounds nthreads _ _ i k s e hi hb
  have c1 : (s : Int) < (e : Int) := by exact_mod_cast hse
  have c2 : (e : Int) ≤ (iterCount ws.next ws.end_ ws.incr : Int) := by exact_mod_cast hen
  have c0 : (0 : Int) ≤ (s : Int) := Int.ofNat_nonneg s
  subst ha hbe
  constructor
  · intro hpos
    have d0 := mul_nonneg c0 hpos.le
    have d1 := mul_lt_mul_of_pos_right c1 hpos
    have d2 := mul_le_mul_of_nonneg_right c2 hpos.le
    refine ⟨by linarith, by linarith, by linarith⟩
  · intro hneg
    have hpos : 0 < -ws.incr := by omega
    have d0 := mul_nonneg c0 hpos.le
    have d1 := mul_lt_mul_of_pos_right c1 hpos
    have d2 := mul_le_mul_of_nonneg_right c2 hpos.le
    refine ⟨by linarith, by linarith, by linarith⟩

/-- C7 (as stated, refuted).  On `next = 0`, `end = 10`, `incr = 3` with two
threads and `chunk_size = 0` the iterations are `0, 3, 6, 9`; rank `0` receives
`[0, 6)` and rank `1`, which has the last iteration `9`, receives `[6, 12)`:
its `pend` is `12`, not the work share's `end = 10`, and the ranges together
are `[0, 12)`.  The same happens with `chunk_size = 2`. -/
theorem static_last_range_overshoots :
    (gomp_iter_static_next (some 2)
        { chunk_size := 0, end_ := 10, incr := 3, next := 0 } { team_id := 0 }).2
      = (0, some (0, 6)) ∧
    (gomp_iter_static_next (some 2)
        { chunk_size := 0, end_ := 10, incr := 3, next := 0 } { team_id := 1 }).2
      = (0, some (6, 12)) ∧
    (gomp_iter_static_next (some 2)
        { chunk_size := 2, end_ := 10, incr := 3, next := 0 } { team_id := 1 }).2
      = (0, some (6, 12)) ∧
    (12 : Int) ≠ (10 : Int) := by
  refine ⟨by decide, by decide, by decide, by decide⟩

/-- C7 (amended).  Static partition in real coordinates: on a well-formed work
share (which includes that `next` and the end `next + n * incr` of the last
range are representable as `long`) in a team of at least two threads, with `n`
the iteration count, every
point of `[next, next + n * incr)` lies in the range `[pstart, pend)` of exactly
one rank and call of `gomp_iter_static_next`, every returned range is non-empty
and lies within that interval, and `next + n * incr` is the first point of the
stride at or beyond `end`, equal to `end` exactly when `incr` divides
`end - next`; the same holds mirrored for a negative stride. -/
theorem static_real_partition (nthreads : Nat) (ws : gomp_work_share)
    (hwf : StaticWF nthreads ws) :
    (0 < ws.incr →
      (∀ x : Int, ws.next ≤ x →
        x < ws.next + (iterCount ws.next ws.end_ ws.incr : Int) * ws.incr →
        ∃! p : Nat × Nat, p.1 < nthreads ∧ ∃ a b : Int,
          resultOf (gomp_iter_static_next (some nthreads) ws) { team_id := p.1 } p.2
            = (0, some (a, b)) ∧ a ≤ x ∧ x < b) ∧
      (∀ (i k : Nat) (a b : Int), i < nthreads →
        resultOf (gomp_iter_static_next (some nthreads) ws) { team_id := i } k
          = (0, some (a, b)) →
        ws.next ≤ a ∧ a < b ∧
          b ≤ ws.next + (iterCount ws.next ws.end_ ws.incr : Int) * ws.incr) ∧
      ws.end_ ≤ ws.next + (iterCount ws.next ws.end_ ws.incr : Int) * ws.incr ∧
      ws.next + (iterCount ws.next ws.end_ ws.incr : Int) * ws.incr < ws.end_ + ws.incr ∧
      (ws.next + (iterCount ws.next ws.end_ ws.incr : Int) * ws.incr = ws.end_ ↔
        ws.incr ∣ ws.end_ - ws.next)) ∧
    (ws.incr < 0 →
      (∀ x : Int, x ≤ ws.next →
        ws.next + (iterCount ws.next ws.end_ ws.incr : Int) * ws.incr < x →
        ∃! p : Nat × Nat, p.1 < nthreads ∧ ∃ a b : Int,
          resultOf (gomp_iter_static_next (some nthreads) ws) { team_id := p.1 } p.2
            = (0, some (a, b)) ∧ b < x ∧ x ≤ a) ∧
      (∀ (i k : Nat) (a b : Int), i < nthreads →
        resultOf (gomp_iter_static_next (some nthreads) ws) { team_id := i } k
          = (0, some (a, b)) →
        a ≤ ws.next ∧ b < a ∧
          ws.next + (iterCount ws.next ws.end_ ws.incr : Int) * ws.incr ≤ b) ∧
      ws.next + (iterCount ws.next ws.end_ ws.incr : Int) * ws.incr ≤ ws.end_ ∧
      ws.end_ + ws.incr < ws.next + (iterCount ws.next ws.end_ ws.incr : Int) * ws.incr ∧
      (ws.next + (iterCount ws.next ws.end_ ws.incr : Int) * ws.incr = ws.end_ ↔
        ws.incr ∣ ws.end_ - ws.next)) := by
  obtain ⟨-, hb1, hb2⟩ := iterCount_bounds ws.next ws.end_ ws.incr hwf.2.1 hwf.2.2.1
  have hdvd : ∀ m : Int, ws.incr ∣ ws.end_ - ws.next →
      |ws.next + m * ws.incr - ws.end_| < |ws.incr| →
      ws.next + m * ws.incr = ws.end_ := by
    intro m hd hlt
    have h1 : ws.incr ∣ ws.next + m * ws.incr - ws.end_ := by
      have e : ws.next + m * ws.incr - ws.end_ = m * ws.incr - (ws.end_ - ws.next) := by ring
      rw [e]
      exact dvd_sub (Dvd.intro_left m rfl) hd
    have h2 : |ws.incr| ∣ ws.next + m * ws.incr - ws.end_ := (abs_dvd _ _).mpr h1
    have := Int.eq_zero_of_abs_lt_dvd h2 hlt
    linarith
  have hconv : ∀ m : Int, ws.next + m * ws.incr = ws.end_ → ws.incr ∣ ws.end_ - ws.next := by
    intro m h
    exact ⟨m, by rw [← h]; ring⟩
  constructor
  · intro hpos
    obtain ⟨h1, h2⟩ := hb1 hpos
    refine ⟨fun x hx hxn => static_cover_pos nthreads ws hwf hpos x hx hxn,
      fun i k a b hi hres => (static_range_within nthreads ws hwf i k a b hi hres).1 hpos,
      h1, h2, hconv _, fun hd => hdvd _ hd ?_⟩
    rw [abs_of_nonneg (by linarith), abs_of_pos hpos]
    linarith
  · intro hneg
    obtain ⟨h1, h2⟩ := hb2 hneg
    refine ⟨fun x hx hxn => static_cover_neg nthreads ws hwf hneg x hx hxn,
      fun i k a b hi hres => (static_range_within nthreads ws hwf i k a b hi hres).2 hneg,
      h2, h1, hconv _, fun hd => hdvd _ hd ?_⟩
    rw [abs_of_nonpos (by linarith), abs_of_neg hneg]
    linarith

/-- Witness of C7 (amended): two threads on `[0, 10)` with stride `3`: the point
`9` lies in the range of exactly one rank and call, and the ranges end at
`0 + 4 * 3 = 12`. -/
theorem static_real_partition_witness :
    (∃! p : Nat × Nat, p.1 < 2 ∧ ∃ a b : Int,
      resultOf (gomp_iter_static_next (some 2)
          { chunk_size := 0, end_ := 10, incr := 3, next := 0 }) { team_id := p.1 } p.2
        = (0, some (a, b)) ∧ a ≤ 9 ∧ 9 < b) ∧
    (10 : Int) ≤ 0 + (iterCount 0 10 3 : Int) * 3 :=
  have h := (static_real_partition 2
    { chunk_size := 0, end_ := 10, incr := 3, next := 0 } (by decide)).1 (by decide)
  ⟨h.1 9 (by decide) (by decide), h.2.2.1⟩


/-- C6 (failing run).  Two threads, `[0, 1000)` with stride `1`,
`chunk_size = 333`, the exact hint `aid_ni = 1000`, sampled times `1` (rank `0`)
and `2` (rank `1`), hence `sf = 2` and `k = 333`.  Each rank calls
`gomp_iter_aid_static_next` until its first `false`: rank `0` receives
`[0, 333)` and is then refused in its calibration call (quota `k = 333` already
used), rank `1` receives `[333, 666)` and `[666, 999)` and is then refused on
entering `AID_RUNNING` (quota `k * sf = 666` already used).  Both have stopped,
the cursor stands at `999 < end`, and iteration `999` was granted to nobody. -/
theorem aid_run_loses_iterations :
    aidRun 2 [⟨0, 10⟩, ⟨1, 10⟩, ⟨1, 12⟩, ⟨0, 11⟩, ⟨1, 13⟩]
        { chunk_size := 333, end_ := 1000, incr := 1, next := 0,
          aid_states := [AidState.AID_INIT, AidState.AID_INIT],
          aid_allocated_iter := [0, 0], aid_consumed_time := [0, 0], aid_ni := 1000 }
      = ({ chunk_size := 333, end_ := 1000, incr := 1, next := 999,
           aid_states := [AidState.AID_RUNNING, AidState.AID_RUNNING],
           aid_allocated_iter := [333, 666], aid_consumed_time := [1, 2],
           aid_thread_sampling_completed := 2, aid_ni := 1000, aid_sf := 2, aid_k := 333 },
         [(0, AidOutcome.ret (some (0, 333))),
          (1, AidOutcome.ret (some (333, 666))),
          (1, AidOutcome.ret (some (666, 999))),
          (0, AidOutcome.ret none),
          (1, AidOutcome.ret none)]) := by
  decide


/-- The macro `STEAL_NEXT_BY` touches only the cursor and the caller's cell of
`aid_allocated_iter`. -/
theorem STEAL_NEXT_BY_frame (ws : gomp_work_share) (t : Nat) (c : Int) :
    ∃ (n : Int) (a : List Int),
      (STEAL_NEXT_BY ws t c).1 = { ws with next := n, aid_allocated_iter := a } ∧
      a.length = ws.aid_allocated_iter.length := by
  unfold STEAL_NEXT_BY add_allocated
  simp only
  split_ifs <;> first
    | exact ⟨_, _, rfl, rfl⟩
    | exact ⟨_, _, rfl, by simp⟩

/-- The macro `AID_STATIC_NEXT_WITH` touches only the cursor and the caller's
cell of `aid_allocated_iter`. -/
theorem AID_STATIC_NEXT_WITH_frame (ws : gomp_work_share) (t k sf : Nat) (b : Bool) :
    ∃ (n : Int) (a : List Int),
      (AID_STATIC_NEXT_WITH ws t k sf b).1 = { ws with next := n, aid_allocated_iter := a } ∧
      a.length = ws.aid_allocated_iter.length := by
  unfold AID_STATIC_NEXT_WITH add_allocated
  simp only
  split_ifs <;> first
    | exact ⟨_, _, rfl, rfl⟩
    | exact ⟨_, _, rfl, by simp⟩
theorem getD_set_ne {α : Type} (l : List α) (i j : Nat) (v d : α) (h : j ≠ i) :
    (l.set i v).getD j d = l.getD j d := by
  simp [List.getD_eq_getElem?_getD, List.getElem?_set, Ne.symm h]

theorem getD_set_eq {α : Type} (l : List α) (i : Nat) (v d : α) (h : i < l.length) :
    (l.set i v).getD i d = v := by
  simp [List.getD_eq_getElem?_getD, List.getElem?_set, h]
theorem aid_call_mode_false (nthreads t : Nat) (now : Int) (ws : gomp_work_share)
    (hm : ws.mode = false) :
    gomp_iter_aid_static_next nthreads t now ws = (ws, AidOutcome.exit_) := by
  simp only [gomp_iter_aid_static_next, hm, Bool.false_eq_true, ↓reduceIte]

theorem aid_call_other (nthreads t : Nat) (now : Int) (ws : gomp_work_share)
    (hm : ws.mode = true) (tag : Nat) (hs : aidStateOf ws t = AidState.other tag) :
    gomp_iter_aid_static_next nthreads t now ws = (ws, AidOutcome.fatal) := by
  unfold aidStateOf at hs
  simp only [gomp_iter_aid_static_next, hm, hs, ↓reduceIte]

theorem aid_call_init (nthreads t : Nat) (now : Int) (ws : gomp_work_share)
    (hm : ws.mode = true) (hs : aidStateOf ws t = AidState.AID_INIT) :
    gomp_iter_aid_static_next nthreads t now ws =
      ((STEAL_NEXT_BY
          { ws with aid_states := ws.aid_states.set t AidState.AID_SAMPLING,
                    aid_consumed_time := ws.aid_consumed_time.set t now }
          t ws.chunk_size).1,
       AidOutcome.ret (STEAL_NEXT_BY
          { ws with aid_states := ws.aid_states.set t AidState.AID_SAMPLING,
                    aid_consumed_time := ws.aid_consumed_time.set t now }
          t ws.chunk_size).2) := by
  unfold aidStateOf at hs
  unfold gomp_iter_aid_static_next STEAL_NEXT_BY add_allocated
  simp only [hm, hs, ↓reduceIte]
  split_ifs <;> rfl

theorem aid_call_running (nthreads t : Nat) (now : Int) (ws : gomp_work_share)
    (hm : ws.mode = true) (hs : aidStateOf ws t = AidState.AID_RUNNING) :
    gomp_iter_aid_static_next nthreads t now ws =
      ((STEAL_NEXT_BY ws t ws.chunk_size).1,
       AidOutcome.ret (STEAL_NEXT_BY ws t ws.chunk_size).2) := by
  unfold aidStateOf at hs
  simp only [gomp_iter_aid_static_next, hm, hs, ↓reduceIte]

theorem aid_call_waiting (nthreads t : Nat) (now : Int) (ws : gomp_work_share)
    (hm : ws.mode = true) (hs : aidStateOf ws t = AidState.AID_WAITING) :
    gomp_iter_aid_static_next nthreads t now ws =
      if 0 < ws.aid_sf ∧ 0 < ws.aid_k then
        ((AID_STATIC_NEXT_WITH
            { ws with aid_states := ws.aid_states.set t AidState.AID_RUNNING }
            t ws.aid_k ws.aid_sf (decide (t ≥ nthreads / 2))).1,
         AidOutcome.ret (AID_STATIC_NEXT_WITH
            { ws with aid_states := ws.aid_states.set t AidState.AID_RUNNING }
            t ws.aid_k ws.aid_sf (decide (t ≥ nthreads / 2))).2)
      else
        ((STEAL_NEXT_BY ws t ws.chunk_size).1,
         AidOutcome.ret (STEAL_NEXT_BY ws t ws.chunk_size).2) := by
  unfold aidStateOf at hs
  simp only [gomp_iter_aid_static_next, hm, hs, ↓reduceIte, gt_iff_lt]

theorem aid_call_sampling (nthreads t : Nat) (now : Int) (ws : gomp_work_share)
    (hm : ws.mode = true) (hs : aidStateOf ws t = AidState.AID_SAMPLING) :
    gomp_iter_aid_static_next nthreads t now ws =
      if (aid_sampled t now ws).aid_thread_sampling_completed ≥ nthreads then
        if smallcore_time nthreads t now ws = 0 then
          (aid_calibrating t now ws, AidOutcome.div_by_zero)
        else if calib_div (sf_of nthreads t now ws) nthreads = 0 then
          (aid_calibrating t now ws, AidOutcome.div_by_zero)
        else
          ((AID_STATIC_NEXT_WITH (aid_published nthreads t now ws) t
              (k_of nthreads t now ws) (sf_of nthreads t now ws)
              (decide (t ≥ nthreads / 2))).1,
           AidOutcome.ret (AID_STATIC_NEXT_WITH (aid_published nthreads t now ws) t
              (k_of nthreads t now ws) (sf_of nthreads t now ws)
              (decide (t ≥ nthreads / 2))).2)
      else
        ((STEAL_NEXT_BY
            { aid_sampled t now ws with
              aid_states := ws.aid_states.set t AidState.AID_WAITING }
            t ws.chunk_size).1,
         AidOutcome.ret (STEAL_NEXT_BY
            { aid_sampled t now ws with
              aid_states := ws.aid_states.set t AidState.AID_WAITING }
            t ws.chunk_size).2) := by
  unfold aidStateOf at hs
  cases ws
  simp only at hm hs
  subst hm
  unfold gomp_iter_aid_static_next
  simp only [hs, ↓reduceIte]
  rfl


/-- How a call of `gomp_iter_aid_static_next` on a work share with `mode` true
and one of the four named tags ends. -/
theorem aid_call_named_outcome (nthreads t : Nat) (now : Int) (ws : gomp_work_share)
    (hm : ws.mode = true)
    (hs : aidStateOf ws t = AidState.AID_INIT ∨ aidStateOf ws t = AidState.AID_SAMPLING ∨
      aidStateOf ws t = AidState.AID_WAITING ∨ aidStateOf ws t = AidState.AID_RUNNING) :
    ((gomp_iter_aid_static_next nthreads t now ws).2 = AidOutcome.div_by_zero ∧
      aidStateOf ws t = AidState.AID_SAMPLING ∧
      (aid_sampled t now ws).aid_thread_sampling_completed ≥ nthreads ∧
      (smallcore_time nthreads t now ws = 0 ∨
        calib_div (sf_of nthreads t now ws) nthreads = 0)) ∨
    ((∃ r : Option Range, (gomp_iter_aid_static_next nthreads t now ws).2 = AidOutcome.ret r) ∧
      ¬ (aidStateOf ws t = AidState.AID_SAMPLING ∧
        (aid_sampled t now ws).aid_thread_sampling_completed ≥ nthreads ∧
        (smallcore_time nthreads t now ws = 0 ∨
          calib_div (sf_of nthreads t now ws) nthreads = 0))) := by
  rcases hs with hs | hs | hs | hs
  · right
    rw [aid_call_init nthreads t now ws hm hs]
    exact ⟨⟨_, rfl⟩, by simp [hs]⟩
  · rw [aid_call_sampling nthreads t now ws hm hs]
    by_cases h1 : (aid_sampled t now ws).aid_thread_sampling_completed ≥ nthreads
    · by_cases h2 : smallcore_time nthreads t now ws = 0
      · left
        simp only [h1, h2, if_true]
        exact ⟨trivial, hs, trivial, Or.inl trivial⟩
      · by_cases h3 : calib_div (sf_of nthreads t now ws) nthreads = 0
        · left
          simp only [h1, h2, h3, if_true, if_false]
          exact ⟨trivial, hs, trivial, Or.inr trivial⟩
        · right
          simp only [h1, h2, h3, if_true, if_false]
          exact ⟨⟨_, rfl⟩, by tauto⟩
    · right
      simp only [h1, if_false]
      exact ⟨⟨_, rfl⟩, by tauto⟩
  · right
    rw [aid_call_waiting nthreads t now ws hm hs]
    refine ⟨?_, by simp [hs]⟩
    split_ifs <;> exact ⟨_, rfl⟩
  · right
    rw [aid_call_running nthreads t now ws hm hs]
    exact ⟨⟨_, rfl⟩, by simp [hs]⟩

theorem aidState_cases (s : AidState) :
    (s = AidState.AID_INIT ∨ s = AidState.AID_SAMPLING ∨
      s = AidState.AID_WAITING ∨ s = AidState.AID_RUNNING) ∨ ∃ tag : Nat, s = AidState.other tag := by
  cases s
  · exact Or.inl (Or.inl rfl)
  · exact Or.inl (Or.inr (Or.inl rfl))
  · exact Or.inl (Or.inr (Or.inr (Or.inl rfl)))
  · exact Or.inl (Or.inr (Or.inr (Or.inr rfl)))
  · exact Or.inr ⟨_, rfl⟩

/-- C17.  Adaptive fatal outcomes: with `mode` false a call of
`gomp_iter_aid_static_next` ends in `exit (0)` and leaves the whole work share
unchanged; with `mode` true and a tag outside the four named states it ends in
`gomp_fatal`; with `mode` true and a named tag it returns a boolean, unless the
calibration of the last sampler divides by zero (which happens exactly when
`smallcore_time` or the divisor of `k` is zero).  Hence a call that does not
divide by zero ends in `gomp_fatal` or `exit` if and only if `mode` is false or
the tag is outside the four states. -/
theorem aid_fatal_outcomes (nthreads t : Nat) (now : Int) (ws : gomp_work_share) :
    (ws.mode = false →
      gomp_iter_aid_static_next nthreads t now ws = (ws, AidOutcome.exit_)) ∧
    (ws.mode = true → (∃ tag : Nat, aidStateOf ws t = AidState.other tag) →
      gomp_iter_aid_static_next nthreads t now ws = (ws, AidOutcome.fatal)) ∧
    (ws.mode = true →
      (aidStateOf ws t = AidState.AID_INIT ∨ aidStateOf ws t = AidState.AID_SAMPLING ∨
        aidStateOf ws t = AidState.AID_WAITING ∨ aidStateOf ws t = AidState.AID_RUNNING) →
      ((gomp_iter_aid_static_next nthreads t now ws).2 = AidOutcome.div_by_zero ↔
        (aidStateOf ws t = AidState.AID_SAMPLING ∧
          (aid_sampled t now ws).aid_thread_sampling_completed ≥ nthreads ∧
          (smallcore_time nthreads t now ws = 0 ∨
            calib_div (sf_of nthreads t now ws) nthreads = 0))) ∧
      ((gomp_iter_aid_static_next nthreads t now ws).2 ≠ AidOutcome.div_by_zero →
        ∃ r : Option Range,
          (gomp_iter_aid_static_next nthreads t now ws).2 = AidOutcome.ret r)) ∧
    ((gomp_iter_aid_static_next nthreads t now ws).2 ≠ AidOutcome.div_by_zero →
      (((gomp_iter_aid_static_next nthreads t now ws).2 = AidOutcome.fatal ∨
          (gomp_iter_aid_static_next nthreads t now ws).2 = AidOutcome.exit_) ↔
        (ws.mode = false ∨ ∃ tag : Nat, aidStateOf ws t = AidState.other tag))) := by
  have hnamed : ws.mode = true →
      (aidStateOf ws t = AidState.AID_INIT ∨ aidStateOf ws t = AidState.AID_SAMPLING ∨
        aidStateOf ws t = AidState.AID_WAITING ∨ aidStateOf ws t = AidState.AID_RUNNING) →
      ((gomp_iter_aid_static_next nthreads t now ws).2 = AidOutcome.div_by_zero ↔
        (aidStateOf ws t = AidState.AID_SAMPLING ∧
          (aid_sampled t now ws).aid_thread_sampling_completed ≥ nthreads ∧
          (smallcore_time nthreads t now ws = 0 ∨
            calib_div (sf_of nthreads t now ws) nthreads = 0))) ∧
      ((gomp_iter_aid_static_next nthreads t now ws).2 ≠ AidOutcome.div_by_zero →
        ∃ r : Option Range,
          (gomp_iter_aid_static_next nthreads t now ws).2 = AidOutcome.ret r) := by
    intro hm hs
    rcases aid_call_named_outcome nthreads t now ws hm hs with ⟨h1, h2⟩ | ⟨⟨r, h1⟩, h2⟩
    · exact ⟨⟨fun _ => h2, fun _ => h1⟩, fun h => absurd h1 h⟩
    · refine ⟨⟨fun h => ?_, fun h => absurd h h2⟩, fun _ => ⟨r, h1⟩⟩
      rw [h1] at h
      cases h
  refine ⟨aid_call_mode_false nthreads t now ws, ?_, hnamed, ?_⟩
  · rintro hm ⟨tag, hs⟩
    exact aid_call_other nthreads t now ws hm tag hs
  · intro hnd
    constructor
    · intro hterm
      by_contra hcon
      push_neg at hcon
      obtain ⟨hm, hs⟩ := hcon
      have hm1 : ws.mode = true := by simpa using hm
      rcases aidState_cases (aidStateOf ws t) with h4 | ⟨tag, htag⟩
      · obtain ⟨r, hr⟩ := (hnamed hm1 h4).2 hnd
        rw [hr] at hterm
        rcases hterm with h | h <;> cases h
      · exact hs tag htag
    · rintro (hm | ⟨tag, hs⟩)
      · right
        rw [aid_call_mode_false nthreads t now ws hm]
      · cases hm : ws.mode with
        | false => right; rw [aid_call_mode_false nthreads t now ws hm]
        | true => left; rw [aid_call_other nthreads t now ws hm tag hs]

/-- Witness of C17: with `mode` false the call ends in `exit (0)` and changes
nothing. -/
theorem aid_fatal_outcomes_witness :
    gomp_iter_aid_static_next 2 0 7
        { mode := false, chunk_size := 1, end_ := 10, incr := 1, next := 0,
          aid_states := [AidState.AID_INIT, AidState.AID_INIT] }
      = ({ mode := false, chunk_size := 1, end_ := 10, incr := 1, next := 0,
           aid_states := [AidState.AID_INIT, AidState.AID_INIT] }, AidOutcome.exit_) :=
  (aid_fatal_outcomes 2 0 7
    { mode := false, chunk_size := 1, end_ := 10, incr := 1, next := 0,
      aid_states := [AidState.AID_INIT, AidState.AID_INIT] }).1 rfl


theorem calib_sf_bounds (big small : Nat) : 1 ≤ calib_sf big small ∧ calib_sf big small < UINT_MOD := by
  unfold calib_sf
  split_ifs with h
  · exact ⟨le_refl 1, by decide⟩
  · exact ⟨Nat.pos_of_ne_zero h, Nat.mod_lt _ (by decide)⟩

theorem toUInt_lt (x : Int) : toUInt x < UINT_MOD := by
  unfold toUInt
  have h0 : 0 ≤ x % ((UINT_MOD : Nat) : Int) := Int.emod_nonneg _ (by decide)
  have h1 : x % ((UINT_MOD : Nat) : Int) < ((UINT_MOD : Nat) : Int) :=
    Int.emod_lt_of_pos _ (by decide)
  omega

/-- What the last sampler leaves in the work share when neither division of the
calibration has a zero divisor. -/
theorem aid_call_calibrates (nthreads t : Nat) (now : Int) (ws : gomp_work_share)
    (hm : ws.mode = true) (hs : aidStateOf ws t = AidState.AID_SAMPLING)
    (hlast : (aid_sampled t now ws).aid_thread_sampling_completed ≥ nthreads)
    (hsmall : smallcore_time nthreads t now ws ≠ 0)
    (hdiv : calib_div (sf_of nthreads t now ws) nthreads ≠ 0) :
    gomp_iter_aid_static_next nthreads t now ws =
      ((AID_STATIC_NEXT_WITH (aid_published nthreads t now ws) t
          (k_of nthreads t now ws) (sf_of nthreads t now ws)
          (decide (t ≥ nthreads / 2))).1,
       AidOutcome.ret (AID_STATIC_NEXT_WITH (aid_published nthreads t now ws) t
          (k_of nthreads t now ws) (sf_of nthreads t now ws)
          (decide (t ≥ nthreads / 2))).2) ∧
    (gomp_iter_aid_static_next nthreads t now ws).1.aid_sf = sf_of nthreads t now ws ∧
    (gomp_iter_aid_static_next nthreads t now ws).1.aid_k = k_of nthreads t now ws ∧
    (gomp_iter_aid_static_next nthreads t now ws).1.aid_states
      = ws.aid_states.set t AidState.AID_RUNNING := by
  have h := aid_call_sampling nthreads t now ws hm hs
  rw [if_pos hlast, if_neg hsmall, if_neg hdiv] at h
  obtain ⟨n, a, hf, -⟩ := AID_STATIC_NEXT_WITH_frame (aid_published nthreads t now ws) t
    (k_of nthreads t now ws) (sf_of nthreads t now ws) (decide (t ≥ nthreads / 2))
  refine ⟨h, ?_, ?_, ?_⟩ <;> rw [h] <;> simp only [hf] <;> rfl

/-- C16.  Adaptive sf floor: whenever the slower-half sum is nonzero, the value
that the last sampler computes for `aid_sf` is at least `1` and below `2^32`
(it is taken after the 64-bit quotient was narrowed to `unsigned`), for every
team size and all sampled times; when the divisor of `k` is nonzero too, the
call returns and the stored `aid_sf` is that value, so `aid_sf >= 1`, and the
stored `aid_k` is an `unsigned` value, so `aid_k >= 0`. -/
theorem aid_sf_floor (nthreads t : Nat) (now : Int) (ws : gomp_work_share)
    (hm : ws.mode = true) (hs : aidStateOf ws t = AidState.AID_SAMPLING)
    (hlast : (aid_sampled t now ws).aid_thread_sampling_completed ≥ nthreads)
    (hsmall : smallcore_time nthreads t now ws ≠ 0) :
    1 ≤ sf_of nthreads t now ws ∧ sf_of nthreads t now ws < UINT_MOD ∧
    (calib_div (sf_of nthreads t now ws) nthreads ≠ 0 →
      (∃ r : Option Range,
        (gomp_iter_aid_static_next nthreads t now ws).2 = AidOutcome.ret r) ∧
      (gomp_iter_aid_static_next nthreads t now ws).1.aid_sf = sf_of nthreads t now ws ∧
      1 ≤ (gomp_iter_aid_static_next nthreads t now ws).1.aid_sf ∧
      (0 : Int) ≤ ((gomp_iter_aid_static_next nthreads t now ws).1.aid_k : Int) ∧
      (gomp_iter_aid_static_next nthreads t now ws).1.aid_k < UINT_MOD) ∧
    (calib_div (sf_of nthreads t now ws) nthreads = 0 →
      (gomp_iter_aid_static_next nthreads t now ws).2 = AidOutcome.div_by_zero) := by
  have hb := calib_sf_bounds (bigcore_time nthreads t now ws) (smallcore_time nthreads t now ws)
  refine ⟨hb.1, hb.2, ?_, ?_⟩
  · intro hdiv
    obtain ⟨h1, h2, h3, -⟩ := aid_call_calibrates nthreads t now ws hm hs hlast hsmall hdiv
    refine ⟨⟨_, by rw [h1]⟩, h2, by rw [h2]; exact hb.1, Int.ofNat_nonneg _, ?_⟩
    rw [h3]
    exact toUInt_lt _
  · intro hdiv
    rw [aid_call_sampling nthreads t now ws hm hs, if_pos hlast, if_neg hsmall, if_pos hdiv]

/-- Witness of C16: rank `0` of two threads is the last sampler; the sampled
times are `1` and `2`, and the stored `aid_sf` is `2`. -/
theorem aid_sf_floor_witness :
    (gomp_iter_aid_static_next 2 0 11
        { chunk_size := 333, end_ := 1000, incr := 1, next := 999,
          aid_states := [AidState.AID_SAMPLING, AidState.AID_WAITING],
          aid_allocated_iter := [333, 666], aid_consumed_time := [10, 2],
          aid_thread_sampling_completed := 1, aid_ni := 1000 }).1.aid_sf = 2 ∧
    1 ≤ (gomp_iter_aid_static_next 2 0 11
        { chunk_size := 333, end_ := 1000, incr := 1, next := 999,
          aid_states := [AidState.AID_SAMPLING, AidState.AID_WAITING],
          aid_allocated_iter := [333, 666], aid_consumed_time := [10, 2],
          aid_thread_sampling_completed := 1, aid_ni := 1000 }).1.aid_sf :=
  have h := (aid_sf_floor 2 0 11
    { chunk_size := 333, end_ := 1000, incr := 1, next := 999,
      aid_states := [AidState.AID_SAMPLING, AidState.AID_WAITING],
      aid_allocated_iter := [333, 666], aid_consumed_time := [10, 2],
      aid_thread_sampling_completed := 1, aid_ni := 1000 }
    rfl (by decide) (by decide) (by decide)).2.2.1 (by decide)
  ⟨by decide, h.2.2.1⟩


theorem STEAL_NEXT_BY_fields (ws : gomp_work_share) (t : Nat) (c : Int) :
    (STEAL_NEXT_BY ws t c).1.mode = ws.mode ∧
    (STEAL_NEXT_BY ws t c).1.aid_states = ws.aid_states ∧
    (STEAL_NEXT_BY ws t c).1.aid_thread_sampling_completed
      = ws.aid_thread_sampling_completed ∧
    (STEAL_NEXT_BY ws t c).1.aid_sf = ws.aid_sf ∧
    (STEAL_NEXT_BY ws t c).1.aid_k = ws.aid_k ∧
    (STEAL_NEXT_BY ws t c).1.end_ = ws.end_ ∧
    (STEAL_NEXT_BY ws t c).1.incr = ws.incr := by
  obtain ⟨n, a, h, -⟩ := STEAL_NEXT_BY_frame ws t c
  rw [h]
  exact ⟨rfl, rfl, rfl, rfl, rfl, rfl, rfl⟩

theorem AID_STATIC_NEXT_WITH_fields (ws : gomp_work_share) (t k sf : Nat) (b : Bool) :
    (AID_STATIC_NEXT_WITH ws t k sf b).1.mode = ws.mode ∧
    (AID_STATIC_NEXT_WITH ws t k sf b).1.aid_states = ws.aid_states ∧
    (AID_STATIC_NEXT_WITH ws t k sf b).1.aid_thread_sampling_completed
      = ws.aid_thread_sampling_completed ∧
    (AID_STATIC_NEXT_WITH ws t k sf b).1.aid_sf = ws.aid_sf ∧
    (AID_STATIC_NEXT_WITH ws t k sf b).1.aid_k = ws.aid_k ∧
    (AID_STATIC_NEXT_WITH ws t k sf b).1.end_ = ws.end_ ∧
    (AID_STATIC_NEXT_WITH ws t k sf b).1.incr = ws.incr := by
  obtain ⟨n, a, h, -⟩ := AID_STATIC_NEXT_WITH_frame ws t k sf b
  rw [h]
  exact ⟨rfl, rfl, rfl, rfl, rfl, rfl, rfl⟩

theorem aidStateOf_lt_length (ws : gomp_work_share) (r : Nat)
    (h : aidStateOf ws r ≠ AidState.other 0) : r < ws.aid_states.length := by
  by_contra hcon
  apply h
  unfold aidStateOf
  simp [List.getD_eq_getElem?_getD, List.getElem?_eq_none (Nat.le_of_not_lt hcon)]

/-- A work share whose tags are those of `ws` with the tag of `r` replaced. -/
theorem aid_tags_set (ws w : gomp_work_share) (r : Nat) (s1 : AidState)
    (hr : r < ws.aid_states.length) (e : w.aid_states = ws.aid_states.set r s1) :
    w.aid_states.length = ws.aid_states.length ∧
    (∀ j : Nat, j ≠ r → aidStateOf w j = aidStateOf ws j) ∧
    aidStateOf w r = s1 := by
  unfold aidStateOf
  rw [e]
  exact ⟨List.length_set _ _ _, fun j hj => getD_set_ne _ _ _ _ _ hj, getD_set_eq _ _ _ _ hr⟩

/-- A work share whose tags are those of `ws`. -/
theorem aid_tags_same (ws w : gomp_work_share) (r : Nat)
    (e : w.aid_states = ws.aid_states) :
    w.aid_states.length = ws.aid_states.length ∧
    (∀ j : Nat, j ≠ r → aidStateOf w j = aidStateOf ws j) ∧
    aidStateOf w r = aidStateOf ws r := by
  unfold aidStateOf
  rw [e]
  exact ⟨rfl, fun j _ => rfl, rfl⟩

/-- One call of `gomp_iter_aid_static_next` by rank `r` with `mode` true follows
the state machine: only the tag of `r` changes, it changes as `aidNextState`
says, and the completion counter changes as `aidNextCount` says. -/
theorem aid_state_step (nthreads r : Nat) (now : Int) (ws : gomp_work_share)
    (hm : ws.mode = true) :
    (gomp_iter_aid_static_next nthreads r now ws).1.mode = true ∧
    (gomp_iter_aid_static_next nthreads r now ws).1.aid_thread_sampling_completed
      = aidNextCount ws (aidStateOf ws r) ∧
    (gomp_iter_aid_static_next nthreads r now ws).1.aid_states.length
      = ws.aid_states.length ∧
    (∀ j : Nat, j ≠ r →
      aidStateOf (gomp_iter_aid_static_next nthreads r now ws).1 j = aidStateOf ws j) ∧
    aidStateOf (gomp_iter_aid_static_next nthreads r now ws).1 r
      = aidNextState nthreads ws (aidStateOf ws r) := by
  rcases aidState_cases (aidStateOf ws r) with (hs | hs | hs | hs) | ⟨tag, hs⟩
  · have hr := aidStateOf_lt_length ws r (by rw [hs]; simp)
    rw [aid_call_init nthreads r now ws hm hs, hs]
    obtain ⟨f1, f2, f3, -⟩ := STEAL_NEXT_BY_fields
      { ws with aid_states := ws.aid_states.set r AidState.AID_SAMPLING,
                aid_consumed_time := ws.aid_consumed_time.set r now } r ws.chunk_size
    exact ⟨f1.trans hm, f3, aid_tags_set ws _ r _ hr f2⟩
  · have hr := aidStateOf_lt_length ws r (by rw [hs]; simp)
    rw [aid_call_sampling nthreads r now ws hm hs, hs]
    by_cases h1 : (aid_sampled r now ws).aid_thread_sampling_completed ≥ nthreads
    · have h1b : nthreads ≤ (ws.aid_thread_sampling_completed + 1) % UINT_MOD := h1
      have hn : aidNextState nthreads ws AidState.AID_SAMPLING = AidState.AID_RUNNING := by
        simp only [aidNextState, h1b, if_true]
      rw [if_pos h1, hn]
      split_ifs with h2 h3
      · exact ⟨hm, rfl, aid_tags_set ws _ r _ hr rfl⟩
      · exact ⟨hm, rfl, aid_tags_set ws _ r _ hr rfl⟩
      · obtain ⟨f1, f2, f3, -⟩ := AID_STATIC_NEXT_WITH_fields (aid_published nthreads r now ws) r
          (k_of nthreads r now ws) (sf_of nthreads r now ws) (decide (r ≥ nthreads / 2))
        exact ⟨f1.trans hm, f3, aid_tags_set ws _ r _ hr f2⟩
    · have h1b : ¬ nthreads ≤ (ws.aid_thread_sampling_completed + 1) % UINT_MOD := h1
      have hn : aidNextState nthreads ws AidState.AID_SAMPLING = AidState.AID_WAITING := by
        simp only [aidNextState, h1b, if_false]
      rw [if_neg h1, hn]
      obtain ⟨f1, f2, f3, -⟩ := STEAL_NEXT_BY_fields
        { aid_sampled r now ws with
          aid_states := ws.aid_states.set r AidState.AID_WAITING } r ws.chunk_size
      exact ⟨f1.trans hm, f3, aid_tags_set ws _ r _ hr f2⟩
  · have hr := aidStateOf_lt_length ws r (by rw [hs]; simp)
    rw [aid_call_waiting nthreads r now ws hm hs, hs]
    by_cases hg : 0 < ws.aid_sf ∧ 0 < ws.aid_k
    · have hn : aidNextState nthreads ws AidState.AID_WAITING = AidState.AID_RUNNING := by
        simp only [aidNextState, hg, and_self, if_true]
      rw [if_pos hg, hn]
      obtain ⟨f1, f2, f3, -⟩ := AID_STATIC_NEXT_WITH_fields
        { ws with aid_states := ws.aid_states.set r AidState.AID_RUNNING } r
        ws.aid_k ws.aid_sf (decide (r ≥ nthreads / 2))
      exact ⟨f1.trans hm, f3, aid_tags_set ws _ r _ hr f2⟩
    · have hn : aidNextState nthreads ws AidState.AID_WAITING = AidState.AID_WAITING := by
        simp only [aidNextState, hg, if_false]
      rw [if_neg hg, hn]
      obtain ⟨f1, f2, f3, -⟩ := STEAL_NEXT_BY_fields ws r ws.chunk_size
      have h := aid_tags_same ws _ r f2
      rw [hs] at h
      exact ⟨f1.trans hm, f3, h⟩
  · rw [aid_call_running nthreads r now ws hm hs, hs]
    obtain ⟨f1, f2, f3, -⟩ := STEAL_NEXT_BY_fields ws r ws.chunk_size
    have h := aid_tags_same ws _ r f2
    rw [hs] at h
    exact ⟨f1.trans hm, f3, h⟩
  · rw [aid_call_other nthreads r now ws hm tag hs, hs]
    exact ⟨hm, rfl, rfl, fun j _ => rfl, rfl⟩

theorem aidRun_mode (nthreads : Nat) (cs : List AidCall) (ws : gomp_work_share)
    (hm : ws.mode = true) : (aidRun nthreads cs ws).1.mode = true := by
  induction cs generalizing ws with
  | nil => exact hm
  | cons c cs ih =>
    exact ih _ (aid_state_step nthreads c.thread_id c.now ws hm).1

/-- The tag `AID_RUNNING` is kept through every schedule of calls. -/
theorem aidRun_running (nthreads r : Nat) (cs : List AidCall) (ws : gomp_work_share)
    (hm : ws.mode = true) (hs : aidStateOf ws r = AidState.AID_RUNNING) :
    aidStateOf (aidRun nthreads cs ws).1 r = AidState.AID_RUNNING := by
  induction cs generalizing ws with
  | nil => exact hs
  | cons c cs ih =>
    obtain ⟨h1, -, -, h4, h5⟩ := aid_state_step nthreads c.thread_id c.now ws hm
    apply ih _ h1
    by_cases hc : r = c.thread_id
    · subst hc
      rw [h5, hs]
      rfl
    · rw [h4 r hc, hs]

/-- A thread makes at most one call in the state `AID_SAMPLING`, and none once
it has left `AID_INIT` and `AID_SAMPLING`. -/
theorem samplingCalls_le (nthreads r : Nat) (cs : List AidCall) (ws : gomp_work_share)
    (hm : ws.mode = true) :
    samplingCalls nthreads r cs ws ≤
      if aidStateOf ws r = AidState.AID_INIT ∨ aidStateOf ws r = AidState.AID_SAMPLING
      then 1 else 0 := by
  induction cs generalizing ws with
  | nil => simp [samplingCalls]
  | cons c cs ih =>
    obtain ⟨h1, -, -, h4, h5⟩ := aid_state_step nthreads c.thread_id c.now ws hm
    have hrec := ih _ h1
    rw [samplingCalls]
    by_cases hc : c.thread_id = r
    · subst hc
      rw [h5] at hrec
      rcases aidState_cases (aidStateOf ws c.thread_id) with (hs | hs | hs | hs) | ⟨tag, hs⟩
      · rw [hs] at hrec ⊢
        simp only [aidNextState] at hrec
        simpa using hrec
      · rw [hs] at hrec ⊢
        have h0 : samplingCalls nthreads c.thread_id cs
            (gomp_iter_aid_static_next nthreads c.thread_id c.now ws).1 = 0 := by
          simp only [aidNextState] at hrec
          split_ifs at hrec <;> simp_all
        rw [h0]
        simp
      · rw [hs] at hrec ⊢
        have h0 : samplingCalls nthreads c.thread_id cs
            (gomp_iter_aid_static_next nthreads c.thread_id c.now ws).1 = 0 := by
          simp only [aidNextState] at hrec
          split_ifs at hrec <;> simp_all
        rw [h0]
        simp
      · rw [hs] at hrec ⊢
        simp only [aidNextState] at hrec
        simpa using hrec
      · rw [hs] at hrec ⊢
        simp only [aidNextState] at hrec
        simpa using hrec
    · rw [h4 r (Ne.symm hc)] at hrec
      simpa [hc] using hrec

/-- A thread that starts in `AID_INIT` and calls at least twice, or is in
`AID_SAMPLING` and calls at least once, makes exactly one call in the state
`AID_SAMPLING`. -/
theorem samplingCalls_eq_one (nthreads r : Nat) (cs : List AidCall) (ws : gomp_work_share)
    (hm : ws.mode = true) :
    (aidStateOf ws r = AidState.AID_INIT →
      2 ≤ cs.countP (fun c => decide (c.thread_id = r)) →
      samplingCalls nthreads r cs ws = 1) ∧
    (aidStateOf ws r = AidState.AID_SAMPLING →
      1 ≤ cs.countP (fun c => decide (c.thread_id = r)) →
      samplingCalls nthreads r cs ws = 1) := by
  induction cs generalizing ws with
  | nil => simp
  | cons c cs ih =>
    obtain ⟨h1, -, -, h4, h5⟩ := aid_state_step nthreads c.thread_id c.now ws hm
    obtain ⟨ih1, ih2⟩ := ih _ h1
    have hle := samplingCalls_le nthreads r cs _ h1
    by_cases hc : c.thread_id = r
    · subst hc
      rw [h5] at ih1 ih2 hle
      constructor
      · intro hs hcount
        rw [hs] at ih2
        rw [samplingCalls, hs]
        simp only [List.countP_cons, decide_True, if_true] at hcount
        have := ih2 rfl (by omega)
        simpa using this
      · intro hs hcount
        rw [hs] at hle
        rw [samplingCalls, hs]
        have h0 : samplingCalls nthreads c.thread_id cs
            (gomp_iter_aid_static_next nthreads c.thread_id c.now ws).1 = 0 := by
          simp only [aidNextState] at hle
          split_ifs at hle <;> simp_all
        rw [h0]
        simp
    · rw [h4 r (Ne.symm hc)] at ih1 ih2
      have hcnt : (c :: cs).countP (fun c => decide (c.thread_id = r))
          = cs.countP (fun c => decide (c.thread_id = r)) := by
        simp [List.countP_cons, hc]
      rw [hcnt, samplingCalls]
      simp only [hc, false_and, if_false, Nat.zero_add]
      exact ⟨ih1, ih2⟩

/-- C13 (as stated, refuted).  Two threads on `[0, 100)` with
`chunk_size = 100`.  Rank `0` takes the whole range in its `Init` call; rank `1`
is refused in its `Init` call, which leaves it tagged `Sampling`, and having
received false it makes no further call; rank `0` is refused in its `Sampling`
call.  Every thread has received false, the completion counter is `1`, and rank
`1` has not incremented it. -/
theorem aid_refused_init_never_samples :
    (aidRun 2 [⟨0, 0⟩, ⟨1, 0⟩, ⟨0, 1⟩]
        { chunk_size := 100, end_ := 100, incr := 1, next := 0,
          aid_states := [AidState.AID_INIT, AidState.AID_INIT],
          aid_allocated_iter := [0, 0], aid_consumed_time := [0, 0], aid_ni := 100 }).2
      = [(0, AidOutcome.ret (some (0, 100))), (1, AidOutcome.ret none),
          (0, AidOutcome.ret none)] ∧
    aidStateOf (aidRun 2 [⟨0, 0⟩, ⟨1, 0⟩, ⟨0, 1⟩]
        { chunk_size := 100, end_ := 100, incr := 1, next := 0,
          aid_states := [AidState.AID_INIT, AidState.AID_INIT],
          aid_allocated_iter := [0, 0], aid_consumed_time := [0, 0], aid_ni := 100 }).1 1
      = AidState.AID_SAMPLING ∧
    (aidRun 2 [⟨0, 0⟩, ⟨1, 0⟩, ⟨0, 1⟩]
        { chunk_size := 100, end_ := 100, incr := 1, next := 0,
          aid_states := [AidState.AID_INIT, AidState.AID_INIT],
          aid_allocated_iter := [0, 0], aid_consumed_time := [0, 0],
          aid_ni := 100 }).1.aid_thread_sampling_completed = 1 ∧
    samplingCalls 2 1 [⟨0, 0⟩, ⟨1, 0⟩, ⟨0, 1⟩]
        { chunk_size := 100, end_ := 100, incr := 1, next := 0,
          aid_states := [AidState.AID_INIT, AidState.AID_INIT],
          aid_allocated_iter := [0, 0], aid_consumed_time := [0, 0], aid_ni := 100 } = 0 := by
  refine ⟨by decide, by decide, by decide, by decide⟩

/-- C13 (amended).  Adaptive state machine: in a call of
`gomp_iter_aid_static_next` by
rank `r` on a work share with `mode` true only the tag of `r` changes, along the
edges Init -> Sampling; Sampling -> Running when the incremented completion
counter reaches `nthreads`, otherwise Sampling -> Waiting; Waiting -> Running
or Waiting -> Waiting; Running -> Running.  The completion counter is
incremented in the call of a thread in `Sampling` and in no other call.  Over
every schedule of calls `Running` is kept, and a thread makes at most one call
in `Sampling`, so it increments the counter at most once: exactly once when it
starts in `Init` and calls at least twice, and not at all when it makes no call
after its `Init` call. -/
theorem aid_state_machine (nthreads r : Nat) (now : Int) (ws : gomp_work_share)
    (hm : ws.mode = true) :
    (∀ j : Nat, j ≠ r →
      aidStateOf (gomp_iter_aid_static_next nthreads r now ws).1 j = aidStateOf ws j) ∧
    (aidStateOf ws r = AidState.AID_INIT →
      aidStateOf (gomp_iter_aid_static_next nthreads r now ws).1 r = AidState.AID_SAMPLING) ∧
    (aidStateOf ws r = AidState.AID_SAMPLING →
      (nthreads ≤ (ws.aid_thread_sampling_completed + 1) % UINT_MOD →
        aidStateOf (gomp_iter_aid_static_next nthreads r now ws).1 r = AidState.AID_RUNNING) ∧
      ((ws.aid_thread_sampling_completed + 1) % UINT_MOD < nthreads →
        aidStateOf (gomp_iter_aid_static_next nthreads r now ws).1 r
          = AidState.AID_WAITING)) ∧
    (aidStateOf ws r = AidState.AID_WAITING →
      aidStateOf (gomp_iter_aid_static_next nthreads r now ws).1 r = AidState.AID_RUNNING ∨
      aidStateOf (gomp_iter_aid_static_next nthreads r now ws).1 r = AidState.AID_WAITING) ∧
    (aidStateOf ws r = AidState.AID_RUNNING →
      aidStateOf (gomp_iter_aid_static_next nthreads r now ws).1 r = AidState.AID_RUNNING) ∧
    (gomp_iter_aid_static_next nthreads r now ws).1.aid_thread_sampling_completed
      = (if aidStateOf ws r = AidState.AID_SAMPLING
          then (ws.aid_thread_sampling_completed + 1) % UINT_MOD
          else ws.aid_thread_sampling_completed) ∧
    (∀ cs : List AidCall,
      (aidStateOf ws r = AidState.AID_RUNNING →
        aidStateOf (aidRun nthreads cs ws).1 r = AidState.AID_RUNNING) ∧
      samplingCalls nthreads r cs ws ≤ 1 ∧
      (aidStateOf ws r = AidState.AID_INIT →
        2 ≤ cs.countP (fun c => decide (c.thread_id = r)) →
        samplingCalls nthreads r cs ws = 1)) := by
  obtain ⟨-, h2, -, h4, h5⟩ := aid_state_step nthreads r now ws hm
  refine ⟨h4, ?_, ?_, ?_, ?_, h2, ?_⟩
  · intro hs
    rw [h5, hs]; rfl
  · intro hs
    rw [h5, hs]
    constructor
    · intro h; simp only [aidNextState, h, if_true]
    · intro h
      have : ¬ nthreads ≤ (ws.aid_thread_sampling_completed + 1) % UINT_MOD := by omega
      simp only [aidNextState, this, if_false]
  · intro hs
    rw [h5, hs]
    simp only [aidNextState]
    split_ifs
    · exact Or.inl rfl
    · exact Or.inr rfl
  · intro hs
    rw [h5, hs]; rfl
  · intro cs
    refine ⟨aidRun_running nthreads r cs ws hm, ?_, (samplingCalls_eq_one nthreads r cs ws hm).1⟩
    have h := samplingCalls_le nthreads r cs ws hm
    split_ifs at h <;> omega

/-- Witness of C13: rank `1` of two threads is in `Sampling` with the counter at
`1`, so its call makes it the last sampler and moves it to `Running`. -/
theorem aid_state_machine_witness :
    aidStateOf (gomp_iter_aid_static_next 2 1 12
        { chunk_size := 1, end_ := 100, incr := 1, next := 3,
          aid_states := [AidState.AID_WAITING, AidState.AID_SAMPLING],
          aid_allocated_iter := [2, 1], aid_consumed_time := [1, 10],
          aid_thread_sampling_completed := 1, aid_ni := 100 }).1 1
      = AidState.AID_RUNNING :=
  ((aid_state_machine 2 1 12
    { chunk_size := 1, end_ := 100, incr := 1, next := 3,
      aid_states := [AidState.AID_WAITING, AidState.AID_SAMPLING],
      aid_allocated_iter := [2, 1], aid_consumed_time := [1, 10],
      aid_thread_sampling_completed := 1, aid_ni := 100 } rfl).2.2.1 (by decide)).1
    (by decide)


/-- The number `ceilDiv a b` is the least `q` with `a <= q * b`. -/
theorem ceilDiv_spec (a b : Nat) (hb : 0 < b) :
    a ≤ ceilDiv a b * b ∧ ceilDiv a b * b < a + b := by
  unfold ceilDiv
  have h1 := Nat.div_mul_le_self (a + b - 1) b
  have h2 := Nat.lt_div_mul_add (a := a + b - 1) hb
  constructor <;> omega

/-- The speedup factor of the code when no arithmetic wraps and the quotient
fits an `unsigned`. -/
theorem calib_sf_eq (big small : Nat) (hsmall : 0 < small)
    (hsum : big + small ≤ ULONG_MOD) (hfit : ceilDiv big small < UINT_MOD) :
    calib_sf big small = max 1 (ceilDiv big small) := by
  have hq : (big + small + (ULONG_MOD - 1)) % ULONG_MOD = big + small - 1 := by
    simp only [ULONG_MOD] at *
    omega
  unfold calib_sf
  rw [hq]
  have hc : (big + small - 1) / small = ceilDiv big small := rfl
  rw [hc, Nat.mod_eq_of_lt hfit]
  split_ifs with h
  · rw [h]; rfl
  · exact (max_eq_right (Nat.pos_of_ne_zero h)).symm

/-- C11 (as stated, refuted).  Rank `0` of two threads is the last sampler; the
sampled times are `1` for rank `0` (the slower half) and `2` for rank `1` (the
faster half).  The claim gives `max(1, ceil((2 + 1) / 1)) = 3`; the call stores
`aid_sf = 2`. -/
theorem aid_sf_is_not_spec_formula :
    smallcore_time 2 0 11
        { chunk_size := 333, end_ := 1000, incr := 1, next := 999,
          aid_states := [AidState.AID_SAMPLING, AidState.AID_WAITING],
          aid_allocated_iter := [333, 666], aid_consumed_time := [10, 2],
          aid_thread_sampling_completed := 1, aid_ni := 1000 } = 1 ∧
    bigcore_time 2 0 11
        { chunk_size := 333, end_ := 1000, incr := 1, next := 999,
          aid_states := [AidState.AID_SAMPLING, AidState.AID_WAITING],
          aid_allocated_iter := [333, 666], aid_consumed_time := [10, 2],
          aid_thread_sampling_completed := 1, aid_ni := 1000 } = 2 ∧
    specSf 2 1 = 3 ∧
    (gomp_iter_aid_static_next 2 0 11
        { chunk_size := 333, end_ := 1000, incr := 1, next := 999,
          aid_states := [AidState.AID_SAMPLING, AidState.AID_WAITING],
          aid_allocated_iter := [333, 666], aid_consumed_time := [10, 2],
          aid_thread_sampling_completed := 1, aid_ni := 1000 }).1.aid_sf = 2 := by
  refine ⟨by decide, by decide, by decide, by decide⟩

/-- C11 (amended).  Adaptive speedup factor: when the last sampler calibrates
with `slower_time > 0` (the sum over the ranks below `nthreads / 2`) and
`faster_time` (the sum over the other ranks), the sum of the two does not
exceed `2^64`, the quotient fits an `unsigned` and the divisor of `k` is
nonzero, the value it stores in `aid_sf` is
`max(1, ceil(faster_time / slower_time))`. -/
theorem aid_sf_formula (nthreads t : Nat) (now : Int) (ws : gomp_work_share)
    (hm : ws.mode = true) (hs : aidStateOf ws t = AidState.AID_SAMPLING)
    (hlast : (aid_sampled t now ws).aid_thread_sampling_completed ≥ nthreads)
    (hsmall : 0 < smallcore_time nthreads t now ws)
    (hdiv : calib_div (sf_of nthreads t now ws) nthreads ≠ 0)
    (hsum : bigcore_time nthreads t now ws + smallcore_time nthreads t now ws ≤ ULONG_MOD)
    (hfit : ceilDiv (bigcore_time nthreads t now ws) (smallcore_time nthreads t now ws)
      < UINT_MOD) :
    (gomp_iter_aid_static_next nthreads t now ws).1.aid_sf
      = max 1 (ceilDiv (bigcore_time nthreads t now ws) (smallcore_time nthreads t now ws)) ∧
    bigcore_time nthreads t now ws
      ≤ ceilDiv (bigcore_time nthreads t now ws) (smallcore_time nthreads t now ws)
        * smallcore_time nthreads t now ws ∧
    ceilDiv (bigcore_time nthreads t now ws) (smallcore_time nthreads t now ws)
        * smallcore_time nthreads t now ws
      < bigcore_time nthreads t now ws + smallcore_time nthreads t now ws := by
  obtain ⟨-, h2, -, -⟩ := aid_call_calibrates nthreads t now ws hm hs hlast (by omega) hdiv
  have hspec := ceilDiv_spec (bigcore_time nthreads t now ws)
    (smallcore_time nthreads t now ws) hsmall
  refine ⟨?_, hspec.1, hspec.2⟩
  rw [h2]
  exact calib_sf_eq _ _ hsmall hsum hfit

/-- Witness of C11 (amended): sampled times `1` and `2` give `aid_sf = 2`. -/
theorem aid_sf_formula_witness :
    (gomp_iter_aid_static_next 2 0 11
        { chunk_size := 333, end_ := 1000, incr := 1, next := 999,
          aid_states := [AidState.AID_SAMPLING, AidState.AID_WAITING],
          aid_allocated_iter := [333, 666], aid_consumed_time := [10, 2],
          aid_thread_sampling_completed := 1, aid_ni := 1000 }).1.aid_sf
      = max 1 (ceilDiv 2 1) :=
  (aid_sf_formula 2 0 11
    { chunk_size := 333, end_ := 1000, incr := 1, next := 999,
      aid_states := [AidState.AID_SAMPLING, AidState.AID_WAITING],
      aid_allocated_iter := [333, 666], aid_consumed_time := [10, 2],
      aid_thread_sampling_completed := 1, aid_ni := 1000 }
    rfl (by decide) (by decide) (by decide) (by decide) (by decide) (by decide)).1


/-- The macro `AID_STATIC_NEXT_WITH` for a positive stride and a cursor before
`end` does what the spec's quota claim says, when the product `k * sf` does not
wrap and the new cursor is representable. -/
theorem static_claim_pos (nthreads : Nat) (ws : gomp_work_share) (t k sf : Nat)
    (hi : 0 < ws.incr) (hcur : ws.next < ws.end_) (hprod : k * sf < UINT_MOD)
    (hov : InLong (ws.next + (quotaSpec nthreads t k sf - ws.aid_allocated_iter.getD t 0))) :
    AID_STATIC_NEXT_WITH ws t k sf (decide (t ≥ nthreads / 2))
      = quotaClaimSpec ws t (quotaSpec nthreads t k sf) := by
  have hq : (if decide (t ≥ nthreads / 2) = true then (((k * sf) % UINT_MOD : Nat) : Int)
      else (k : Int)) = quotaSpec nthreads t k sf := by
    unfold quotaSpec
    rw [Nat.mod_eq_of_lt hprod]
    by_cases hb : t ≥ nthreads / 2
    · simp [hb]
    · simp [hb]
  unfold AID_STATIC_NEXT_WITH quotaClaimSpec sync_fetch_and_add add_allocated
  simp only [hq, hi, if_true]
  generalize quotaSpec nthreads t k sf = Q at hov ⊢
  by_cases h1 : Q - ws.aid_allocated_iter.getD t 0 ≤ 0
  · simp only [h1, if_true]
  · have h2 : ¬ (ws.next ≥ ws.end_) := by omega
    simp only [h1, h2, if_false, wrapLong_of_inLong _ hov]
    have e : ws.aid_allocated_iter.getD t 0 + (Q - ws.aid_allocated_iter.getD t 0) = Q := by
      ring
    rw [e]
    congr 2
    · congr 1
      rw [min_def]
      split_ifs <;> omega

theorem calib_div_eq (sf nthreads : Nat) (h : (sf + 1) * nthreads < UINT_MOD) :
    calib_div sf nthreads = (sf + 1) * nthreads / 2 := by
  unfold calib_div
  rcases Nat.eq_zero_or_pos nthreads with h0 | hpos
  · subst h0
    simp
  · have h1 : sf + 1 < UINT_MOD := by
      have := Nat.le_mul_of_pos_right (sf + 1) hpos
      omega
    rw [Nat.mod_eq_of_lt h1, Nat.mod_eq_of_lt h]

theorem calib_k_eq (ni : Int) (d : Nat) (hni : 0 ≤ ni) (hfit : ni / (d : Int) < 4294967296) :
    ((calib_k ni d : Nat) : Int) = ni / (d : Int) := by
  unfold calib_k toUInt
  rw [Int.tdiv_eq_ediv hni (Int.ofNat_nonneg d)]
  have h0 : 0 ≤ ni / (d : Int) := Int.ediv_nonneg hni (Int.ofNat_nonneg d)
  have hm : ni / (d : Int) % ((UINT_MOD : Nat) : Int) = ni / (d : Int) :=
    Int.emod_eq_of_lt h0 (by simpa using hfit)
  rw [hm]
  exact Int.toNat_of_nonneg h0

/-- C12 (as stated, refuted).  Rank `0` of two threads is the last sampler, the
sampled times are `1` and `1` (so `aid_sf = 1` and the divisor is
`(1 + 1) * 2 / 2 = 2`), and `aid_ni = 2^33`.  The claim gives
`aid_k = 2^33 / 2 = 2^32` and, with one iteration allocated, a quota remainder
of `2^32 - 1 > 0`, hence a granted range.  The quotient is narrowed to
`unsigned`: the call stores `aid_k = 0` and returns false, and the cursor stays
at `3`. -/
theorem aid_k_is_narrowed :
    gomp_iter_aid_static_next 2 0 11
        { chunk_size := 1, end_ := 8589934592, incr := 1, next := 3,
          aid_states := [AidState.AID_SAMPLING, AidState.AID_WAITING],
          aid_allocated_iter := [1, 2], aid_consumed_time := [10, 1],
          aid_thread_sampling_completed := 1, aid_ni := 8589934592 }
      = ({ chunk_size := 1, end_ := 8589934592, incr := 1, next := 3,
           aid_states := [AidState.AID_RUNNING, AidState.AID_WAITING],
           aid_allocated_iter := [1, 2], aid_consumed_time := [1, 1],
           aid_thread_sampling_completed := 2, aid_ni := 8589934592,
           aid_sf := 1, aid_k := 0 }, AidOutcome.ret none) ∧
    (8589934592 : Int) / (((1 + 1) * 2 / 2 : Nat) : Int) = 4294967296 ∧
    (0 : Int) < quotaSpec 2 0 4294967296 1 - 1 := by
  refine ⟨by decide, by decide, by decide⟩

/-- C12 (amended).  Adaptive static quota claim: in the call of
`gomp_iter_aid_static_next` that moves a thread to `Running` (from `Waiting`
with published values, or as last sampler), with `incr > 0` and the cursor
before `end`, let `Q = aid_k * aid_sf` if `team_id >= nthreads / 2` and
`Q = aid_k` otherwise, and `a` the thread's `aid_allocated_iter` before the
call.  Provided the `unsigned` product `aid_k * aid_sf` does not wrap and the
new cursor is representable, the call returns false and leaves the cursor
unchanged if `Q - a <= 0`, and otherwise grants `[next, next + (Q - a))` clipped
to `end`, advances the cursor by `Q - a` and leaves `aid_allocated_iter[team_id]`
equal to `Q`.  The stored unit is `aid_k = aid_ni / ((aid_sf + 1) * nthreads / 2)`
provided `aid_ni >= 0` and neither the divisor nor the quotient wraps as an
`unsigned`. -/
theorem aid_quota_claim (nthreads t : Nat) (now : Int) (ws : gomp_work_share)
    (hm : ws.mode = true) (hi : 0 < ws.incr) (hcur : ws.next < ws.end_) :
    (aidStateOf ws t = AidState.AID_WAITING → 0 < ws.aid_sf → 0 < ws.aid_k →
      ws.aid_k * ws.aid_sf < UINT_MOD →
      InLong (ws.next + (quotaSpec nthreads t ws.aid_k ws.aid_sf
        - ws.aid_allocated_iter.getD t 0)) →
      gomp_iter_aid_static_next nthreads t now ws =
        ((quotaClaimSpec { ws with aid_states := ws.aid_states.set t AidState.AID_RUNNING } t
            (quotaSpec nthreads t ws.aid_k ws.aid_sf)).1,
         AidOutcome.ret
          (quotaClaimSpec { ws with aid_states := ws.aid_states.set t AidState.AID_RUNNING } t
            (quotaSpec nthreads t ws.aid_k ws.aid_sf)).2)) ∧
    (aidStateOf ws t = AidState.AID_SAMPLING →
      (aid_sampled t now ws).aid_thread_sampling_completed ≥ nthreads →
      smallcore_time nthreads t now ws ≠ 0 →
      calib_div (sf_of nthreads t now ws) nthreads ≠ 0 →
      ((gomp_iter_aid_static_next nthreads t now ws).1.aid_sf = sf_of nthreads t now ws ∧
        (gomp_iter_aid_static_next nthreads t now ws).1.aid_k = k_of nthreads t now ws) ∧
      (k_of nthreads t now ws * sf_of nthreads t now ws < UINT_MOD →
        InLong (ws.next + (quotaSpec nthreads t (k_of nthreads t now ws)
          (sf_of nthreads t now ws) - ws.aid_allocated_iter.getD t 0)) →
        gomp_iter_aid_static_next nthreads t now ws =
          ((quotaClaimSpec (aid_published nthreads t now ws) t
              (quotaSpec nthreads t (k_of nthreads t now ws) (sf_of nthreads t now ws))).1,
           AidOutcome.ret
            (quotaClaimSpec (aid_published nthreads t now ws) t
              (quotaSpec nthreads t (k_of nthreads t now ws) (sf_of nthreads t now ws))).2)) ∧
      (0 ≤ ws.aid_ni → (sf_of nthreads t now ws + 1) * nthreads < UINT_MOD →
        ws.aid_ni / ((((sf_of nthreads t now ws + 1) * nthreads / 2 : Nat)) : Int)
          < 4294967296 →
        (((gomp_iter_aid_static_next nthreads t now ws).1.aid_k : Nat) : Int)
          = ws.aid_ni / ((((sf_of nthreads t now ws + 1) * nthreads / 2 : Nat)) : Int))) := by
  constructor
  · intro hs hsf hk hprod hov
    rw [aid_call_waiting nthreads t now ws hm hs, if_pos ⟨hsf, hk⟩]
    rw [static_claim_pos nthreads
      { ws with aid_states := ws.aid_states.set t AidState.AID_RUNNING } t
      ws.aid_k ws.aid_sf hi hcur hprod hov]
  · intro hs hlast hsmall hdiv
    obtain ⟨h1, h2, h3, -⟩ := aid_call_calibrates nthreads t now ws hm hs hlast hsmall hdiv
    refine ⟨⟨h2, h3⟩, ?_, ?_⟩
    · intro hprod hov
      rw [h1]
      rw [static_claim_pos nthreads (aid_published nthreads t now ws) t
        (k_of nthreads t now ws) (sf_of nthreads t now ws) hi hcur hprod hov]
    · intro hni hd hfit
      rw [h3]
      unfold k_of
      rw [calib_div_eq _ _ hd]
      exact calib_k_eq _ _ hni hfit

/-- Witness of C12 (amended): rank `1` of two threads leaves `Waiting` with
`aid_k = 50`, `aid_sf = 1` and two iterations allocated: it is granted
`[52, 100)` and its allocation becomes `50`. -/
theorem aid_quota_claim_witness :
    gomp_iter_aid_static_next 2 1 12
        { chunk_size := 1, end_ := 100, incr := 1, next := 52,
          aid_states := [AidState.AID_RUNNING, AidState.AID_WAITING],
          aid_allocated_iter := [50, 2], aid_consumed_time := [1, 1],
          aid_thread_sampling_completed := 2, aid_ni := 100, aid_sf := 1, aid_k := 50 }
      = ({ chunk_size := 1, end_ := 100, incr := 1, next := 100,
           aid_states := [AidState.AID_RUNNING, AidState.AID_RUNNING],
           aid_allocated_iter := [50, 50], aid_consumed_time := [1, 1],
           aid_thread_sampling_completed := 2, aid_ni := 100, aid_sf := 1, aid_k := 50 },
         AidOutcome.ret (some (52, 100))) :=
  (aid_quota_claim 2 1 12
    { chunk_size := 1, end_ := 100, incr := 1, next := 52,
      aid_states := [AidState.AID_RUNNING, AidState.AID_WAITING],
      aid_allocated_iter := [50, 2], aid_consumed_time := [1, 1],
      aid_thread_sampling_completed := 2, aid_ni := 100, aid_sf := 1, aid_k := 50 }
    rfl (by decide) (by decide)).1 (by decide) (by decide) (by decide) (by decide) (by decide)


/-- C14 (as stated, refuted).  Two threads, `aid_ni = 1`; rank `0` is `Waiting`,
rank `1` is the last sampler.  The calibration stores `aid_sf = 2` and
`aid_k = 1 / 3 = 0`.  In its next call rank `0` does not move to `Running`: it
steals the chunk `[3, 4)` and remains `Waiting`. -/
theorem aid_waiting_stays_when_k_zero :
    aidRun 2 [⟨1, 12⟩, ⟨0, 13⟩]
        { chunk_size := 1, end_ := 100, incr := 1, next := 3,
          aid_states := [AidState.AID_WAITING, AidState.AID_SAMPLING],
          aid_allocated_iter := [2, 1], aid_consumed_time := [1, 10],
          aid_thread_sampling_completed := 1, aid_ni := 1 }
      = ({ chunk_size := 1, end_ := 100, incr := 1, next := 4,
           aid_states := [AidState.AID_WAITING, AidState.AID_RUNNING],
           aid_allocated_iter := [3, 1], aid_consumed_time := [1, 2],
           aid_thread_sampling_completed := 2, aid_ni := 1, aid_sf := 2, aid_k := 0 },
         [(1, AidOutcome.ret none), (0, AidOutcome.ret (some (3, 4)))]) := by
  decide

/-- C14 (amended).  Waiting leaves once a nonzero calibration is published:
when the last sampler `t0` has computed and stored `aid_sf` and `aid_k` and the
stored `aid_k` is nonzero, the next call of `gomp_iter_aid_static_next` by any
thread `t` in state `Waiting` moves `t` to `Running` and performs the static
quota claim `AID_STATIC_NEXT_WITH` with the stored values; the same holds in
every work share whose `aid_sf` and `aid_k` are both nonzero. -/
theorem aid_waiting_leaves (nthreads t0 t : Nat) (now0 now1 : Int) (ws : gomp_work_share)
    (hm : ws.mode = true) (hs : aidStateOf ws t0 = AidState.AID_SAMPLING)
    (hlast : (aid_sampled t0 now0 ws).aid_thread_sampling_completed ≥ nthreads)
    (hsmall : smallcore_time nthreads t0 now0 ws ≠ 0)
    (hdiv : calib_div (sf_of nthreads t0 now0 ws) nthreads ≠ 0)
    (hw : aidStateOf ws t = AidState.AID_WAITING)
    (hk : 0 < k_of nthreads t0 now0 ws) :
    aidStateOf (gomp_iter_aid_static_next nthreads t0 now0 ws).1 t = AidState.AID_WAITING ∧
    0 < (gomp_iter_aid_static_next nthreads t0 now0 ws).1.aid_sf ∧
    0 < (gomp_iter_aid_static_next nthreads t0 now0 ws).1.aid_k ∧
    (∀ ws1 : gomp_work_share, ws1.mode = true → aidStateOf ws1 t = AidState.AID_WAITING →
      0 < ws1.aid_sf → 0 < ws1.aid_k →
      aidStateOf (gomp_iter_aid_static_next nthreads t now1 ws1).1 t = AidState.AID_RUNNING ∧
      gomp_iter_aid_static_next nthreads t now1 ws1 =
        ((AID_STATIC_NEXT_WITH
            { ws1 with aid_states := ws1.aid_states.set t AidState.AID_RUNNING }
            t ws1.aid_k ws1.aid_sf (decide (t ≥ nthreads / 2))).1,
         AidOutcome.ret (AID_STATIC_NEXT_WITH
            { ws1 with aid_states := ws1.aid_states.set t AidState.AID_RUNNING }
            t ws1.aid_k ws1.aid_sf (decide (t ≥ nthreads / 2))).2)) ∧
    aidStateOf (gomp_iter_aid_static_next nthreads t now1
      (gomp_iter_aid_static_next nthreads t0 now0 ws).1).1 t = AidState.AID_RUNNING := by
  have hne : t ≠ t0 := by
    intro h
    rw [h, hs] at hw
    cases hw
  obtain ⟨-, h2, h3, -⟩ := aid_call_calibrates nthreads t0 now0 ws hm hs hlast hsmall hdiv
  obtain ⟨g1, -, -, g4, -⟩ := aid_state_step nthreads t0 now0 ws hm
  have hwait : aidStateOf (gomp_iter_aid_static_next nthreads t0 now0 ws).1 t
      = AidState.AID_WAITING := by rw [g4 t hne, hw]
  have hsf : 0 < (gomp_iter_aid_static_next nthreads t0 now0 ws).1.aid_sf := by
    rw [h2]
    exact (calib_sf_bounds _ _).1
  have hk1 : 0 < (gomp_iter_aid_static_next nthreads t0 now0 ws).1.aid_k := by
    rw [h3]; exact hk
  have hgen : ∀ ws1 : gomp_work_share, ws1.mode = true →
      aidStateOf ws1 t = AidState.AID_WAITING → 0 < ws1.aid_sf → 0 < ws1.aid_k →
      aidStateOf (gomp_iter_aid_static_next nthreads t now1 ws1).1 t = AidState.AID_RUNNING ∧
      gomp_iter_aid_static_next nthreads t now1 ws1 =
        ((AID_STATIC_NEXT_WITH
            { ws1 with aid_states := ws1.aid_states.set t AidState.AID_RUNNING }
            t ws1.aid_k ws1.aid_sf (decide (t ≥ nthreads / 2))).1,
         AidOutcome.ret (AID_STATIC_NEXT_WITH
            { ws1 with aid_states := ws1.aid_states.set t AidState.AID_RUNNING }
            t ws1.aid_k ws1.aid_sf (decide (t ≥ nthreads / 2))).2) := by
    intro ws1 hm1 hw1 hsf1 hk1
    obtain ⟨-, -, -, -, s5⟩ := aid_state_step nthreads t now1 ws1 hm1
    constructor
    · rw [s5, hw1]
      simp only [aidNextState, hsf1, hk1, and_self, if_true]
    · rw [aid_call_waiting nthreads t now1 ws1 hm1 hw1, if_pos ⟨hsf1, hk1⟩]
  exact ⟨hwait, hsf, hk1, hgen, (hgen _ g1 hwait hsf hk1).1⟩

/-- Witness of C14 (amended): with `aid_ni = 100` the last sampler stores
`aid_k = 50`, and the waiting rank `0` moves to `Running` in its next call. -/
theorem aid_waiting_leaves_witness :
    aidStateOf (gomp_iter_aid_static_next 2 0 13
      (gomp_iter_aid_static_next 2 1 12
        { chunk_size := 1, end_ := 100, incr := 1, next := 3,
          aid_states := [AidState.AID_WAITING, AidState.AID_SAMPLING],
          aid_allocated_iter := [2, 1], aid_consumed_time := [1, 10],
          aid_thread_sampling_completed := 1, aid_ni := 100 }).1).1 0
      = AidState.AID_RUNNING :=
  (aid_waiting_leaves 2 1 0 12 13
    { chunk_size := 1, end_ := 100, incr := 1, next := 3,
      aid_states := [AidState.AID_WAITING, AidState.AID_SAMPLING],
      aid_allocated_iter := [2, 1], aid_consumed_time := [1, 10],
      aid_thread_sampling_completed := 1, aid_ni := 100 }
    rfl (by decide) (by decide) (by decide) (by decide) (by decide) (by decide)).2.2.2.2


/-- A range granted by `AID_STATIC_NEXT_WITH` starts at the cursor, is non-empty
and does not extend beyond `end`, provided the cursor advanced by the quota
remainder is representable as a `long`. -/
theorem static_claim_range (ws ws1 : gomp_work_share) (t k sf : Nat) (big : Bool)
    (a b : Int) (hov : InLong (ws.next + aid_quota_chunk ws t k sf big))
    (h : AID_STATIC_NEXT_WITH ws t k sf big = (ws1, some (a, b))) :
    a = ws.next ∧
    (0 < ws.incr → a < b ∧ b ≤ ws.end_) ∧
    (ws.incr ≤ 0 → b < a ∧ ws.end_ ≤ b) := by
  have hw := wrapLong_of_inLong _ hov
  unfold aid_quota_chunk at hw
  unfold AID_STATIC_NEXT_WITH sync_fetch_and_add at h
  simp only [hw] at h
  split_ifs at h <;>
    simp only [Prod.mk.injEq, Option.some.injEq, reduceCtorEq, and_false] at h <;>
    obtain ⟨-, rfl, rfl⟩ := h <;>
    refine ⟨rfl, ?_, ?_⟩ <;> intro _ <;> constructor <;> omega

/-- C15 (as stated, refuted).  Two threads on `[0, 1000)` with `chunk_size = 100`
and `aid_ni = 1000`.  Rank `0` steals chunks up to the cursor `900` while rank
`1` is still sampling; rank `1` then calibrates (`aid_sf = 1`, `aid_k = 500`) and
claims its static quota `500 - 100 = 400`: the fetch-and-add leaves the cursor
at `1300`, beyond `end = 1000`; the granted range is `[900, 1000)`. -/
theorem aid_quota_overshoots_cursor :
    (aidRun 2 [⟨1, 0⟩, ⟨0, 0⟩, ⟨0, 1⟩, ⟨0, 2⟩, ⟨0, 3⟩, ⟨0, 4⟩, ⟨0, 5⟩, ⟨0, 6⟩, ⟨0, 7⟩, ⟨1, 1⟩]
        { chunk_size := 100, end_ := 1000, incr := 1, next := 0,
          aid_states := [AidState.AID_INIT, AidState.AID_INIT],
          aid_allocated_iter := [0, 0], aid_consumed_time := [0, 0], aid_ni := 1000 })
      = ({ chunk_size := 100, end_ := 1000, incr := 1, next := 1300,
           aid_states := [AidState.AID_WAITING, AidState.AID_RUNNING],
           aid_allocated_iter := [800, 500], aid_consumed_time := [1, 1],
           aid_thread_sampling_completed := 2, aid_ni := 1000, aid_sf := 1, aid_k := 500 },
         [(1, AidOutcome.ret (some (0, 100))), (0, AidOutcome.ret (some (100, 200))),
          (0, AidOutcome.ret (some (200, 300))), (0, AidOutcome.ret (some (300, 400))),
          (0, AidOutcome.ret (some (400, 500))), (0, AidOutcome.ret (some (500, 600))),
          (0, AidOutcome.ret (some (600, 700))), (0, AidOutcome.ret (some (700, 800))),
          (0, AidOutcome.ret (some (800, 900))), (1, AidOutcome.ret (some (900, 1000)))]) ∧
    ¬ ((1300 : Int) ≤ 1000) := by
  constructor <;> decide

/-- C15 (amended).  Adaptive quota never grants beyond `end`: in the call of
`gomp_iter_aid_static_next` that performs the post-calibration static quota
claim (the last sampler, or a `Waiting` thread that finds `aid_sf` and `aid_k`
nonzero), provided the quota remainder and the cursor advanced by it are
representable as `long`, every granted range starts at the cursor, is non-empty
and has
`pend <= end` for `incr > 0` (mirrored for `incr < 0`).  Nothing is said about
the cursor after the call, which the fetch-and-add advances by the whole quota
remainder. -/
theorem aid_quota_range_within_end (nthreads t : Nat) (now : Int) (ws : gomp_work_share)
    (hm : ws.mode = true)
    (hs : (aidStateOf ws t = AidState.AID_WAITING ∧ 0 < ws.aid_sf ∧ 0 < ws.aid_k ∧
        InLong (aid_quota_chunk ws t ws.aid_k ws.aid_sf (decide (t ≥ nthreads / 2))) ∧
        InLong (ws.next + aid_quota_chunk ws t ws.aid_k ws.aid_sf
          (decide (t ≥ nthreads / 2)))) ∨
      (aidStateOf ws t = AidState.AID_SAMPLING ∧
        (aid_sampled t now ws).aid_thread_sampling_completed ≥ nthreads ∧
        InLong (aid_quota_chunk ws t (k_of nthreads t now ws)
          (sf_of nthreads t now ws) (decide (t ≥ nthreads / 2))) ∧
        InLong (ws.next + aid_quota_chunk ws t (k_of nthreads t now ws)
          (sf_of nthreads t now ws) (decide (t ≥ nthreads / 2)))))
    (a b : Int)
    (hres : (gomp_iter_aid_static_next nthreads t now ws).2 = AidOutcome.ret (some (a, b))) :
    aidStateOf (gomp_iter_aid_static_next nthreads t now ws).1 t = AidState.AID_RUNNING ∧
    a = ws.next ∧
    (0 < ws.incr → a < b ∧ b ≤ ws.end_) ∧
    (ws.incr < 0 → b < a ∧ ws.end_ ≤ b) := by
  obtain ⟨-, -, -, -, s5⟩ := aid_state_step nthreads t now ws hm
  rcases hs with ⟨hw, hsf, hk, -, hov⟩ | ⟨hsamp, hlast, -, hov⟩
  · have hrun : aidStateOf (gomp_iter_aid_static_next nthreads t now ws).1 t
        = AidState.AID_RUNNING := by
      rw [s5, hw]
      simp only [aidNextState, hsf, hk, and_self, if_true]
    rw [aid_call_waiting nthreads t now ws hm hw, if_pos ⟨hsf, hk⟩] at hres
    simp only [AidOutcome.ret.injEq] at hres
    obtain ⟨h1, h2, h3⟩ := static_claim_range
      { ws with aid_states := ws.aid_states.set t AidState.AID_RUNNING } _ t
      ws.aid_k ws.aid_sf (decide (t ≥ nthreads / 2)) a b hov (Prod.ext rfl hres)
    exact ⟨hrun, h1, h2, fun h => h3 h.le⟩
  · have hrun : aidStateOf (gomp_iter_aid_static_next nthreads t now ws).1 t
        = AidState.AID_RUNNING := by
      rw [s5, hsamp]
      have : nthreads ≤ (ws.aid_thread_sampling_completed + 1) % UINT_MOD := hlast
      simp only [aidNextState, this, if_true]
    rw [aid_call_sampling nthreads t now ws hm hsamp, if_pos hlast] at hres
    split_ifs at hres with h2 h3
    simp only [AidOutcome.ret.injEq] at hres
    obtain ⟨h1, h2, h3⟩ := static_claim_range (aid_published nthreads t now ws) _ t
      (k_of nthreads t now ws) (sf_of nthreads t now ws) (decide (t ≥ nthreads / 2)) a b
      hov (Prod.ext rfl hres)
    exact ⟨hrun, h1, h2, fun h => h3 h.le⟩

/-- Witness of C15 (amended): the quota claim of the last sampler at the cursor
`900` is granted `[900, 1000)`, which ends at `end`. -/
theorem aid_quota_range_within_end_witness :
    (gomp_iter_aid_static_next 2 1 1
        { chunk_size := 100, end_ := 1000, incr := 1, next := 900,
          aid_states := [AidState.AID_WAITING, AidState.AID_SAMPLING],
          aid_allocated_iter := [800, 100], aid_consumed_time := [1, 0],
          aid_thread_sampling_completed := 1, aid_ni := 1000 }).2
      = AidOutcome.ret (some (900, 1000)) ∧
    ((900 : Int) < 1000 ∧ (1000 : Int) ≤ 1000) :=
  ⟨by decide,
   ((aid_quota_range_within_end 2 1 1
    { chunk_size := 100, end_ := 1000, incr := 1, next := 900,
      aid_states := [AidState.AID_WAITING, AidState.AID_SAMPLING],
      aid_allocated_iter := [800, 100], aid_consumed_time := [1, 0],
      aid_thread_sampling_completed := 1, aid_ni := 1000 }
    rfl (Or.inr ⟨by decide, by decide, by decide, by decide⟩) 900 1000
      (by decide)).2.2.1) (by decide)⟩


theorem foldl_add_mod (g : Nat → Nat) (M : Nat) (l : List Nat) (a : Nat) :
    l.foldl (fun acc i => (acc + g i) % M) a = (a + (l.map g).sum) % M ∨
    (l = [] ∧ l.foldl (fun acc i => (acc + g i) % M) a = a) := by
  induction l generalizing a with
  | nil => exact Or.inr ⟨rfl, rfl⟩
  | cons x l ih =>
    left
    simp only [List.foldl_cons, List.map_cons, List.sum_cons]
    rcases ih ((a + g x) % M) with h | ⟨hl, h⟩
    · rw [h, Nat.add_mod, Nat.mod_mod, ← Nat.add_mod, Nat.add_assoc]
    · rw [h, hl]
      simp

/-- The `unsigned long` sum of the calibration is the exact sum modulo
`2^64`. -/
theorem sum_consumed_time_eq (ws : gomp_work_share) (lo hi : Nat) :
    sum_consumed_time ws lo hi = sampleSum ws lo hi % ULONG_MOD := by
  unfold sum_consumed_time sampleSum
  rcases foldl_add_mod (fun i => toULong (ws.aid_consumed_time.getD i 0)) ULONG_MOD
    ((List.range hi).filter (fun i => lo ≤ i)) 0 with h | ⟨hl, h⟩
  · rw [h, Nat.zero_add]
  · rw [h, hl]
    rfl

theorem toULong_eq_zero_iff (x : Int) (hx : InLong x) : toULong x = 0 ↔ x = 0 := by
  unfold InLong at hx
  unfold toULong
  simp only [LONG_LIM, ULONG_MOD] at *
  constructor
  · intro h
    have h0 : 0 ≤ x % (18446744073709551616 : Int) := Int.emod_nonneg _ (by decide)
    have h1 : x % (18446744073709551616 : Int) = 0 := by
      have := Int.toNat_of_nonneg h0
      simp only [Nat.cast_ofNat] at h
      omega
    omega
  · intro h
    subst h
    rfl

theorem list_sum_eq_zero_iff (l : List Nat) : l.sum = 0 ↔ ∀ x ∈ l, x = 0 := by
  induction l with
  | nil => simp
  | cons a l ih => simp [List.sum_cons, ih]

theorem sampleSum_eq_zero_iff (ws : gomp_work_share) (hi : Nat) :
    sampleSum ws 0 hi = 0 ↔ ∀ i : Nat, i < hi → toULong (ws.aid_consumed_time.getD i 0) = 0 := by
  unfold sampleSum
  rw [list_sum_eq_zero_iff]
  constructor
  · intro h i hlt
    apply h
    simp only [List.mem_map, List.mem_filter, List.mem_range]
    exact ⟨i, ⟨hlt, by simp⟩, rfl⟩
  · intro h x hx
    simp only [List.mem_map, List.mem_filter, List.mem_range] at hx
    obtain ⟨i, ⟨hlt, -⟩, rfl⟩ := hx
    exact h i hlt

/-- With one thread the slower half is empty and the divisor is zero. -/
theorem smallcore_time_one (t : Nat) (now : Int) (ws : gomp_work_share) :
    smallcore_time 1 t now ws = 0 := by
  unfold smallcore_time sum_consumed_time
  rfl

/-- C20.  Zero divisor in calibration: the divisor `smallcore_time` of the `sf`
computation is the sum of `aid_consumed_time` over the ranks below
`nthreads / 2`, taken modulo `2^64`; when the sum does not wrap it is nonzero
exactly when some rank below `nthreads / 2` has a nonzero sampled time.  With
`nthreads == 1` the divisor is `0` whatever the sampled times are, and the
second call of a thread that starts in `Init` ends in the division by zero.
With `nthreads >= 2`, no wrap and every sample of the slower half at least `1`,
the divisor is positive.  The function divides by this sum: for every team
size, the calibrating call (a thread in `Sampling` whose increment brings the
counter to `nthreads`) ends in the division by zero when the sum is `0`, in
particular when every sample of the slower half is `0`; and when the sum and
the divisor of `k` are nonzero it does not, and stores as `aid_sf` the quotient
`(bigcore_time + smallcore_time - 1) / smallcore_time` narrowed to `unsigned`
(`1` in place of `0`). -/
theorem aid_zero_divisor (nthreads t : Nat) (now : Int) (ws : gomp_work_share) :
    smallcore_time nthreads t now ws
      = sampleSum (aid_calibrating t now ws) 0 (nthreads / 2) % ULONG_MOD ∧
    (sampleSum (aid_calibrating t now ws) 0 (nthreads / 2) < ULONG_MOD →
      (∀ i : Nat, i < nthreads / 2 →
        InLong ((aid_calibrating t now ws).aid_consumed_time.getD i 0)) →
      (smallcore_time nthreads t now ws ≠ 0 ↔
        ∃ i : Nat, i < nthreads / 2 ∧
          (aid_calibrating t now ws).aid_consumed_time.getD i 0 ≠ 0)) ∧
    (nthreads = 1 →
      smallcore_time nthreads t now ws = 0 ∧
      (ws.mode = true → aidStateOf ws t = AidState.AID_INIT →
        1 ≤ (ws.aid_thread_sampling_completed + 1) % UINT_MOD →
        ∀ now2 : Int,
          (gomp_iter_aid_static_next nthreads t now2
            (gomp_iter_aid_static_next nthreads t now ws).1).2 = AidOutcome.div_by_zero)) ∧
    (2 ≤ nthreads →
      sampleSum (aid_calibrating t now ws) 0 (nthreads / 2) < ULONG_MOD →
      (∀ i : Nat, i < nthreads / 2 →
        1 ≤ (aid_calibrating t now ws).aid_consumed_time.getD i 0 ∧
        InLong ((aid_calibrating t now ws).aid_consumed_time.getD i 0)) →
      0 < smallcore_time nthreads t now ws) ∧
    (ws.mode = true → aidStateOf ws t = AidState.AID_SAMPLING →
      (aid_sampled t now ws).aid_thread_sampling_completed ≥ nthreads →
      (smallcore_time nthreads t now ws = 0 →
        (gomp_iter_aid_static_next nthreads t now ws).2 = AidOutcome.div_by_zero) ∧
      ((∀ i : Nat, i < nthreads / 2 →
          (aid_calibrating t now ws).aid_consumed_time.getD i 0 = 0) →
        (gomp_iter_aid_static_next nthreads t now ws).2 = AidOutcome.div_by_zero) ∧
      (smallcore_time nthreads t now ws ≠ 0 →
        calib_div (sf_of nthreads t now ws) nthreads ≠ 0 →
        (gomp_iter_aid_static_next nthreads t now ws).2 ≠ AidOutcome.div_by_zero ∧
        (gomp_iter_aid_static_next nthreads t now ws).1.aid_sf
          = (if (((bigcore_time nthreads t now ws + smallcore_time nthreads t now ws
                + (ULONG_MOD - 1)) % ULONG_MOD) / smallcore_time nthreads t now ws)
                % UINT_MOD = 0 then 1
            else (((bigcore_time nthreads t now ws + smallcore_time nthreads t now ws
                + (ULONG_MOD - 1)) % ULONG_MOD) / smallcore_time nthreads t now ws)
                % UINT_MOD))) := by
  have heq : smallcore_time nthreads t now ws
      = sampleSum (aid_calibrating t now ws) 0 (nthreads / 2) % ULONG_MOD :=
    sum_consumed_time_eq _ _ _
  have hiff : sampleSum (aid_calibrating t now ws) 0 (nthreads / 2) < ULONG_MOD →
      (∀ i : Nat, i < nthreads / 2 →
        InLong ((aid_calibrating t now ws).aid_consumed_time.getD i 0)) →
      (smallcore_time nthreads t now ws ≠ 0 ↔
        ∃ i : Nat, i < nthreads / 2 ∧
          (aid_calibrating t now ws).aid_consumed_time.getD i 0 ≠ 0) := by
    intro hw hin
    rw [heq, Nat.mod_eq_of_lt hw, Ne, sampleSum_eq_zero_iff]
    constructor
    · intro h
      by_contra hcon
      push_neg at hcon
      exact h (fun i hi => (toULong_eq_zero_iff _ (hin i hi)).mpr (hcon i hi))
    · rintro ⟨i, hi, hne⟩ h
      exact hne ((toULong_eq_zero_iff _ (hin i hi)).mp (h i hi))
  refine ⟨heq, hiff, ?_, ?_, ?_⟩
  · intro h1
    subst h1
    refine ⟨smallcore_time_one t now ws, ?_⟩
    intro hm hs hcnt now2
    obtain ⟨s1, s2, -, -, s5⟩ := aid_state_step 1 t now ws hm
    rw [hs] at s2 s5
    have hs1 : aidStateOf (gomp_iter_aid_static_next 1 t now ws).1 t
        = AidState.AID_SAMPLING := s5
    have hc1 : (gomp_iter_aid_static_next 1 t now ws).1.aid_thread_sampling_completed
        = ws.aid_thread_sampling_completed := s2
    rw [aid_call_sampling 1 t now2 _ s1 hs1]
    have hlast : (aid_sampled t now2
        (gomp_iter_aid_static_next 1 t now ws).1).aid_thread_sampling_completed ≥ 1 := by
      show ((gomp_iter_aid_static_next 1 t now ws).1.aid_thread_sampling_completed + 1)
        % UINT_MOD ≥ 1
      rw [hc1]
      exact hcnt
    rw [if_pos hlast, if_pos (smallcore_time_one t now2 _)]
  · intro h2 hw hpos
    have hne := (hiff hw (fun i hi => (hpos i hi).2)).mpr
      ⟨0, by omega, by have := (hpos 0 (by omega)).1; omega⟩
    omega
  · intro hm hs hlast
    have hzero : smallcore_time nthreads t now ws = 0 →
        (gomp_iter_aid_static_next nthreads t now ws).2 = AidOutcome.div_by_zero := by
      intro h0
      rw [aid_call_sampling nthreads t now ws hm hs, if_pos hlast, if_pos h0]
    refine ⟨hzero, ?_, ?_⟩
    · intro hall
      apply hzero
      have hs0 : sampleSum (aid_calibrating t now ws) 0 (nthreads / 2) = 0 :=
        (sampleSum_eq_zero_iff _ _).mpr (fun i hi => by rw [hall i hi]; rfl)
      rw [heq, hs0, Nat.zero_mod]
    · intro hsmall hdiv
      obtain ⟨h1, h2, -, -⟩ := aid_call_calibrates nthreads t now ws hm hs hlast hsmall hdiv
      refine ⟨?_, ?_⟩
      · rw [h1]
        exact fun h => AidOutcome.noConfusion h
      · rw [h2]
        rfl

/-- Witness of C20: a single thread on `[0, 10)`; its second call divides by
zero.  And two threads of which rank `1` is the last sampler while the sample
of rank `0` is `0`: the call of rank `1` divides by zero. -/
theorem aid_zero_divisor_witness :
    (gomp_iter_aid_static_next 1 0 5
      (gomp_iter_aid_static_next 1 0 3
        { chunk_size := 2, end_ := 10, incr := 1, next := 0,
          aid_states := [AidState.AID_INIT], aid_allocated_iter := [0],
          aid_consumed_time := [0], aid_ni := 10 }).1).2 = AidOutcome.div_by_zero ∧
    (gomp_iter_aid_static_next 2 1 12
        { chunk_size := 1, end_ := 100, incr := 1, next := 3,
          aid_states := [AidState.AID_WAITING, AidState.AID_SAMPLING],
          aid_allocated_iter := [2, 1], aid_consumed_time := [0, 10],
          aid_thread_sampling_completed := 1, aid_ni := 100 }).2
      = AidOutcome.div_by_zero :=
  ⟨((aid_zero_divisor 1 0 3
    { chunk_size := 2, end_ := 10, incr := 1, next := 0,
      aid_states := [AidState.AID_INIT], aid_allocated_iter := [0],
      aid_consumed_time := [0], aid_ni := 10 }).2.2.1 rfl).2 rfl (by decide) (by decide) 5,
   ((aid_zero_divisor 2 1 12
    { chunk_size := 1, end_ := 100, incr := 1, next := 3,
      aid_states := [AidState.AID_WAITING, AidState.AID_SAMPLING],
      aid_allocated_iter := [2, 1], aid_consumed_time := [0, 10],
      aid_thread_sampling_completed := 1, aid_ni := 100 }).2.2.2.2
      rfl (by decide) (by decide)).2.1
      (fun i hi => by
        have h0 : i = 0 := by omega
        subst h0
        decide)⟩


theorem stateAfter_fixed {σ ρ : Type} (f : σ → σ × ρ) (s : σ) (r : ρ) (h : f s = (s, r))
    (k : Nat) : stateAfter f s k = s ∧ resultOf f s k = r := by
  have hs : ∀ j : Nat, stateAfter f s j = s := by
    intro j
    induction j with
    | zero => rfl
    | succ j ih => rw [stateAfter, ih, h]
  exact ⟨hs k, by rw [resultOf, hs k, h]⟩

theorem stateAfter_shift {σ ρ : Type} (f : σ → σ × ρ) (s : σ) (k : Nat) :
    stateAfter f s (k + 1) = stateAfter f (f s).1 k := by
  induction k with
  | zero => rfl
  | succ k ih =>
    rw [stateAfter, ih]
    rfl

/-- Shape of a sequence of calls of `gomp_iter_guided_next_locked` with
`chunk_size >= 1` or a stride that divides `end - next`: call `k` grants the
range from the cursor before it to the cursor after it, unless the cursor is at
`end`; the distance to `end` never grows and shrinks with every grant. -/
theorem guided_run_facts (nthreads : Nat) (ws : gomp_work_share)
    (hwf : GuidedWF nthreads ws)
    (hc : 1 ≤ ws.chunk_size ∨ ws.incr ∣ ws.end_ - ws.next) (k : Nat) :
    GuidedWF nthreads (stateAfter (gomp_iter_guided_next_locked (some nthreads)) ws k) ∧
    (stateAfter (gomp_iter_guided_next_locked (some nthreads)) ws k).incr = ws.incr ∧
    (stateAfter (gomp_iter_guided_next_locked (some nthreads)) ws k).end_ = ws.end_ ∧
    ((stateAfter (gomp_iter_guided_next_locked (some nthreads)) ws k).next = ws.end_ →
      resultOf (gomp_iter_guided_next_locked (some nthreads)) ws k = none ∧
      (stateAfter (gomp_iter_guided_next_locked (some nthreads)) ws (k + 1)).next = ws.end_) ∧
    ((stateAfter (gomp_iter_guided_next_locked (some nthreads)) ws k).next ≠ ws.end_ →
      resultOf (gomp_iter_guided_next_locked (some nthreads)) ws k
        = some ((stateAfter (gomp_iter_guided_next_locked (some nthreads)) ws k).next,
            (stateAfter (gomp_iter_guided_next_locked (some nthreads)) ws (k + 1)).next) ∧
      (ws.end_ - (stateAfter (gomp_iter_guided_next_locked (some nthreads)) ws (k + 1)).next).natAbs
        < (ws.end_ - (stateAfter (gomp_iter_guided_next_locked (some nthreads)) ws k).next).natAbs) ∧
    (ws.end_ - (stateAfter (gomp_iter_guided_next_locked (some nthreads)) ws k).next).natAbs
      ≤ (ws.end_ - ws.next).natAbs - k := by
  obtain ⟨hwfk, hincr, hend, hcs⟩ := guided_state_wf nthreads ws hwf k
  refine ⟨hwfk, hincr, hend, ?_, ?_, guided_dist_bound nthreads ws hwf hc k⟩
  · intro h
    have h1 := guided_locked_exhausted (some nthreads) _ (h.trans hend.symm)
    exact ⟨by rw [resultOf, h1], by rw [stateAfter, h1]; exact h⟩
  · intro h
    have hne : (stateAfter (gomp_iter_guided_next_locked (some nthreads)) ws k).next
        ≠ (stateAfter (gomp_iter_guided_next_locked (some nthreads)) ws k).end_ := by
      rw [hend]; exact h
    obtain ⟨ws1, h1, -, -, -, -, -, -⟩ := guided_step_analysis nthreads _ hwfk hne
    have hd := guided_dist_decreases nthreads _ hwfk
      (guided_prog_state nthreads ws hwf hc k) hne
    rw [hend] at hd
    refine ⟨?_, ?_⟩
    · rw [resultOf, stateAfter, h1]
    · rw [stateAfter]
      exact hd

/-- Coverage by a sequence of calls of `gomp_iter_guided_next_locked`, positive
stride. -/
theorem guided_cover_pos (nthreads : Nat) (ws : gomp_work_share)
    (hwf : GuidedWF nthreads ws)
    (hc : 1 ≤ ws.chunk_size ∨ ws.incr ∣ ws.end_ - ws.next) (hpos : 0 < ws.incr)
    (x : Int) (hx1 : ws.next ≤ x) (hx2 : x < ws.end_) :
    ∃! k : Nat, ∃ a b : Int,
      resultOf (gomp_iter_guided_next_locked (some nthreads)) ws k = some (a, b) ∧
      a ≤ x ∧ x < b := by
  have hF := guided_run_facts nthreads ws hwf hc
  have hdir : ∀ k : Nat,
      (stateAfter (gomp_iter_guided_next_locked (some nthreads)) ws k).next ≤ ws.end_ := by
    intro k
    obtain ⟨hw, hi, he, -⟩ := hF k
    rcases hw.1 with ⟨_, h⟩ | ⟨h, _⟩
    · rw [he] at h; exact h
    · rw [hi] at h; omega
  have hmono : ∀ k : Nat,
      (stateAfter (gomp_iter_guided_next_locked (some nthreads)) ws k).next
        ≤ (stateAfter (gomp_iter_guided_next_locked (some nthreads)) ws (k + 1)).next := by
    intro k
    obtain ⟨-, -, -, h1, h2, -⟩ := hF k
    have := hdir k
    have := hdir (k + 1)
    by_cases he : (stateAfter (gomp_iter_guided_next_locked (some nthreads)) ws k).next
        = ws.end_
    · rw [(h1 he).2, he]
    · have := (h2 he).2
      omega
  have hlo : ∀ k : Nat,
      ws.next ≤ (stateAfter (gomp_iter_guided_next_locked (some nthreads)) ws k).next := by
    intro k
    induction k with
    | zero => exact le_refl _
    | succ k ih => exact le_trans ih (hmono k)
  have hfin : (stateAfter (gomp_iter_guided_next_locked (some nthreads)) ws
      (ws.end_ - ws.next).natAbs).next = ws.end_ := by
    have := (hF (ws.end_ - ws.next).natAbs).2.2.2.2.2
    have := hdir (ws.end_ - ws.next).natAbs
    omega
  have huniq := step_index_unique
    (fun k => ((stateAfter (gomp_iter_guided_next_locked (some nthreads)) ws k).next
      - ws.next).toNat)
    (fun k => by
      have := hmono k
      have := hlo k
      simp only
      omega)
    (ws.end_ - ws.next).natAbs (x - ws.next).toNat
    (by simp [stateAfter])
    (by simp only [hfin]; omega)
  refine (existsUnique_congr (fun k => ?_)).mpr huniq
  obtain ⟨-, -, -, h1, h2, h3⟩ := hF k
  have hk0 := hlo k
  have hk1 := hlo (k + 1)
  have hm := hmono k
  simp only
  constructor
  · rintro ⟨a, b, hres, ha, hb⟩
    by_cases he : (stateAfter (gomp_iter_guided_next_locked (some nthreads)) ws k).next
        = ws.end_
    · rw [(h1 he).1] at hres
      cases hres
    · rw [(h2 he).1] at hres
      simp only [Option.some.injEq, Prod.mk.injEq] at hres
      obtain ⟨rfl, rfl⟩ := hres
      have := hdir k
      refine ⟨?_, ?_, ?_⟩ <;> omega
  · rintro ⟨-, ha, hb⟩
    have he : (stateAfter (gomp_iter_guided_next_locked (some nthreads)) ws k).next
        ≠ ws.end_ := by omega
    exact ⟨_, _, (h2 he).1, by omega, by omega⟩

/-- Coverage by a sequence of calls of `gomp_iter_guided_next_locked`, negative
stride. -/
theorem guided_cover_neg (nthreads : Nat) (ws : gomp_work_share)
    (hwf : GuidedWF nthreads ws)
    (hc : 1 ≤ ws.chunk_size ∨ ws.incr ∣ ws.end_ - ws.next) (hneg : ws.incr < 0)
    (x : Int) (hx1 : ws.end_ < x) (hx2 : x ≤ ws.next) :
    ∃! k : Nat, ∃ a b : Int,
      resultOf (gomp_iter_guided_next_locked (some nthreads)) ws k = some (a, b) ∧
      b < x ∧ x ≤ a := by
  have hF := guided_run_facts nthreads ws hwf hc
  have hdir : ∀ k : Nat,
      ws.end_ ≤ (stateAfter (gomp_iter_guided_next_locked (some nthreads)) ws k).next := by
    intro k
    obtain ⟨hw, hi, he, -⟩ := hF k
    rcases hw.1 with ⟨h, _⟩ | ⟨_, h⟩
    · rw [hi] at h; omega
    · rw [he] at h; exact h
  have hmono : ∀ k : Nat,
      (stateAfter (gomp_iter_guided_next_locked (some nthreads)) ws (k + 1)).next
        ≤ (stateAfter (gomp_iter_guided_next_locked (some nthreads)) ws k).next := by
    intro k
    obtain ⟨-, -, -, h1, h2, -⟩ := hF k
    have := hdir k
    have := hdir (k + 1)
    by_cases he : (stateAfter (gomp_iter_guided_next_locked (some nthreads)) ws k).next
        = ws.end_
    · rw [(h1 he).2, he]
    · have := (h2 he).2
      omega
  have hlo : ∀ k : Nat,
      (stateAfter (gomp_iter_guided_next_locked (some nthreads)) ws k).next ≤ ws.next := by
    intro k
    induction k with
    | zero => exact le_refl _
    | succ k ih => exact le_trans (hmono k) ih
  have hfin : (stateAfter (gomp_iter_guided_next_locked (some nthreads)) ws
      (ws.end_ - ws.next).natAbs).next = ws.end_ := by
    have := (hF (ws.end_ - ws.next).natAbs).2.2.2.2.2
    have := hdir (ws.end_ - ws.next).natAbs
    omega
  have huniq := step_index_unique
    (fun k => (ws.next
      - (stateAfter (gomp_iter_guided_next_locked (some nthreads)) ws k).next).toNat)
    (fun k => by
      have := hmono k
      have := hlo k
      simp only
      omega)
    (ws.end_ - ws.next).natAbs (ws.next - x).toNat
    (by simp [stateAfter])
    (by simp only [hfin]; omega)
  refine (existsUnique_congr (fun k => ?_)).mpr huniq
  obtain ⟨-, -, -, h1, h2, h3⟩ := hF k
  have hk0 := hlo k
  have hk1 := hlo (k + 1)
  have hm := hmono k
  simp only
  constructor
  · rintro ⟨a, b, hres, hb, ha⟩
    by_cases he : (stateAfter (gomp_iter_guided_next_locked (some nthreads)) ws k).next
        = ws.end_
    · rw [(h1 he).1] at hres
      cases hres
    · rw [(h2 he).1] at hres
      simp only [Option.some.injEq, Prod.mk.injEq] at hres
      obtain ⟨rfl, rfl⟩ := hres
      have := hdir k
      refine ⟨?_, ?_, ?_⟩ <;> omega
  · rintro ⟨-, ha, hb⟩
    have he : (stateAfter (gomp_iter_guided_next_locked (some nthreads)) ws k).next
        ≠ ws.end_ := by omega
    exact ⟨_, _, (h2 he).1, by omega, by omega⟩

/-- A chain extended by a non-empty range that starts where it ended. -/
theorem rangeChain_snoc (l : List Range) (s e b : Int) (h : RangeChain s l e) (hb : e < b) :
    RangeChain s (l ++ [(e, b)]) b := by
  induction l generalizing s with
  | nil =>
    simp only [RangeChain] at h
    subst h
    exact ⟨rfl, hb, rfl⟩
  | cons r rest ih =>
    obtain ⟨h1, h2, h3⟩ := h
    exact ⟨h1, h2, ih r.2 h3⟩

/-- A chain ends at or after its start. -/
theorem rangeChain_le (l : List Range) (s e : Int) (h : RangeChain s l e) : s ≤ e := by
  induction l generalizing s with
  | nil => exact le_of_eq h
  | cons r rest ih =>
    obtain ⟨h1, h2, h3⟩ := h
    have := ih r.2 h3
    omega

/-- Every range of a chain is non-empty and lies between its two ends. -/
theorem rangeChain_mem (l : List Range) (s e : Int) (h : RangeChain s l e)
    (r : Range) (hr : r ∈ l) : s ≤ r.1 ∧ r.1 < r.2 ∧ r.2 ≤ e := by
  induction l generalizing s with
  | nil => simp at hr
  | cons r0 rest ih =>
    obtain ⟨h1, h2, h3⟩ := h
    rcases List.mem_cons.mp hr with rfl | hr
    · exact ⟨le_of_eq h1.symm, h2, rangeChain_le rest _ e h3⟩
    · have := ih r0.2 h3 hr
      omega

/-- In a chain a range granted earlier ends where a later one starts, or before. -/
theorem rangeChain_ordered (l : List Range) (s e : Int) (h : RangeChain s l e)
    (i j : Nat) (r r' : Range) (hij : i < j) (hi : l[i]? = some r) (hj : l[j]? = some r') :
    r.2 ≤ r'.1 := by
  induction l generalizing s i j with
  | nil => simp at hi
  | cons r0 rest ih =>
    obtain ⟨h1, h2, h3⟩ := h
    cases j with
    | zero => omega
    | succ j =>
      simp only [List.getElem?_cons_succ] at hj
      cases i with
      | zero =>
        simp only [List.getElem?_cons_zero, Option.some.injEq] at hi
        subst hi
        exact (rangeChain_mem rest _ e h3 r' (List.getElem?_mem hj)).1
      | succ i =>
        simp only [List.getElem?_cons_succ] at hi
        exact ih r0.2 h3 i j (by omega) hi hj

/-- Every point between the two ends of a chain lies in one of its ranges. -/
theorem rangeChain_cover (l : List Range) (s e : Int) (h : RangeChain s l e)
    (x : Int) (hs : s ≤ x) (he : x < e) :
    ∃ (i : Nat) (r : Range), l[i]? = some r ∧ r.1 ≤ x ∧ x < r.2 := by
  induction l generalizing s with
  | nil =>
    simp only [RangeChain] at h
    omega
  | cons r0 rest ih =>
    obtain ⟨h1, h2, h3⟩ := h
    by_cases hx : x < r0.2
    · exact ⟨0, r0, by simp, by omega, hx⟩
    · obtain ⟨i, r, hi, hr⟩ := ih r0.2 h3 (by omega)
      exact ⟨i + 1, r, by simpa using hi, hr⟩

/-- No point lies in two ranges of a chain. -/
theorem rangeChain_disjoint (l : List Range) (s e : Int) (h : RangeChain s l e)
    (i j : Nat) (r r' : Range) (x : Int) (hi : l[i]? = some r) (hj : l[j]? = some r')
    (hx : r.1 ≤ x ∧ x < r.2) (hx' : r'.1 ≤ x ∧ x < r'.2) : i = j := by
  rcases Nat.lt_trichotomy i j with hlt | heq | hgt
  · have := rangeChain_ordered l s e h i j r r' hlt hi hj
    omega
  · exact heq
  · have := rangeChain_ordered l s e h j i r' r hgt hj hi
    omega

theorem negRanges_append (l : List Range) (a b : Int) :
    negRanges (l ++ [(a, b)]) = negRanges l ++ [(-a, -b)] := by
  simp [negRanges]

theorem negRanges_getElem? (l : List Range) (i : Nat) (r : Range) (h : l[i]? = some r) :
    (negRanges l)[i]? = some (-r.1, -r.2) := by
  simp [negRanges, h]

theorem negRanges_mem (l : List Range) (r : Range) (h : r ∈ l) :
    (-r.1, -r.2) ∈ negRanges l := by
  unfold negRanges
  exact List.mem_map.mpr ⟨r, h, rfl⟩
theorem setPc_same (pc : Nat → DynPc) (t : Nat) (v : DynPc) : setPc pc t v t = v := by
  simp [setPc]

theorem setPc_cases (pc : Nat → DynPc) (t j : Nat) (v : DynPc) :
    setPc pc t v j = v ∨ setPc pc t v j = pc j := by
  unfold setPc
  split_ifs
  · exact Or.inl rfl
  · exact Or.inr rfl

/-- One atomic step keeps `DynInvUp`. -/
theorem dynInvUp_step (ws0 : gomp_work_share) (n : Nat) (s : DynConc) (t : Nat)
    (hi : 0 < ws0.incr) (hc : 0 < ws0.chunk_size)
    (hrep : ws0.mode = false →
      InLong ws0.next ∧ InLong ws0.end_ ∧ InLong (ws0.end_ - ws0.next))
    (hov : ws0.mode = true →
      ∀ m : Nat, m ≤ n → InLong (ws0.next + (m : Int) * ws0.chunk_size + ws0.chunk_size))
    (h : DynInvUp ws0 n s) : DynInvUp ws0 (n + 1) (dynamic_next_step s t) := by
  obtain ⟨⟨e1, e2, e3, e4⟩, hch, hT, hF, hL, hS⟩ := h
  have hcl := rangeChain_le _ _ _ hch
  unfold dynamic_next_step
  cases hpc : s.pc t with
  | stopped =>
    simp only
    refine ⟨⟨e1, e2, e3, e4⟩, hch, ?_, hF, hL, hS⟩
    intro hm
    obtain ⟨m, hm1, hm2⟩ := hT hm
    exact ⟨m, by omega, hm2⟩
  | idle =>
    simp only
    cases hm : s.ws.mode with
    | true =>
      have hm0 : ws0.mode = true := by rw [← e1]; exact hm
      obtain ⟨m, hm1, hm2⟩ := hT hm0
      have hw : wrapLong (s.ws.next + s.ws.chunk_size) = s.ws.next + ws0.chunk_size := by
        rw [e4, hm2]
        exact wrapLong_of_inLong _ (hov hm0 m hm1)
      have hT2 : ∃ k : Nat, k ≤ n + 1 ∧
          wrapLong (s.ws.next + s.ws.chunk_size) = ws0.next + (k : Int) * ws0.chunk_size :=
        ⟨m + 1, by omega, by rw [hw, hm2]; push_cast; ring⟩
      have hL2 : ∀ (pc : Nat → DynPc) t a c, (pc t = DynPc.stopped ∨ pc t = s.pc t) →
          pc t = DynPc.loaded a c →
          ws0.mode = false ∧ ws0.next ≤ a ∧ a ≤ wrapLong (s.ws.next + s.ws.chunk_size) ∧
            0 < c := by
        intro pc t a c h1 h2
        rcases h1 with h1 | h1
        · rw [h1] at h2; cases h2
        · rw [h1] at h2
          have := hL t a c h2
          exact ⟨this.1, this.2.1, by omega, this.2.2.2⟩
      have hi2 : s.ws.incr > 0 := by omega
      simp only [sync_fetch_and_add, hi2, ↓reduceIte]
      by_cases hge : s.ws.next ≥ s.ws.end_
      · simp only [hge, ↓reduceIte]
        refine ⟨⟨hm0.symm, e2, e3, e4⟩, ?_, fun _ => hT2, ?_, ?_, ?_⟩
        · show RangeChain ws0.next s.granted
            (min (wrapLong (s.ws.next + s.ws.chunk_size)) ws0.end_)
          have e : min (wrapLong (s.ws.next + s.ws.chunk_size)) ws0.end_
              = min s.ws.next ws0.end_ := by omega
          rw [e]; exact hch
        · intro hf; rw [hm0] at hf; cases hf
        · intro t2 a c h2
          exact hL2 _ t2 a c (setPc_cases s.pc t t2 DynPc.stopped) h2
        · intro t2 _
          show ws0.end_ ≤ wrapLong (s.ws.next + s.ws.chunk_size)
          omega
      · simp only [hge, ↓reduceIte]
        refine ⟨⟨hm0.symm, e2, e3, e4⟩, ?_, fun _ => hT2, ?_, ?_, ?_⟩
        · show RangeChain ws0.next (s.granted ++ [(s.ws.next,
              if wrapLong (s.ws.next + s.ws.chunk_size) > s.ws.end_ then s.ws.end_
                else wrapLong (s.ws.next + s.ws.chunk_size))])
            (min (wrapLong (s.ws.next + s.ws.chunk_size)) ws0.end_)
          have e : min s.ws.next ws0.end_ = s.ws.next := by omega
          rw [e] at hch
          have hb : s.ws.next <
              (if wrapLong (s.ws.next + s.ws.chunk_size) > s.ws.end_ then s.ws.end_
                else wrapLong (s.ws.next + s.ws.chunk_size)) := by
            split_ifs <;> omega
          have e5 : min (wrapLong (s.ws.next + s.ws.chunk_size)) ws0.end_ =
              (if wrapLong (s.ws.next + s.ws.chunk_size) > s.ws.end_ then s.ws.end_
                else wrapLong (s.ws.next + s.ws.chunk_size)) := by
            split_ifs <;> omega
          rw [e5]
          exact rangeChain_snoc _ _ _ _ hch hb
        · intro hf; rw [hm0] at hf; cases hf
        · intro t2 a c h2
          exact hL2 _ t2 a c (Or.inr rfl) h2
        · intro t2 h2
          have := hS t2 h2
          show ws0.end_ ≤ wrapLong (s.ws.next + s.ws.chunk_size)
          omega
    | false =>
      have hm0 : ws0.mode = false := by rw [← e1]; exact hm
      simp only [Bool.false_eq_true, ↓reduceIte]
      refine ⟨⟨e1, e2, e3, e4⟩, hch, ?_, hF, ?_, ?_⟩
      · intro hf; rw [hm0] at hf; cases hf
      · intro t2 a c h2
        replace h2 : setPc s.pc t (DynPc.loaded s.ws.next s.ws.chunk_size) t2
            = DynPc.loaded a c := h2
        rcases setPc_cases s.pc t t2 (DynPc.loaded s.ws.next s.ws.chunk_size) with h1 | h1
        · rw [h1] at h2
          simp only [DynPc.loaded.injEq] at h2
          obtain ⟨rfl, rfl⟩ := h2
          exact ⟨hm0, by omega, le_refl _, by omega⟩
        · rw [h1] at h2
          exact hL t2 a c h2
      · intro t2 h2
        replace h2 : setPc s.pc t (DynPc.loaded s.ws.next s.ws.chunk_size) t2
            = DynPc.stopped := h2
        rcases setPc_cases s.pc t t2 (DynPc.loaded s.ws.next s.ws.chunk_size) with h1 | h1
        · rw [h1] at h2; cases h2
        · rw [h1] at h2
          exact hS t2 h2
  | loaded a c =>
    simp only
    obtain ⟨hm0, ha0, ha, hc0⟩ := hL t a c hpc
    obtain ⟨hr1, hr2, hr3⟩ := hrep hm0
    unfold InLong at hr1 hr2 hr3
    have hle := hF hm0
    have hT2 : ws0.mode = true → ∃ m : Nat, m ≤ n + 1 ∧
        s.ws.next = ws0.next + (m : Int) * ws0.chunk_size := by
      intro hf; rw [hm0] at hf; cases hf
    by_cases hae : a = s.ws.end_
    · simp only [hae, ↓reduceIte]
      refine ⟨⟨e1, e2, e3, e4⟩, hch, hT2, hF, ?_, ?_⟩
      · intro t2 a2 c2 h2
        replace h2 : setPc s.pc t DynPc.stopped t2 = DynPc.loaded a2 c2 := h2
        rcases setPc_cases s.pc t t2 DynPc.stopped with h1 | h1
        · rw [h1] at h2; cases h2
        · rw [h1] at h2
          exact hL t2 a2 c2 h2
      · intro t2 h2
        replace h2 : setPc s.pc t DynPc.stopped t2 = DynPc.stopped := h2
        rcases setPc_cases s.pc t t2 DynPc.stopped with h1 | h1
        · show ws0.end_ ≤ s.ws.next
          omega
        · rw [h1] at h2
          exact hS t2 h2
    · have hi2 : ¬ s.ws.incr < 0 := by omega
      have hl : wrapLong (s.ws.end_ - a) = s.ws.end_ - a :=
        wrapLong_of_inLong _ (by unfold InLong; constructor <;> omega)
      have hn2 : wrapLong (a + (if c > s.ws.end_ - a then s.ws.end_ - a else c))
          = a + (if c > s.ws.end_ - a then s.ws.end_ - a else c) :=
        wrapLong_of_inLong _ (by unfold InLong; split_ifs <;> constructor <;> omega)
      simp only [hae, hi2, sync_val_compare_and_swap, hl, hn2, ↓reduceIte]
      by_cases hcas : s.ws.next = a
      · simp only [hcas, ↓reduceIte]
        refine ⟨⟨e1, e2, e3, e4⟩, ?_, ?_, ?_, ?_, ?_⟩
        · show RangeChain ws0.next (s.granted ++ [(a, a +
              if c > s.ws.end_ - a then s.ws.end_ - a else c)])
            (min (a + if c > s.ws.end_ - a then s.ws.end_ - a else c) ws0.end_)
          have e : min s.ws.next ws0.end_ = a := by omega
          rw [e] at hch
          have hb : a < a + (if c > s.ws.end_ - a then s.ws.end_ - a else c) := by
            split_ifs <;> omega
          have e5 : min (a + if c > s.ws.end_ - a then s.ws.end_ - a else c) ws0.end_
              = a + (if c > s.ws.end_ - a then s.ws.end_ - a else c) := by
            split_ifs <;> omega
          rw [e5]
          exact rangeChain_snoc _ _ _ _ hch hb
        · intro hf; rw [hm0] at hf; cases hf
        · intro _
          show a + (if c > s.ws.end_ - a then s.ws.end_ - a else c) ≤ ws0.end_
          split_ifs <;> omega
        · intro t2 a2 c2 h2
          replace h2 : setPc s.pc t DynPc.idle t2 = DynPc.loaded a2 c2 := h2
          rcases setPc_cases s.pc t t2 DynPc.idle with h1 | h1
          · rw [h1] at h2; cases h2
          · rw [h1] at h2
            have := hL t2 a2 c2 h2
            refine ⟨this.1, this.2.1, ?_, this.2.2.2⟩
            show a2 ≤ a + (if c > s.ws.end_ - a then s.ws.end_ - a else c)
            split_ifs <;> omega
        · intro t2 h2
          replace h2 : setPc s.pc t DynPc.idle t2 = DynPc.stopped := h2
          rcases setPc_cases s.pc t t2 DynPc.idle with h1 | h1
          · rw [h1] at h2; cases h2
          · rw [h1] at h2
            have := hS t2 h2
            omega
      · simp only [hcas, ↓reduceIte]
        refine ⟨⟨e1, e2, e3, e4⟩, hch, hT2, hF, ?_, ?_⟩
        · intro t2 a2 c2 h2
          replace h2 : setPc s.pc t (DynPc.loaded s.ws.next
              (if c > s.ws.end_ - a then s.ws.end_ - a else c)) t2 = DynPc.loaded a2 c2 := h2
          rcases setPc_cases s.pc t t2 (DynPc.loaded s.ws.next
              (if c > s.ws.end_ - a then s.ws.end_ - a else c)) with h1 | h1
          · rw [h1] at h2
            simp only [DynPc.loaded.injEq] at h2
            obtain ⟨rfl, rfl⟩ := h2
            refine ⟨hm0, by omega, le_refl _, ?_⟩
            split_ifs <;> omega
          · rw [h1] at h2
            exact hL t2 a2 c2 h2
        · intro t2 h2
          replace h2 : setPc s.pc t (DynPc.loaded s.ws.next
              (if c > s.ws.end_ - a then s.ws.end_ - a else c)) t2 = DynPc.stopped := h2
          rcases setPc_cases s.pc t t2 (DynPc.loaded s.ws.next
              (if c > s.ws.end_ - a then s.ws.end_ - a else c)) with h1 | h1
          · rw [h1] at h2; cases h2
          · rw [h1] at h2
            exact hS t2 h2
/-- One atomic step keeps `DynInvDown`. -/
theorem dynInvDown_step (ws0 : gomp_work_share) (n : Nat) (s : DynConc) (t : Nat)
    (hi : ws0.incr < 0) (hc : ws0.chunk_size < 0)
    (hrep : ws0.mode = false →
      InLong ws0.next ∧ InLong ws0.end_ ∧ InLong (ws0.end_ - ws0.next))
    (hov : ws0.mode = true →
      ∀ m : Nat, m ≤ n → InLong (ws0.next + (m : Int) * ws0.chunk_size + ws0.chunk_size))
    (h : DynInvDown ws0 n s) : DynInvDown ws0 (n + 1) (dynamic_next_step s t) := by
  obtain ⟨⟨e1, e2, e3, e4⟩, hch, hT, hF, hL, hS⟩ := h
  have hcl := rangeChain_le _ _ _ hch
  unfold dynamic_next_step
  cases hpc : s.pc t with
  | stopped =>
    simp only
    refine ⟨⟨e1, e2, e3, e4⟩, hch, ?_, hF, hL, hS⟩
    intro hm
    obtain ⟨m, hm1, hm2⟩ := hT hm
    exact ⟨m, by omega, hm2⟩
  | idle =>
    simp only
    cases hm : s.ws.mode with
    | true =>
      have hm0 : ws0.mode = true := by rw [← e1]; exact hm
      obtain ⟨m, hm1, hm2⟩ := hT hm0
      have hw : wrapLong (s.ws.next + s.ws.chunk_size) = s.ws.next + ws0.chunk_size := by
        rw [e4, hm2]
        exact wrapLong_of_inLong _ (hov hm0 m hm1)
      have hT2 : ∃ k : Nat, k ≤ n + 1 ∧
          wrapLong (s.ws.next + s.ws.chunk_size) = ws0.next + (k : Int) * ws0.chunk_size :=
        ⟨m + 1, by omega, by rw [hw, hm2]; push_cast; ring⟩
      have hL2 : ∀ (pc : Nat → DynPc) t a c, (pc t = DynPc.stopped ∨ pc t = s.pc t) →
          pc t = DynPc.loaded a c →
          ws0.mode = false ∧ a ≤ ws0.next ∧ wrapLong (s.ws.next + s.ws.chunk_size) ≤ a ∧
            c < 0 := by
        intro pc t a c h1 h2
        rcases h1 with h1 | h1
        · rw [h1] at h2; cases h2
        · rw [h1] at h2
          have := hL t a c h2
          exact ⟨this.1, this.2.1, by omega, this.2.2.2⟩
      have hi2 : ¬ s.ws.incr > 0 := by omega
      simp only [sync_fetch_and_add, hi2, ↓reduceIte]
      by_cases hge : s.ws.next ≤ s.ws.end_
      · simp only [hge, ↓reduceIte]
        refine ⟨⟨hm0.symm, e2, e3, e4⟩, ?_, fun _ => hT2, ?_, ?_, ?_⟩
        · show RangeChain (-ws0.next) (negRanges s.granted)
            (-(max (wrapLong (s.ws.next + s.ws.chunk_size)) ws0.end_))
          have e : max (wrapLong (s.ws.next + s.ws.chunk_size)) ws0.end_
              = max s.ws.next ws0.end_ := by omega
          rw [e]; exact hch
        · intro hf; rw [hm0] at hf; cases hf
        · intro t2 a c h2
          exact hL2 _ t2 a c (setPc_cases s.pc t t2 DynPc.stopped) h2
        · intro t2 _
          show wrapLong (s.ws.next + s.ws.chunk_size) ≤ ws0.end_
          omega
      · simp only [hge, ↓reduceIte]
        refine ⟨⟨hm0.symm, e2, e3, e4⟩, ?_, fun _ => hT2, ?_, ?_, ?_⟩
        · show RangeChain (-ws0.next) (negRanges (s.granted ++ [(s.ws.next,
              if wrapLong (s.ws.next + s.ws.chunk_size) < s.ws.end_ then s.ws.end_
                else wrapLong (s.ws.next + s.ws.chunk_size))]))
            (-(max (wrapLong (s.ws.next + s.ws.chunk_size)) ws0.end_))
          have e : -(max s.ws.next ws0.end_) = -s.ws.next := by omega
          rw [e] at hch
          have hb : -s.ws.next <
              -(if wrapLong (s.ws.next + s.ws.chunk_size) < s.ws.end_ then s.ws.end_
                else wrapLong (s.ws.next + s.ws.chunk_size)) := by
            split_ifs <;> omega
          have e5 : max (wrapLong (s.ws.next + s.ws.chunk_size)) ws0.end_ =
              (if wrapLong (s.ws.next + s.ws.chunk_size) < s.ws.end_ then s.ws.end_
                else wrapLong (s.ws.next + s.ws.chunk_size)) := by
            split_ifs <;> omega
          rw [e5, negRanges_append]
          exact rangeChain_snoc _ _ _ _ hch hb
        · intro hf; rw [hm0] at hf; cases hf
        · intro t2 a c h2
          exact hL2 _ t2 a c (Or.inr rfl) h2
        · intro t2 h2
          have := hS t2 h2
          show wrapLong (s.ws.next + s.ws.chunk_size) ≤ ws0.end_
          omega
    | false =>
      have hm0 : ws0.mode = false := by rw [← e1]; exact hm
      simp only [Bool.false_eq_true, ↓reduceIte]
      refine ⟨⟨e1, e2, e3, e4⟩, hch, ?_, hF, ?_, ?_⟩
      · intro hf; rw [hm0] at hf; cases hf
      · intro t2 a c h2
        replace h2 : setPc s.pc t (DynPc.loaded s.ws.next s.ws.chunk_size) t2
            = DynPc.loaded a c := h2
        rcases setPc_cases s.pc t t2 (DynPc.loaded s.ws.next s.ws.chunk_size) with h1 | h1
        · rw [h1] at h2
          simp only [DynPc.loaded.injEq] at h2
          obtain ⟨rfl, rfl⟩ := h2
          exact ⟨hm0, by omega, le_refl _, by omega⟩
        · rw [h1] at h2
          exact hL t2 a c h2
      · intro t2 h2
        replace h2 : setPc s.pc t (DynPc.loaded s.ws.next s.ws.chunk_size) t2
            = DynPc.stopped := h2
        rcases setPc_cases s.pc t t2 (DynPc.loaded s.ws.next s.ws.chunk_size) with h1 | h1
        · rw [h1] at h2; cases h2
        · rw [h1] at h2
          exact hS t2 h2
  | loaded a c =>
    simp only
    obtain ⟨hm0, ha0, ha, hc0⟩ := hL t a c hpc
    obtain ⟨hr1, hr2, hr3⟩ := hrep hm0
    unfold InLong at hr1 hr2 hr3
    have hle := hF hm0
    have hT2 : ws0.mode = true → ∃ m : Nat, m ≤ n + 1 ∧
        s.ws.next = ws0.next + (m : Int) * ws0.chunk_size := by
      intro hf; rw [hm0] at hf; cases hf
    by_cases hae : a = s.ws.end_
    · simp only [hae, ↓reduceIte]
      refine ⟨⟨e1, e2, e3, e4⟩, hch, hT2, hF, ?_, ?_⟩
      · intro t2 a2 c2 h2
        replace h2 : setPc s.pc t DynPc.stopped t2 = DynPc.loaded a2 c2 := h2
        rcases setPc_cases s.pc t t2 DynPc.stopped with h1 | h1
        · rw [h1] at h2; cases h2
        · rw [h1] at h2
          exact hL t2 a2 c2 h2
      · intro t2 h2
        replace h2 : setPc s.pc t DynPc.stopped t2 = DynPc.stopped := h2
        rcases setPc_cases s.pc t t2 DynPc.stopped with h1 | h1
        · show s.ws.next ≤ ws0.end_
          omega
        · rw [h1] at h2
          exact hS t2 h2
    · have hi2 : s.ws.incr < 0 := by omega
      have hl : wrapLong (s.ws.end_ - a) = s.ws.end_ - a :=
        wrapLong_of_inLong _ (by unfold InLong; constructor <;> omega)
      have hn2 : wrapLong (a + (if c < s.ws.end_ - a then s.ws.end_ - a else c))
          = a + (if c < s.ws.end_ - a then s.ws.end_ - a else c) :=
        wrapLong_of_inLong _ (by unfold InLong; split_ifs <;> constructor <;> omega)
      simp only [hae, hi2, sync_val_compare_and_swap, hl, hn2, ↓reduceIte]
      by_cases hcas : s.ws.next = a
      · simp only [hcas, ↓reduceIte]
        refine ⟨⟨e1, e2, e3, e4⟩, ?_, ?_, ?_, ?_, ?_⟩
        · show RangeChain (-ws0.next) (negRanges (s.granted ++ [(a, a +
              if c < s.ws.end_ - a then s.ws.end_ - a else c)]))
            (-(max (a + if c < s.ws.end_ - a then s.ws.end_ - a else c) ws0.end_))
          have e : -(max s.ws.next ws0.end_) = -a := by omega
          rw [e] at hch
          have hb : -a < -(a + (if c < s.ws.end_ - a then s.ws.end_ - a else c)) := by
            split_ifs <;> omega
          have e5 : max (a + if c < s.ws.end_ - a then s.ws.end_ - a else c) ws0.end_
              = a + (if c < s.ws.end_ - a then s.ws.end_ - a else c) := by
            split_ifs <;> omega
          rw [e5, negRanges_append]
          exact rangeChain_snoc _ _ _ _ hch hb
        · intro hf; rw [hm0] at hf; cases hf
        · intro _
          show ws0.end_ ≤ a + (if c < s.ws.end_ - a then s.ws.end_ - a else c)
          split_ifs <;> omega
        · intro t2 a2 c2 h2
          replace h2 : setPc s.pc t DynPc.idle t2 = DynPc.loaded a2 c2 := h2
          rcases setPc_cases s.pc t t2 DynPc.idle with h1 | h1
          · rw [h1] at h2; cases h2
          · rw [h1] at h2
            have := hL t2 a2 c2 h2
            refine ⟨this.1, this.2.1, ?_, this.2.2.2⟩
            show a + (if c < s.ws.end_ - a then s.ws.end_ - a else c) ≤ a2
            split_ifs <;> omega
        · intro t2 h2
          replace h2 : setPc s.pc t DynPc.idle t2 = DynPc.stopped := h2
          rcases setPc_cases s.pc t t2 DynPc.idle with h1 | h1
          · rw [h1] at h2; cases h2
          · rw [h1] at h2
            have := hS t2 h2
            omega
      · simp only [hcas, ↓reduceIte]
        refine ⟨⟨e1, e2, e3, e4⟩, hch, hT2, hF, ?_, ?_⟩
        · intro t2 a2 c2 h2
          replace h2 : setPc s.pc t (DynPc.loaded s.ws.next
              (if c < s.ws.end_ - a then s.ws.end_ - a else c)) t2 = DynPc.loaded a2 c2 := h2
          rcases setPc_cases s.pc t t2 (DynPc.loaded s.ws.next
              (if c < s.ws.end_ - a then s.ws.end_ - a else c)) with h1 | h1
          · rw [h1] at h2
            simp only [DynPc.loaded.injEq] at h2
            obtain ⟨rfl, rfl⟩ := h2
            refine ⟨hm0, by omega, le_refl _, ?_⟩
            split_ifs <;> omega
          · rw [h1] at h2
            exact hL t2 a2 c2 h2
        · intro t2 h2
          replace h2 : setPc s.pc t (DynPc.loaded s.ws.next
              (if c < s.ws.end_ - a then s.ws.end_ - a else c)) t2 = DynPc.stopped := h2
          rcases setPc_cases s.pc t t2 (DynPc.loaded s.ws.next
              (if c < s.ws.end_ - a then s.ws.end_ - a else c)) with h1 | h1
          · rw [h1] at h2; cases h2
          · rw [h1] at h2
            exact hS t2 h2
/-- A thread that runs alone through one call, in one atomic step with `mode`
true and in two (the load, then one round with a successful compare-and-swap)
with `mode` false, does what the sequential `gomp_iter_dynamic_next` does. -/
theorem dynamic_next_step_alone (s : DynConc) (t fuel : Nat) (hpc : s.pc t = DynPc.idle) :
    ∃ res : Option Range,
      gomp_iter_dynamic_next (fuel + 1) s.ws
        = some ((if s.ws.mode then dynamic_next_step s t
            else dynamic_next_step (dynamic_next_step s t) t).ws, res) ∧
      (if s.ws.mode then dynamic_next_step s t
          else dynamic_next_step (dynamic_next_step s t) t).granted
        = s.granted ++ res.toList ∧
      (if s.ws.mode then dynamic_next_step s t
          else dynamic_next_step (dynamic_next_step s t) t).pc t
        = (if res.isSome then DynPc.idle else DynPc.stopped) := by
  cases hm : s.ws.mode with
  | true =>
    simp only [↓reduceIte]
    unfold dynamic_next_step gomp_iter_dynamic_next
    simp only [hpc, hm, ↓reduceIte, sync_fetch_and_add]
    by_cases hi : s.ws.incr > 0
    · by_cases hge : s.ws.next ≥ s.ws.end_
      · simp only [hi, hge, ↓reduceIte]
        exact ⟨none, rfl, by simp, by simp [setPc]⟩
      · simp only [hi, hge, ↓reduceIte]
        exact ⟨_, rfl, by simp, by simp [hpc]⟩
    · by_cases hge : s.ws.next ≤ s.ws.end_
      · simp only [hi, hge, ↓reduceIte]
        exact ⟨none, rfl, by simp, by simp [setPc]⟩
      · simp only [hi, hge, ↓reduceIte]
        exact ⟨_, rfl, by simp, by simp [hpc]⟩
  | false =>
    simp only [Bool.false_eq_true, ↓reduceIte]
    have h1 : dynamic_next_step s t
        = { s with pc := setPc s.pc t (DynPc.loaded s.ws.next s.ws.chunk_size) } := by
      unfold dynamic_next_step
      simp only [hpc, hm, Bool.false_eq_true, ↓reduceIte]
    rw [h1]
    unfold dynamic_next_step gomp_iter_dynamic_next dynamic_next_loop
    simp only [setPc_same, hm, Bool.false_eq_true, ↓reduceIte, sync_val_compare_and_swap]
    by_cases he : s.ws.next = s.ws.end_
    · simp only [he, ↓reduceIte]
      refine ⟨none, ?_, by simp, by simp [setPc]⟩
      simp only [Option.map_some', Option.some.injEq, Prod.mk.injEq, and_true]
      cases hws : s.ws
      rw [hws] at hm he
      simp only at hm he
      simp only [gomp_work_share.mk.injEq, and_true, true_and]
      exact ⟨hm.symm, he.symm⟩
    · simp only [he, ↓reduceIte]
      exact ⟨_, by simp; rfl, by simp, by simp [setPc]⟩
/-- A schedule keeps `DynInvUp`. -/
theorem dynInvUp_run (ws0 : gomp_work_share) (sched : List Nat) (n : Nat) (s : DynConc)
    (hi : 0 < ws0.incr) (hc : 0 < ws0.chunk_size)
    (hrep : ws0.mode = false →
      InLong ws0.next ∧ InLong ws0.end_ ∧ InLong (ws0.end_ - ws0.next))
    (hov : ws0.mode = true →
      ∀ j : Nat, j ≤ n + sched.length → InLong (ws0.next + (j : Int) * ws0.chunk_size))
    (h : DynInvUp ws0 n s) :
    DynInvUp ws0 (n + sched.length) (dynamic_next_run s sched) := by
  induction sched generalizing n s with
  | nil => exact h
  | cons t ts ih =>
    have hstep := dynInvUp_step ws0 n s t hi hc hrep (fun hm m hmn => by
      have := hov hm (m + 1) (by simp only [List.length_cons]; omega)
      have e : ws0.next + ((m + 1 : Nat) : Int) * ws0.chunk_size
          = ws0.next + (m : Int) * ws0.chunk_size + ws0.chunk_size := by push_cast; ring
      rw [← e]; exact this) h
    have := ih (n + 1) (dynamic_next_step s t) (fun hm j hj => hov hm j (by
      simp only [List.length_cons]; omega)) hstep
    have e : n + (t :: ts).length = n + 1 + ts.length := by
      simp only [List.length_cons]; omega
    rw [e]
    exact this

/-- A schedule keeps `DynInvDown`. -/
theorem dynInvDown_run (ws0 : gomp_work_share) (sched : List Nat) (n : Nat) (s : DynConc)
    (hi : ws0.incr < 0) (hc : ws0.chunk_size < 0)
    (hrep : ws0.mode = false →
      InLong ws0.next ∧ InLong ws0.end_ ∧ InLong (ws0.end_ - ws0.next))
    (hov : ws0.mode = true →
      ∀ j : Nat, j ≤ n + sched.length → InLong (ws0.next + (j : Int) * ws0.chunk_size))
    (h : DynInvDown ws0 n s) :
    DynInvDown ws0 (n + sched.length) (dynamic_next_run s sched) := by
  induction sched generalizing n s with
  | nil => exact h
  | cons t ts ih =>
    have hstep := dynInvDown_step ws0 n s t hi hc hrep (fun hm m hmn => by
      have := hov hm (m + 1) (by simp only [List.length_cons]; omega)
      have e : ws0.next + ((m + 1 : Nat) : Int) * ws0.chunk_size
          = ws0.next + (m : Int) * ws0.chunk_size + ws0.chunk_size := by push_cast; ring
      rw [← e]; exact this) h
    have := ih (n + 1) (dynamic_next_step s t) (fun hm j hj => hov hm j (by
      simp only [List.length_cons]; omega)) hstep
    have e : n + (t :: ts).length = n + 1 + ts.length := by
      simp only [List.length_cons]; omega
    rw [e]
    exact this

/-- The team before any call satisfies `DynInvUp`. -/
theorem dynInvUp_init (ws : gomp_work_share) (h : ws.next ≤ ws.end_) :
    DynInvUp ws 0 (dynInit ws) := by
  refine ⟨⟨rfl, rfl, rfl, rfl⟩, ?_, fun _ => ⟨0, le_refl _, by simp [dynInit]⟩, fun _ => h,
    ?_, ?_⟩
  · show ws.next = min ws.next ws.end_
    omega
  · intro t a c h2
    simp [dynInit] at h2
  · intro t h2
    simp [dynInit] at h2

/-- The team before any call satisfies `DynInvDown`. -/
theorem dynInvDown_init (ws : gomp_work_share) (h : ws.end_ ≤ ws.next) :
    DynInvDown ws 0 (dynInit ws) := by
  refine ⟨⟨rfl, rfl, rfl, rfl⟩, ?_, fun _ => ⟨0, le_refl _, by simp [dynInit]⟩, fun _ => h,
    ?_, ?_⟩
  · show -ws.next = -(max ws.next ws.end_)
    omega
  · intro t a c h2
    simp [dynInit] at h2
  · intro t h2
    simp [dynInit] at h2
end Gomp
